import Mathlib

/-! Sector-based regularization of a scatterplot in the square `[-1,1] × [-1,1]`.

Shallow embedding of `src/main.cpp` (`SquareDomain`, `Scatterplot`,
`ScatterplotWidget::scatterplot`).

Numbers: the program computes in `double`; the embedding computes in an ordered
field `F` (the algebraic core, executable over `ℚ`) and in `ℝ` where the program
calls `std::cos`, `std::sin`, `std::atan2` or uses `π`.  Rounding is not modelled.
The comparison `==` of two `QPointF` is Qt's fuzzy comparison
(`QPointF.operatorEq`), with its tolerances evaluated in exact arithmetic.

Failure: `throw;` outside a handler and an out-of-range vector access end the
program; functions that can reach one of them return `Except Fault _`.
-/

namespace SectorRegularization

/-! ## Points and lines (the part of Qt the program uses) -/

/-- Planar point, Qt's `QPointF`, with coordinates `x()` and `y()`. -/
@[ext]
structure QPointF (F : Type) where
  x : F
  y : F

/-- Line segment from `pt1` to `pt2`, Qt's `QLineF`. -/
structure QLineF (F : Type) where
  pt1 : QPointF F
  pt2 : QPointF F

/-- Result kinds of `QLineF::intersects`. -/
inductive IntersectionType where
  | NoIntersection
  | BoundedIntersection
  | UnboundedIntersection
deriving DecidableEq, Repr

/-- Ways in which the program stops without a result: `rethrow` is a `throw;`
executed while no exception is being handled (`std::terminate`), `outOfRange` is
an access `v[i]` with `i` not below `v.size()`. -/
inductive Fault where
  | rethrow
  | outOfRange
deriving DecidableEq, Repr

section Core

variable {F : Type} [LinearOrderedField F]

instance : Add (QPointF F) := ⟨fun p q => ⟨p.x + q.x, p.y + q.y⟩⟩
instance : Sub (QPointF F) := ⟨fun p q => ⟨p.x - q.x, p.y - q.y⟩⟩
instance : HMul F (QPointF F) (QPointF F) := ⟨fun c p => ⟨c * p.x, c * p.y⟩⟩
instance : HMul (QPointF F) F (QPointF F) := ⟨fun p c => ⟨p.x * c, p.y * c⟩⟩
instance : Zero (QPointF F) := ⟨⟨0, 0⟩⟩

/-- Equality of both coordinates is decidable.  This is not the comparison `==`
of the program, which is `QPointF.operatorEq`. -/
instance : DecidableEq (QPointF F) := fun p q =>
  if hx : p.x = q.x then
    if hy : p.y = q.y then isTrue (by cases p; cases q; simp_all)
    else isFalse (fun h => hy (by rw [h]))
  else isFalse (fun h => hx (by rw [h]))

/-- Function `qFuzzyIsNull(d)` of Qt: `qAbs(d) <= 0.000000000001`. -/
def qFuzzyIsNull (d : F) : Prop := |d| ≤ 0.000000000001

/-- Function `qFuzzyCompare(p1, p2)` of Qt:
`qAbs(p1 - p2) * 1000000000000. <= qMin(qAbs(p1), qAbs(p2))`. -/
def qFuzzyCompare (p1 p2 : F) : Prop := |p1 - p2| * 1000000000000 ≤ min |p1| |p2|

/-- Comparison `p1 == p2` of two `QPointF` in Qt: each pair of coordinates is
compared with `qFuzzyIsNull` of the difference when one of the two is zero and
with `qFuzzyCompare` otherwise, so points that differ by a relative `10⁻¹²` are
equal. -/
def QPointF.operatorEq (p1 p2 : QPointF F) : Prop :=
  (if p1.x = 0 ∨ p2.x = 0 then qFuzzyIsNull (p1.x - p2.x) else qFuzzyCompare p1.x p2.x) ∧
    (if p1.y = 0 ∨ p2.y = 0 then qFuzzyIsNull (p1.y - p2.y) else qFuzzyCompare p1.y p2.y)

instance (d : F) : Decidable (qFuzzyIsNull d) := by
  unfold qFuzzyIsNull; infer_instance

instance (p1 p2 : F) : Decidable (qFuzzyCompare p1 p2) := by
  unfold qFuzzyCompare; infer_instance

instance (p1 p2 : QPointF F) : Decidable (QPointF.operatorEq p1 p2) := by
  unfold QPointF.operatorEq; infer_instance

/-- Method `QLineF::intersects(l, &intersectionPoint)`: the kind of intersection of the
segment `l1` with the segment `l`, and the point stored through the pointer
(`none` when nothing is stored: the lines are parallel).  The point is stored
before the bounds are tested, so it is also stored for an unbounded
intersection.  The parameters `na` and `nb` are the exact quotients; the program
computes them in `double`, where a ray through a corner of the square can get a
parameter just above `1` on both adjacent edges. -/
def QLineF.intersects (l1 l : QLineF F) : IntersectionType × Option (QPointF F) :=
  let a := l1.pt2 - l1.pt1
  let b := l.pt1 - l.pt2
  let c := l1.pt1 - l.pt1
  let denominator := a.y * b.x - a.x * b.y
  if denominator = 0 then (.NoIntersection, none)
  else
    let reciprocal := 1 / denominator
    let na := (b.y * c.x - b.x * c.y) * reciprocal
    let p := l1.pt1 + a * na
    if na < 0 ∨ na > 1 then (.UnboundedIntersection, some p)
    else
      let nb := (a.x * c.y - a.y * c.x) * reciprocal
      if nb < 0 ∨ nb > 1 then (.UnboundedIntersection, some p)
      else (.BoundedIntersection, some p)

/-- The test `ray.intersects( edge, &target ) == BoundedIntersection` of
`SquareDomain::sector`: `some p` when the test holds, with `p` the point it
stored in `target`; `none` when the test fails (whatever the failed test stored
is overwritten by the next test of the chain or dropped by `throw`). -/
def boundedHit (ray edge : QLineF F) : Option (QPointF F) :=
  match ray.intersects edge with
  | (.BoundedIntersection, some p) => some p
  | _ => none

/-! ## `struct Sector` -/

/-- Record `Sector`; the nested structs `intersection` and `deformation` are
flattened into prefixed fields. -/
structure Sector (F : Type) where
  intersection_begin : QPointF F
  intersection_center : QPointF F
  intersection_end : QPointF F
  deformation_density : QPointF F
  deformation_boundary : QPointF F
  deformation_uniform : QPointF F
  anchor : QPointF F
  area : F
  length : F
  points_count : F

/-- Default-constructed `Sector` (all members zero). -/
def Sector.zero : Sector F :=
  { intersection_begin := 0, intersection_center := 0, intersection_end := 0,
    deformation_density := 0, deformation_boundary := 0, deformation_uniform := 0,
    anchor := 0, area := 0, length := 0, points_count := 0 }

/-! ## `struct SquareDomain` -/

namespace SquareDomain

def bottomleft : QPointF F := ⟨-1, -1⟩
def bottomright : QPointF F := ⟨1, -1⟩
def topleft : QPointF F := ⟨-1, 1⟩
def topright : QPointF F := ⟨1, 1⟩

def left : QLineF F := ⟨bottomleft, topleft⟩
def top : QLineF F := ⟨topleft, topright⟩
def right : QLineF F := ⟨bottomright, topright⟩
def bottom : QLineF F := ⟨bottomleft, bottomright⟩

def total_area : F := 4
def total_circumference : F := 8

/-- Function `compute_area(a, b, c)`: area of the triangle `a b c`. -/
def compute_area (a b c : QPointF F) : F :=
  (1 / 2) * |a.x * (b.y - c.y) + b.x * (c.y - a.y) + c.x * (a.y - b.y)|

/-- The first bounded hit of `ray` among the edges tested in the order
`left, top, right, bottom` (the chains for `intersection.center` and `anchor`);
`none` is the final `else throw`. -/
def firstHit (ray : QLineF F) : Option (QPointF F) :=
  match boundedHit ray left with
  | some p => some p
  | none =>
    match boundedHit ray top with
    | some p => some p
    | none =>
      match boundedHit ray right with
      | some p => some p
      | none => boundedHit ray bottom

/-- A sector record with the geometry fields set and everything else as left by
`Sector sector {}`. -/
def mkSector (b c e anchor : QPointF F) (area length : F) : Sector F :=
  { intersection_begin := b, intersection_center := c, intersection_end := e,
    deformation_density := 0, deformation_boundary := 0, deformation_uniform := 0,
    anchor := anchor, area := area, length := length, points_count := 0 }

/-- The statements of `SquareDomain::sector` that follow the construction of the
four lines: the chains of intersection tests and the area and length of each
branch.  `.error .rethrow` is a `throw`. -/
def sectorBody (position : QPointF F)
    (sector_begin_line sector_center_line sector_anchor_line sector_end_line : QLineF F) :
    Except Fault (Sector F) :=
  match firstHit sector_center_line with
  | none => .error .rethrow
  | some ic =>
  match firstHit sector_anchor_line with
  | none => .error .rethrow
  | some an =>
  match boundedHit sector_begin_line left with
  | some ib =>
    match boundedHit sector_end_line left with
    | some ie => .ok (mkSector ib ic ie an
        (compute_area position ib ie)
        (ib.y - ie.y))
    | none =>
    match boundedHit sector_end_line bottom with
    | some ie => .ok (mkSector ib ic ie an
        (compute_area position ib bottomleft + compute_area position ie bottomleft)
        (ib.y - bottomleft.y + ie.x - bottomleft.x))
    | none =>
    match boundedHit sector_end_line right with
    | some ie => .ok (mkSector ib ic ie an
        (compute_area position ib bottomleft + compute_area position bottomleft bottomright
          + compute_area position ie bottomright)
        (ib.y - bottomleft.y + bottomright.x - bottomleft.x + ie.y - bottomright.y))
    | none =>
    match boundedHit sector_end_line top with
    | some _ => .error .rethrow
    | none => .error .rethrow
  | none =>
  match boundedHit sector_begin_line top with
  | some ib =>
    match boundedHit sector_end_line top with
    | some ie => .ok (mkSector ib ic ie an
        (compute_area position ib ie)
        (ib.x - ie.x))
    | none =>
    match boundedHit sector_end_line left with
    | some ie => .ok (mkSector ib ic ie an
        (compute_area position ib topleft + compute_area position ie topleft)
        (ib.x - topleft.x + topleft.y - ie.y))
    | none =>
    match boundedHit sector_end_line bottom with
    | some ie => .ok (mkSector ib ic ie an
        (compute_area position ib topleft + compute_area position topleft bottomleft
          + compute_area position ie bottomleft)
        (ib.x - topleft.x + topleft.y - bottomleft.y + ie.x - bottomleft.x))
    | none =>
    match boundedHit sector_end_line right with
    | some _ => .error .rethrow
    | none => .error .rethrow
  | none =>
  match boundedHit sector_begin_line right with
  | some ib =>
    match boundedHit sector_end_line right with
    | some ie => .ok (mkSector ib ic ie an
        (compute_area position ib ie)
        (ie.y - ib.y))
    | none =>
    match boundedHit sector_end_line top with
    | some ie => .ok (mkSector ib ic ie an
        (compute_area position ib topright + compute_area position ie topright)
        (topright.y - ib.y + topright.x - ie.x))
    | none =>
    match boundedHit sector_end_line left with
    | some ie => .ok (mkSector ib ic ie an
        (compute_area position ib topright + compute_area position topright topleft
          + compute_area position ie topleft)
        (topright.y - ib.y + topright.x - topleft.x + topleft.y - ie.y))
    | none =>
    match boundedHit sector_end_line bottom with
    | some _ => .error .rethrow
    | none => .error .rethrow
  | none =>
  match boundedHit sector_begin_line bottom with
  | some ib =>
    match boundedHit sector_end_line bottom with
    | some ie => .ok (mkSector ib ic ie an
        (compute_area position ib ie)
        (ie.x - ib.x))
    | none =>
    match boundedHit sector_end_line right with
    | some ie => .ok (mkSector ib ic ie an
        (compute_area position ib bottomright + compute_area position ie bottomright)
        (bottomright.x - ib.x + ie.y - bottomright.y))
    | none =>
    match boundedHit sector_end_line top with
    | some ie => .ok (mkSector ib ic ie an
        (compute_area position ib bottomright + compute_area position bottomright topright
          + compute_area position ie topright)
        (bottomright.x - ib.x + topright.y - bottomright.y + topright.x - ie.x))
    | none =>
    match boundedHit sector_end_line left with
    | some _ => .error .rethrow
    | none => .error .rethrow
  | none => .error .rethrow

/-- Function `std::clamp(v, lo, hi)`. -/
def stdClamp {α : Type} [LinearOrder α] (v lo hi : α) : α :=
  if v < lo then lo else if hi < v then hi else v

/-- Method `SquareDomain::clamp`: both coordinates are clamped to `[-0.99, 0.99]`
(the new value of the referenced point). -/
def clamp (point : QPointF F) : QPointF F :=
  ⟨stdClamp point.x (-0.99) 0.99, stdClamp point.y (-0.99) 0.99⟩

end SquareDomain

end Core

/-! ## The parts over `ℝ` -/

/-- Function `std::atan2(y, x)`: the angle in `(-π, π]` of the vector `(x, y)`. -/
noncomputable def atan2 (y x : ℝ) : ℝ := Complex.arg ⟨x, y⟩

/-- Method `SquareDomain::sector(position, radian_begin, radian_end)`. -/
noncomputable def SquareDomain.sector (position : QPointF ℝ) (radian_begin radian_end : ℝ) :
    Except Fault (Sector ℝ) :=
  let radian_center := (radian_begin + radian_end) / 2
  let sector_begin_line : QLineF ℝ :=
    ⟨position, position + (10 : ℝ) * (⟨Real.cos radian_begin, Real.sin radian_begin⟩ : QPointF ℝ)⟩
  let sector_center_line : QLineF ℝ :=
    ⟨position, position + (10 : ℝ) * (⟨Real.cos radian_center, Real.sin radian_center⟩ : QPointF ℝ)⟩
  let sector_anchor_line : QLineF ℝ :=
    ⟨position, position - (10 : ℝ) * (⟨Real.cos radian_center, Real.sin radian_center⟩ : QPointF ℝ)⟩
  let sector_end_line : QLineF ℝ :=
    ⟨position, position + (10 : ℝ) * (⟨Real.cos radian_end, Real.sin radian_end⟩ : QPointF ℝ)⟩
  SquareDomain.sectorBody position sector_begin_line sector_center_line sector_anchor_line
    sector_end_line

/-- Runs the steps of a loop in order and stops at the first fault. -/
def allOk {ε α : Type} : List (Except ε α) → Except ε (List α)
  | [] => .ok []
  | .error e :: _ => .error e
  | .ok a :: rest =>
    match allOk rest with
    | .ok l => .ok (a :: l)
    | .error e => .error e

/-- Record `Scatterplot::Point`; the nested struct `deformation` is flattened. -/
structure Point where
  position : QPointF ℝ
  sectors : List (Sector ℝ)
  deformation_density : QPointF ℝ
  deformation_boundary : QPointF ℝ
  deformation_uniform : QPointF ℝ
  deformation_total : QPointF ℝ

/-- Class `Scatterplot`: the vector `_points` (the domain has no state and the
measured computation time does not enter any computation). -/
structure Scatterplot where
  _points : List Point

namespace Scatterplot

/-- Loop `// Compute sectors` of `compute`: sector `sector_index` of `size` spans
`[sector_index * step, (sector_index + 1) * step)` with `step = 2π / size`. -/
noncomputable def computeSectors (current_position : QPointF ℝ) (size : ℕ) :
    Except Fault (List (Sector ℝ)) :=
  let sector_radian_step := 2 * Real.pi / (size : ℝ)
  allOk ((List.range size).map fun (sector_index : ℕ) =>
    let radian_begin := (sector_index : ℝ) * sector_radian_step
    let radian_end := ((sector_index : ℝ) + 1) * sector_radian_step
    SquareDomain.sector current_position radian_begin radian_end)

/-- Index of the sector that `compute` increments for `other_position`. For
`size = 0` the upper bound `size - 1` wraps around in the program and the
clamped index is `0` there as well. -/
noncomputable def sectorIndex (current_position other_position : QPointF ℝ) (size : ℕ) : ℕ :=
  let direction := current_position - other_position
  let radian := atan2 direction.y direction.x
  let t := SquareDomain.stdClamp ((radian + Real.pi) / (2 * Real.pi)) 0 1
  SquareDomain.stdClamp (Nat.floor (t * (size : ℝ))) 0 (size - 1)

/-- One pass of the `// Count sector points` loop body, for the other point with
index `other_point_index` at `other_position`. -/
noncomputable def countStep (current_point_index : ℕ) (current_position : QPointF ℝ)
    (sectors : List (Sector ℝ)) (other : ℕ × QPointF ℝ) : Except Fault (List (Sector ℝ)) :=
  if current_point_index = other.1 then .ok sectors
  else if QPointF.operatorEq other.2 current_position then .ok sectors
  else
    let sector_index := sectorIndex current_position other.2 sectors.length
    match sectors[sector_index]? with
    | none => .error .outOfRange
    | some s => .ok (sectors.set sector_index { s with points_count := s.points_count + 1 })

/-- The `// Count sector points` loop over the enumerated positions. -/
noncomputable def countPoints (current_point_index : ℕ) (current_position : QPointF ℝ) :
    List (ℕ × QPointF ℝ) → List (Sector ℝ) → Except Fault (List (Sector ℝ))
  | [], sectors => .ok sectors
  | other :: rest, sectors =>
    match countStep current_point_index current_position sectors other with
    | .error e => .error e
    | .ok sectors1 => countPoints current_point_index current_position rest sectors1

/-- Per-sector deformation vectors of the `// Compute deformation` loop;
`n` is `_points.size()`. -/
noncomputable def deform (n : ℕ) (sector : Sector ℝ) : Sector ℝ :=
  { sector with
    deformation_density := (sector.points_count / (n : ℝ)) * sector.anchor
    deformation_uniform := (-sector.area / SquareDomain.total_area) * sector.anchor
    deformation_boundary :=
      (-0.01 * sector.length / SquareDomain.total_circumference) * sector.anchor }

/-- Body of the outer loop of `compute` for the point with index
`current_point_index`; `positions` are the positions of all points. -/
noncomputable def computePoint (positions : List (QPointF ℝ)) (current_point_index : ℕ)
    (current_point : Point) : Except Fault Point :=
  match computeSectors current_point.position current_point.sectors.length with
  | .error e => .error e
  | .ok sectors0 =>
    match countPoints current_point_index current_point.position positions.enum sectors0 with
    | .error e => .error e
    | .ok sectors1 =>
      let sectors := sectors1.map (deform positions.length)
      let density := sectors.foldl (fun acc s => acc + s.deformation_density) (0 : QPointF ℝ)
      let uniform := sectors.foldl (fun acc s => acc + s.deformation_uniform) (0 : QPointF ℝ)
      let boundary := sectors.foldl (fun acc s => acc + s.deformation_boundary) (0 : QPointF ℝ)
      .ok { position := current_point.position
            sectors := sectors
            deformation_density := density
            deformation_boundary := boundary
            deformation_uniform := uniform
            deformation_total := density + uniform }

/-- Method `Scatterplot::compute`: analyses every point in index order. -/
noncomputable def compute (s : Scatterplot) : Except Fault Scatterplot :=
  let positions := s._points.map (fun p => p.position)
  match allOk (s._points.enum.map fun ip => computePoint positions ip.1 ip.2) with
  | .error e => .error e
  | .ok pts => .ok ⟨pts⟩

/-- The point that the constructor stores for an input position: the position,
`sectors` default sectors and a zero deformation. -/
noncomputable def freshPoint (position : QPointF ℝ) (sectors : ℕ) : Point :=
  { position := position
    sectors := List.replicate sectors Sector.zero
    deformation_density := 0
    deformation_boundary := 0
    deformation_uniform := 0
    deformation_total := 0 }

/-- Constructor `Scatterplot( points, sectors )`. -/
noncomputable def make (points : List (QPointF ℝ)) (sectors : ℕ) : Except Fault Scatterplot :=
  compute ⟨points.map fun p => freshPoint p sectors⟩

/-- Method `Scatterplot::regularize`. -/
noncomputable def regularize (s : Scatterplot) : Except Fault Scatterplot :=
  let points := s._points.map fun p =>
    SquareDomain.clamp (p.position + (0.85 : ℝ) * p.deformation_total)
  match s._points with
  | [] => .error .outOfRange
  | p0 :: _ => make points p0.sectors.length

end Scatterplot

/-! ## `ScatterplotWidget::scatterplot` and its cache -/

/-- The member `_scatterplots`: a key that is absent from the map and a key
mapped to an empty vector behave alike, so the map is a total function. -/
abbrev Cache := ℕ → List Scatterplot

namespace ScatterplotWidget

/-- The loop `while( iterations >= scatterplots.size() ) push_back( back().regularize() )`. -/
noncomputable def extend (iterations : ℕ) (scatterplots : List Scatterplot) :
    Except Fault (List Scatterplot) :=
  if iterations ≥ scatterplots.length then
    match scatterplots.getLast? with
    | none => .error .outOfRange
    | some last =>
      match last.regularize with
      | .error e => .error e
      | .ok next => extend iterations (scatterplots ++ [next])
  else .ok scatterplots
termination_by iterations + 1 - scatterplots.length
decreasing_by simp_wf; omega

/-- Method `ScatterplotWidget::scatterplot( sector_count, iterations )`: the new cache
and the layout returned. -/
noncomputable def scatterplot (_original_points : List (QPointF ℝ)) (_scatterplots : Cache)
    (sector_count iterations : ℕ) : Except Fault (Cache × Scatterplot) :=
  let scatterplots := _scatterplots sector_count
  let first : Except Fault (List Scatterplot) :=
    if scatterplots.isEmpty then
      match Scatterplot.make _original_points sector_count with
      | .error e => .error e
      | .ok s => .ok (scatterplots ++ [s])
    else .ok scatterplots
  match first with
  | .error e => .error e
  | .ok scatterplots1 =>
    match extend iterations scatterplots1 with
    | .error e => .error e
    | .ok scatterplots2 =>
      match scatterplots2[iterations]? with
      | none => .error .outOfRange
      | some s => .ok (Function.update _scatterplots sector_count scatterplots2, s)

end ScatterplotWidget

/-! ## Auxiliary definitions for the proofs -/

open SquareDomain

section

variable {F : Type} [LinearOrderedField F]

/-- The segment of length 10 from `(x, y)` in the direction `(c, s)`. -/
def rayOf (x y c s : F) : QLineF F := ⟨⟨x, y⟩, ⟨x + 10 * c, y + 10 * s⟩⟩

/-- Area swept counter-clockwise from the corner `(1,-1)` to a boundary point,
seen from `(x, y)`, for a point on each of the four edges. -/
def sweptR (x _y : F) (p : QPointF F) : F := 1 / 2 * (1 - x) * (p.y + 1)
def sweptT (x y : F) (p : QPointF F) : F := (1 - x) + 1 / 2 * (1 - y) * (1 - p.x)
def sweptL (x y : F) (p : QPointF F) : F := (1 - x) + (1 - y) + 1 / 2 * (1 + x) * (1 - p.y)
def sweptB (x y : F) (p : QPointF F) : F :=
  (1 - x) + (1 - y) + (1 + x) + 1 / 2 * (1 + y) * (p.x + 1)

/-- Boundary length run counter-clockwise from the corner `(1,-1)` to a boundary
point on each of the four edges. -/
def arcR (p : QPointF F) : F := p.y + 1
def arcT (p : QPointF F) : F := 2 + (1 - p.x)
def arcL (p : QPointF F) : F := 4 + (1 - p.y)
def arcB (p : QPointF F) : F := 6 + (p.x + 1)

/-- Swept area and boundary length (from the corner `(1,-1)`, counter-clockwise)
of the exit point of the ray from `(x, y)` in direction `(c, s)`, where the
direction lies in the closed quadrant `q` (`0`: `c, s ≥ 0`; `1`: `c ≤ 0 ≤ s`;
`2`: `c, s ≤ 0`; `3`: `s ≤ 0 ≤ c`).  In quadrant 3 an exit through the right
edge has completed a full turn. -/
def cumulative (q : ℕ) (x y c s : F) : F × F :=
  let ray := rayOf x y c s
  match q with
  | 0 =>
    match boundedHit ray right with
    | some p => (sweptR x y p, arcR p)
    | none =>
      match boundedHit ray top with
      | some p => (sweptT x y p, arcT p)
      | none => (0, 0)
  | 1 =>
    match boundedHit ray top with
    | some p => (sweptT x y p, arcT p)
    | none =>
      match boundedHit ray left with
      | some p => (sweptL x y p, arcL p)
      | none => (0, 0)
  | 2 =>
    match boundedHit ray left with
    | some p => (sweptL x y p, arcL p)
    | none =>
      match boundedHit ray bottom with
      | some p => (sweptB x y p, arcB p)
      | none => (0, 0)
  | _ =>
    match boundedHit ray bottom with
    | some p => (sweptB x y p, arcB p)
    | none =>
      match boundedHit ray right with
      | some p => (sweptR x y p + 4, arcR p + 8)
      | none => (0, 0)

/-- Membership of the direction `(c, s)` in the closed quadrant `q`. -/
def InQuadrant (q : ℕ) (c s : F) : Prop :=
  match q with
  | 0 => 0 ≤ c ∧ 0 ≤ s
  | 1 => c ≤ 0 ∧ 0 ≤ s
  | 2 => c ≤ 0 ∧ s ≤ 0
  | _ => 0 ≤ c ∧ s ≤ 0

end

/-- Index of the closed quadrant that contains the begin angle of sector `k` of `K`
(the angle `2π` of the last end ray is put into quadrant 3). -/
def quadrantOf (K k : ℕ) : ℕ := min 3 (4 * k / K)

/-- The angle `k * (2π / K)` at which sector `k` of `K` begins. -/
noncomputable def sectorAngle (K k : ℕ) : ℝ := (k : ℝ) * (2 * Real.pi / (K : ℝ))

/-- Cumulative area and boundary length up to the begin ray of sector `k` of `K`. -/
noncomputable def cumAt (x y : ℝ) (K k : ℕ) : ℝ × ℝ :=
  cumulative (quadrantOf K k) x y (Real.cos (sectorAngle K k)) (Real.sin (sectorAngle K k))

/-- The test of the counting loop: the other point is a different point whose
position the comparison `==` does not equate with the current position. -/
def counted (i : ℕ) (q : QPointF ℝ) (o : ℕ × QPointF ℝ) : Prop :=
  i ≠ o.1 ∧ ¬ QPointF.operatorEq o.2 q

noncomputable instance (i : ℕ) (q : QPointF ℝ) (o : ℕ × QPointF ℝ) : Decidable (counted i q o) := by
  unfold counted; infer_instance

/-- The cache-cold computation of iteration `n`: the layout constructed from the
seeds with `K` sectors, followed by `n` applications of `regularize`. -/
noncomputable def layoutAt (seeds : List (QPointF ℝ)) (K : ℕ) : ℕ → Except Fault Scatterplot
  | 0 => Scatterplot.make seeds K
  | n + 1 =>
    match layoutAt seeds K n with
    | .error e => .error e
    | .ok s => s.regularize

/-- Cache states that calls of `scatterplot` can produce, starting from the
empty map. -/
inductive Reachable (seeds : List (QPointF ℝ)) : Cache → Prop
  | empty : Reachable seeds (fun _ => [])
  | call (c c' : Cache) (K n : ℕ) (s : Scatterplot) :
      Reachable seeds c → ScatterplotWidget.scatterplot seeds c K n = .ok (c', s) →
      Reachable seeds c'

/-- Every cached layout is the cache-cold layout of its sector count and index. -/
def CacheInv (seeds : List (QPointF ℝ)) (c : Cache) : Prop :=
  ∀ (K j : ℕ) (s : Scatterplot), (c K)[j]? = some s → layoutAt seeds K j = .ok s

/-- Two seeds strictly inside the square, one with an abscissa above `0.99`. -/
noncomputable def exampleSeeds : List (QPointF ℝ) := [⟨0.995, 0⟩, ⟨-1 / 2, 1 / 4⟩]

/-- Direction angle `atan2(Δy, Δx)` of `other` seen from `current`, mapped into
`[0, 2π)`. -/
noncomputable def directionAngle (current other : QPointF ℝ) : ℝ :=
  let a := atan2 (other.y - current.y) (other.x - current.x)
  if a < 0 then a + 2 * Real.pi else a

/-- The interval `[2πk/K, 2π(k+1)/K)` of sector `k` of `K`. -/
def InSectorInterval (K k : ℕ) (angle : ℝ) : Prop :=
  2 * Real.pi * k / K ≤ angle ∧ angle < 2 * Real.pi * (k + 1) / K

/-- Direction angle of `other` seen from `current`, mapped into `(0, 2π]`: the
direction of the positive x-axis has angle `2π`. -/
noncomputable def directionAngleTurn (current other : QPointF ℝ) : ℝ :=
  let a := atan2 (other.y - current.y) (other.x - current.x)
  if a ≤ 0 then a + 2 * Real.pi else a

/-- The interval of sector `k` of `K`, closed at `2π` for the last sector. -/
def InSectorIntervalLastClosed (K k : ℕ) (angle : ℝ) : Prop :=
  2 * Real.pi * k / K ≤ angle ∧ (angle < 2 * Real.pi * (k + 1) / K ∨ k + 1 = K)

noncomputable instance (K k : ℕ) (a : ℝ) : Decidable (InSectorInterval K k a) := by
  unfold InSectorInterval; infer_instance

noncomputable instance (K k : ℕ) (a : ℝ) : Decidable (InSectorIntervalLastClosed K k a) := by
  unfold InSectorIntervalLastClosed; infer_instance

/-- Two points on a horizontal line: the second lies in direction `0` of the first. -/
noncomputable def horizontalPair : List (QPointF ℝ) := [⟨0, 0⟩, ⟨1 / 2, 0⟩]

/-- Two points at the same position strictly inside the square. -/
noncomputable def coincidentPair : List (QPointF ℝ) := [⟨1 / 4, 1 / 4⟩, ⟨1 / 4, 1 / 4⟩]

/-- Two points `10⁻¹³` apart on a vertical line: different, but equal for the
comparison `==`; the second lies in direction `π/2` of the first. -/
noncomputable def verticalNearPair : List (QPointF ℝ) :=
  [⟨1 / 2, 1 / 2⟩, ⟨1 / 2, 1 / 2 + 1 / 10000000000000⟩]

/-- Two points `10⁻¹³` apart: different, but equal for the comparison `==`. -/
noncomputable def nearPair : List (QPointF ℝ) :=
  [⟨1 / 2, 1 / 2⟩, ⟨1 / 2 + 1 / 10000000000000, 1 / 2⟩]

/-- Sum of a list of vectors, coordinate by coordinate. -/
noncomputable def sumPoints (l : List (QPointF ℝ)) : QPointF ℝ :=
  ⟨(l.map fun p => p.x).sum, (l.map fun p => p.y).sum⟩

/-- The total deformation in the words of the specification: the sum over the
sectors of `(points_count / N) * anchor` plus the sum over the sectors of
`-(area / 4) * anchor`. -/
noncomputable def deformationTotal (N : ℕ) (sectors : List (Sector ℝ)) : QPointF ℝ :=
  sumPoints (sectors.map fun S => (S.points_count / (N : ℝ)) * S.anchor)
    + sumPoints (sectors.map fun S => (-(S.area / 4)) * S.anchor)

/-- The sector that the `// Compute sectors` loop stores at index `k` of `K` for
a position (the default sector where `sector` does not return). -/
noncomputable def sectorOf (position : QPointF ℝ) (K k : ℕ) : Sector ℝ :=
  match SquareDomain.sector position ((k : ℝ) * (2 * Real.pi / (K : ℝ)))
      (((k : ℝ) + 1) * (2 * Real.pi / (K : ℝ))) with
  | .ok S => S
  | .error _ => Sector.zero

/-- The seed list with the single point `(0,0)`. -/
noncomputable def centerPoint : List (QPointF ℝ) := [⟨0, 0⟩]

/-- The four points next to the corners of the square. -/
noncomputable def cornerPoints : List (QPointF ℝ) :=
  [⟨-0.99, -0.99⟩, ⟨-0.99, 0.99⟩, ⟨0.99, -0.99⟩, ⟨0.99, 0.99⟩]

/-- Number of the three indices `n1 n2 n3` that are equal to `k`. -/
def count3 (n1 n2 n3 k : ℕ) : ℕ :=
  (if n1 = k then 1 else 0) + (if n2 = k then 1 else 0) + (if n3 = k then 1 else 0)

/-- The point at which the ray from `position` in the direction of the angle `θ`
leaves the square: the point found by the chain of edge tests of the ray that
`sector` constructs for the angle. -/
noncomputable def exitPoint (position : QPointF ℝ) (θ : ℝ) : Option (QPointF ℝ) :=
  firstHit (⟨position, position + (10 : ℝ) * (⟨Real.cos θ, Real.sin θ⟩ : QPointF ℝ)⟩ : QLineF ℝ)

/-- One of the four corners of the square. -/
def IsCorner (p : QPointF ℝ) : Prop := |p.x| = 1 ∧ |p.y| = 1

/-- Boundary length run counter-clockwise from the corner `(1,-1)` to a point of
the boundary of the square; the corners `(1,-1)`, `(1,1)`, `(-1,1)`, `(-1,-1)`
lie at the lengths `0`, `2`, `4`, `6`. -/
noncomputable def arcOf (p : QPointF ℝ) : ℝ :=
  if p.x = 1 ∧ p.y < 1 then arcR p
  else if p.y = 1 ∧ -1 < p.x then arcT p
  else if p.x = -1 ∧ -1 < p.y then arcL p
  else arcB p

/-- The counter-clockwise boundary path from the boundary length `a` to the
boundary length `b` passes the boundary length `c`: `c` lies strictly between
them, where the path runs through `8 = 0` when `b < a`. -/
def PassesArc (a b c : ℝ) : Prop := (a < c ∧ c < b) ∨ (b < a ∧ (a < c ∨ c < b))

noncomputable instance (a b c : ℝ) : Decidable (PassesArc a b c) := by
  unfold PassesArc; infer_instance

/-- Number of corners of the square that the counter-clockwise boundary path
from the boundary length `a` to the boundary length `b` passes. -/
noncomputable def cornersPassed (a b : ℝ) : ℕ :=
  (if PassesArc a b 0 then 1 else 0) + (if PassesArc a b 2 then 1 else 0)
    + (if PassesArc a b 4 then 1 else 0) + (if PassesArc a b 6 then 1 else 0)

/-! ## Theorems -/

section

variable {F : Type} [LinearOrderedField F]

@[simp] theorem QPointF.add_x (p q : QPointF F) : (p + q).x = p.x + q.x := rfl
@[simp] theorem QPointF.add_y (p q : QPointF F) : (p + q).y = p.y + q.y := rfl
@[simp] theorem QPointF.sub_x (p q : QPointF F) : (p - q).x = p.x - q.x := rfl
@[simp] theorem QPointF.sub_y (p q : QPointF F) : (p - q).y = p.y - q.y := rfl
@[simp] theorem QPointF.smul_x (c : F) (p : QPointF F) : (c * p).x = c * p.x := rfl
@[simp] theorem QPointF.smul_y (c : F) (p : QPointF F) : (c * p).y = c * p.y := rfl
@[simp] theorem QPointF.mul_x (c : F) (p : QPointF F) : (p * c).x = p.x * c := rfl
@[simp] theorem QPointF.mul_y (c : F) (p : QPointF F) : (p * c).y = p.y * c := rfl
@[simp] theorem QPointF.zero_x : (0 : QPointF F).x = 0 := rfl
@[simp] theorem QPointF.zero_y : (0 : QPointF F).y = 0 := rfl

/-- The test of `boundedHit` succeeds exactly when the denominator is non-zero and
both line parameters lie in `[0, 1]`; the point is the one at parameter `na`. -/
theorem boundedHit_eq_some_iff (ray edge : QLineF F) (p : QPointF F) :
    boundedHit ray edge = some p ↔
      let a := ray.pt2 - ray.pt1
      let b := edge.pt1 - edge.pt2
      let c := ray.pt1 - edge.pt1
      let den := a.y * b.x - a.x * b.y
      let na := (b.y * c.x - b.x * c.y) * (1 / den)
      let nb := (a.x * c.y - a.y * c.x) * (1 / den)
      den ≠ 0 ∧ 0 ≤ na ∧ na ≤ 1 ∧ 0 ≤ nb ∧ nb ≤ 1 ∧ p = ray.pt1 + a * na := by
  unfold boundedHit QLineF.intersects
  simp only []
  split_ifs with h1 h2 h3
  · constructor
    · intro h; cases h
    · intro h; exact absurd h1 h.1
  · constructor
    · intro h; cases h
    · intro h
      rcases h2 with h' | h'
      · exact absurd h.2.1 (not_le.mpr h')
      · exact absurd h.2.2.1 (not_le.mpr h')
  · constructor
    · intro h; cases h
    · intro h
      rcases h3 with h' | h'
      · exact absurd h.2.2.2.1 (not_le.mpr h')
      · exact absurd h.2.2.2.2.1 (not_le.mpr h')
  · push_neg at h2 h3
    constructor
    · intro h
      have h' : _ = p := Option.some.inj h
      exact ⟨h1, h2.1, h2.2, h3.1, h3.2, h'.symm⟩
    · intro h; rw [h.2.2.2.2.2]

/-- A ray that reaches a point at squared distance at most 8 does so within its
length (parameter at most 1). -/
theorem reach_le_one (v c s k : F) (hu : c ^ 2 + s ^ 2 = 1) (hk2 : k ^ 2 < 4)
    (hv : v ^ 2 ≤ 4) (hpos : 0 < k * c) (hrel : v * c = s * k) :
    k / (10 * c) ≤ 1 ∧ 0 ≤ k / (10 * c) := by
  have hc : c ≠ 0 := fun h => by rw [h] at hpos; simp at hpos
  have hc2 : 0 < c ^ 2 := by positivity
  have hq : k / (10 * c) = k * c / (10 * c ^ 2) := by field_simp; ring
  have h3 : k ^ 2 = c ^ 2 * (k ^ 2 + v ^ 2) := by
    calc k ^ 2 = k ^ 2 * (c ^ 2 + s ^ 2) := by rw [hu]; ring
      _ = k ^ 2 * c ^ 2 + (s * k) ^ 2 := by ring
      _ = k ^ 2 * c ^ 2 + (v * c) ^ 2 := by rw [hrel]
      _ = c ^ 2 * (k ^ 2 + v ^ 2) := by ring
  have hlen : k ^ 2 ≤ 8 * c ^ 2 := by
    have h4 : c ^ 2 * (k ^ 2 + v ^ 2) ≤ c ^ 2 * 8 :=
      mul_le_mul_of_nonneg_left (by linarith) (le_of_lt hc2)
    linarith
  constructor
  · rw [hq, div_le_one (by positivity)]
    have h5 : (k * c) ^ 2 ≤ (8 * c ^ 2) * c ^ 2 := by
      have := mul_le_mul_of_nonneg_right hlen (le_of_lt hc2)
      calc (k * c) ^ 2 = k ^ 2 * c ^ 2 := by ring
        _ ≤ 8 * c ^ 2 * c ^ 2 := this
    by_contra hcon
    push_neg at hcon
    have h6 : (10 * c ^ 2) ^ 2 < (k * c) ^ 2 := by
      apply pow_lt_pow_left₀ hcon (by positivity) (by norm_num)
    have hc4 : 0 < c ^ 2 * c ^ 2 := mul_pos hc2 hc2
    linarith
  · rw [hq]; positivity

/-- Difference of two coordinates in `[-1, 1]`, one of them strictly inside. -/
theorem sq_diff_le_four (v y : F) (hy : -1 < y) (hy' : y < 1) (h0 : -1 ≤ v) (h1 : v ≤ 1) :
    (v - y) ^ 2 ≤ 4 := by
  nlinarith [mul_nonneg (by linarith : (0:F) ≤ 2 - (v - y)) (by linarith : (0:F) ≤ 2 + (v - y))]

/-- Bounded hit of a ray from an interior point with the vertical edge `x = e`. -/
theorem hit_vertical_iff (x y c s e : F) (p : QPointF F) (hx : -1 < x) (hx' : x < 1)
    (hy : -1 < y) (hy' : y < 1) (he : e = 1 ∨ e = -1) (hu : c ^ 2 + s ^ 2 = 1) :
    boundedHit (rayOf x y c s) ⟨⟨e, -1⟩, ⟨e, 1⟩⟩ = some p ↔
      0 < (e - x) * c ∧ p.x = e ∧ -1 ≤ p.y ∧ p.y ≤ 1 ∧ (p.y - y) * c = s * (e - x) := by
  rw [boundedHit_eq_some_iff]
  simp only [rayOf, QPointF.sub_x, QPointF.sub_y]
  have e1 : (y + 10 * s - y) * (e - e) - (x + 10 * c - x) * (-1 - 1) = 20 * c := by ring
  have e2 : ((-1 : F) - 1) * (x - e) - (e - e) * (y - -1) = 2 * (e - x) := by ring
  have e3 : (x + 10 * c - x) * (y - -1) - (y + 10 * s - y) * (x - e)
      = 10 * (c * (y + 1) + s * (e - x)) := by ring
  rw [e1, e2, e3]
  have hex : e - x ≠ 0 := by rcases he with h | h <;> rw [h] <;> intro h0 <;> linarith
  have hex2 : (e - x) ^ 2 < 4 := by rcases he with h | h <;> rw [h] <;> nlinarith
  constructor
  · rintro ⟨hden, hna0, hna1, hnb0, hnb1, hp⟩
    have hc : c ≠ 0 := fun h => hden (by rw [h]; ring)
    have hna : 2 * (e - x) * (1 / (20 * c)) = (e - x) / (10 * c) := by field_simp; ring
    rw [hna] at hna0 hna1 hp
    have hpx : p.x = e := by
      rw [hp]; simp only [QPointF.add_x, QPointF.mul_x, QPointF.sub_x]; field_simp
    have hpy : p.y = y + s * (e - x) / c := by
      rw [hp]; simp only [QPointF.add_y, QPointF.mul_y, QPointF.sub_y]; field_simp; ring
    have hnb : 10 * (c * (y + 1) + s * (e - x)) * (1 / (20 * c)) = (p.y + 1) / 2 := by
      rw [hpy]; field_simp; ring
    rw [hnb] at hnb0 hnb1
    have hpos : 0 < (e - x) * c := by
      have h1 : 0 ≤ (e - x) * c := by
        have := mul_nonneg hna0 (by positivity : (0:F) ≤ 10 * c ^ 2)
        have h2 : (e - x) / (10 * c) * (10 * c ^ 2) = (e - x) * c := by field_simp; ring
        rw [h2] at this; exact this
      exact lt_of_le_of_ne h1 (Ne.symm (mul_ne_zero hex hc))
    refine ⟨hpos, hpx, by linarith, by linarith, ?_⟩
    rw [hpy]; field_simp; ring
  · rintro ⟨hpos, hpx, hpy0, hpy1, hrel⟩
    have hc : c ≠ 0 := fun h => by rw [h] at hpos; simp at hpos
    have hna : 2 * (e - x) * (1 / (20 * c)) = (e - x) / (10 * c) := by field_simp; ring
    have hpy : p.y = y + s * (e - x) / c := by field_simp; linarith
    have hnb : 10 * (c * (y + 1) + s * (e - x)) * (1 / (20 * c)) = (p.y + 1) / 2 := by
      rw [hpy]; field_simp; ring
    rw [hna, hnb]
    have hr := reach_le_one (p.y - y) c s (e - x) hu hex2
      (sq_diff_le_four p.y y hy hy' hpy0 hpy1) hpos hrel
    refine ⟨by intro h; apply hc; linarith, hr.2, hr.1, by linarith, by linarith, ?_⟩
    apply QPointF.ext
    · simp only [QPointF.add_x, QPointF.mul_x, QPointF.sub_x]; rw [hpx]; field_simp
    · simp only [QPointF.add_y, QPointF.mul_y, QPointF.sub_y]; rw [hpy]; field_simp; ring

/-- Bounded hit of a ray from an interior point with the horizontal edge `y = e`. -/
theorem hit_horizontal_iff (x y c s e : F) (p : QPointF F) (hx : -1 < x) (hx' : x < 1)
    (hy : -1 < y) (hy' : y < 1) (he : e = 1 ∨ e = -1) (hu : c ^ 2 + s ^ 2 = 1) :
    boundedHit (rayOf x y c s) ⟨⟨-1, e⟩, ⟨1, e⟩⟩ = some p ↔
      0 < (e - y) * s ∧ p.y = e ∧ -1 ≤ p.x ∧ p.x ≤ 1 ∧ (p.x - x) * s = c * (e - y) := by
  rw [boundedHit_eq_some_iff]
  simp only [rayOf, QPointF.sub_x, QPointF.sub_y]
  have e1 : (y + 10 * s - y) * (-1 - 1) - (x + 10 * c - x) * (e - e) = -(20 * s) := by ring
  have e2 : (e - e) * (x - -1) - ((-1 : F) - 1) * (y - e) = -(2 * (e - y)) := by ring
  have e3 : (x + 10 * c - x) * (y - e) - (y + 10 * s - y) * (x - -1)
      = -(10 * (s * (x + 1) + c * (e - y))) := by ring
  rw [e1, e2, e3]
  have hey : e - y ≠ 0 := by rcases he with h | h <;> rw [h] <;> intro h0 <;> linarith
  have hey2 : (e - y) ^ 2 < 4 := by rcases he with h | h <;> rw [h] <;> nlinarith
  have hu' : s ^ 2 + c ^ 2 = 1 := by linarith
  constructor
  · rintro ⟨hden, hna0, hna1, hnb0, hnb1, hp⟩
    have hs : s ≠ 0 := fun h => hden (by rw [h]; ring)
    have hna : -(2 * (e - y)) * (1 / -(20 * s)) = (e - y) / (10 * s) := by field_simp; ring
    rw [hna] at hna0 hna1 hp
    have hpy : p.y = e := by
      rw [hp]; simp only [QPointF.add_y, QPointF.mul_y, QPointF.sub_y]; field_simp
    have hpx : p.x = x + c * (e - y) / s := by
      rw [hp]; simp only [QPointF.add_x, QPointF.mul_x, QPointF.sub_x]; field_simp; ring
    have hnb : -(10 * (s * (x + 1) + c * (e - y))) * (1 / -(20 * s)) = (p.x + 1) / 2 := by
      rw [hpx]; field_simp; ring
    rw [hnb] at hnb0 hnb1
    have hpos : 0 < (e - y) * s := by
      have h1 : 0 ≤ (e - y) * s := by
        have := mul_nonneg hna0 (by positivity : (0:F) ≤ 10 * s ^ 2)
        have h2 : (e - y) / (10 * s) * (10 * s ^ 2) = (e - y) * s := by field_simp; ring
        rw [h2] at this; exact this
      exact lt_of_le_of_ne h1 (Ne.symm (mul_ne_zero hey hs))
    refine ⟨hpos, hpy, by linarith, by linarith, ?_⟩
    rw [hpx]; field_simp; ring
  · rintro ⟨hpos, hpy, hpx0, hpx1, hrel⟩
    have hs : s ≠ 0 := fun h => by rw [h] at hpos; simp at hpos
    have hna : -(2 * (e - y)) * (1 / -(20 * s)) = (e - y) / (10 * s) := by field_simp; ring
    have hpx : p.x = x + c * (e - y) / s := by field_simp; linarith
    have hnb : -(10 * (s * (x + 1) + c * (e - y))) * (1 / -(20 * s)) = (p.x + 1) / 2 := by
      rw [hpx]; field_simp; ring
    rw [hna, hnb]
    have hr := reach_le_one (p.x - x) s c (e - y) hu' hey2
      (sq_diff_le_four p.x x hx hx' hpx0 hpx1) hpos hrel
    refine ⟨by intro h; apply hs; linarith, hr.2, hr.1, by linarith, by linarith, ?_⟩
    apply QPointF.ext
    · simp only [QPointF.add_x, QPointF.mul_x, QPointF.sub_x]; rw [hpx]; field_simp; ring
    · simp only [QPointF.add_y, QPointF.mul_y, QPointF.sub_y]; rw [hpy]; field_simp

theorem hit_left_iff (x y c s : F) (p : QPointF F) (hx : -1 < x) (hx' : x < 1)
    (hy : -1 < y) (hy' : y < 1) (hu : c ^ 2 + s ^ 2 = 1) :
    boundedHit (rayOf x y c s) left = some p ↔
      c < 0 ∧ p.x = -1 ∧ -1 ≤ p.y ∧ p.y ≤ 1 ∧ (p.y - y) * c = s * (-1 - x) := by
  have h := hit_vertical_iff x y c s (-1) p hx hx' hy hy' (Or.inr rfl) hu
  have hs : 0 < (-1 - x) * c ↔ c < 0 := by
    constructor
    · intro h1; by_contra h2; push_neg at h2
      nlinarith [mul_nonneg (by linarith : (0:F) ≤ 1 + x) h2]
    · intro h1; nlinarith [mul_pos (by linarith : (0:F) < 1 + x) (neg_pos.mpr h1)]
  rw [← hs]; exact h

theorem hit_right_iff (x y c s : F) (p : QPointF F) (hx : -1 < x) (hx' : x < 1)
    (hy : -1 < y) (hy' : y < 1) (hu : c ^ 2 + s ^ 2 = 1) :
    boundedHit (rayOf x y c s) right = some p ↔
      0 < c ∧ p.x = 1 ∧ -1 ≤ p.y ∧ p.y ≤ 1 ∧ (p.y - y) * c = s * (1 - x) := by
  have h := hit_vertical_iff x y c s 1 p hx hx' hy hy' (Or.inl rfl) hu
  have hs : 0 < (1 - x) * c ↔ 0 < c := by
    constructor
    · intro h1; by_contra h2; push_neg at h2
      nlinarith [mul_nonneg (by linarith : (0:F) ≤ 1 - x) (neg_nonneg.mpr h2)]
    · intro h1; exact mul_pos (by linarith) h1
  rw [← hs]; exact h

theorem hit_top_iff (x y c s : F) (p : QPointF F) (hx : -1 < x) (hx' : x < 1)
    (hy : -1 < y) (hy' : y < 1) (hu : c ^ 2 + s ^ 2 = 1) :
    boundedHit (rayOf x y c s) top = some p ↔
      0 < s ∧ p.y = 1 ∧ -1 ≤ p.x ∧ p.x ≤ 1 ∧ (p.x - x) * s = c * (1 - y) := by
  have h := hit_horizontal_iff x y c s 1 p hx hx' hy hy' (Or.inl rfl) hu
  have hs : 0 < (1 - y) * s ↔ 0 < s := by
    constructor
    · intro h1; by_contra h2; push_neg at h2
      nlinarith [mul_nonneg (by linarith : (0:F) ≤ 1 - y) (neg_nonneg.mpr h2)]
    · intro h1; exact mul_pos (by linarith) h1
  rw [← hs]; exact h

theorem hit_bottom_iff (x y c s : F) (p : QPointF F) (hx : -1 < x) (hx' : x < 1)
    (hy : -1 < y) (hy' : y < 1) (hu : c ^ 2 + s ^ 2 = 1) :
    boundedHit (rayOf x y c s) bottom = some p ↔
      s < 0 ∧ p.y = -1 ∧ -1 ≤ p.x ∧ p.x ≤ 1 ∧ (p.x - x) * s = c * (-1 - y) := by
  have h := hit_horizontal_iff x y c s (-1) p hx hx' hy hy' (Or.inr rfl) hu
  have hs : 0 < (-1 - y) * s ↔ s < 0 := by
    constructor
    · intro h1; by_contra h2; push_neg at h2
      nlinarith [mul_nonneg (by linarith : (0:F) ≤ 1 + y) h2]
    · intro h1; nlinarith [mul_pos (by linarith : (0:F) < 1 + y) (neg_pos.mpr h1)]
  rw [← hs]; exact h

theorem none_of_forall {α : Type} (o : Option α) (h : ∀ a, o = some a → False) : o = none := by
  cases o with
  | none => rfl
  | some a => exact (h a rfl).elim

set_option maxHeartbeats 1600000 in
/-- Exits of a ray whose direction lies in the closed quadrant of the corner
`(ex, ey)`: strictly on the vertical edge `x = ex`, at the corner, or strictly on
the horizontal edge `y = ey`. -/
theorem classify (x y c s ex ey : F) (hx : -1 < x) (hx' : x < 1) (hy : -1 < y) (hy' : y < 1)
    (hu : c ^ 2 + s ^ 2 = 1) (hex : ex = 1 ∨ ex = -1) (hey : ey = 1 ∨ ey = -1)
    (hc : 0 ≤ ex * c) (hs : 0 ≤ ey * s) :
    (∃ Y, boundedHit (rayOf x y c s) ⟨⟨ex, -1⟩, ⟨ex, 1⟩⟩ = some ⟨ex, Y⟩ ∧
        boundedHit (rayOf x y c s) ⟨⟨-1, ey⟩, ⟨1, ey⟩⟩ = none ∧
        0 ≤ (Y - y) * ey ∧ (Y - y) * ey < (ey - y) * ey ∧ 0 < ex * c ∧
        (Y - y) * c = s * (ex - x) ∧
        ey * s * ((ex - x) * ex) < ex * c * ((ey - y) * ey)) ∨
    (boundedHit (rayOf x y c s) ⟨⟨ex, -1⟩, ⟨ex, 1⟩⟩ = some ⟨ex, ey⟩ ∧
        boundedHit (rayOf x y c s) ⟨⟨-1, ey⟩, ⟨1, ey⟩⟩ = some ⟨ex, ey⟩ ∧
        0 < ex * c ∧ 0 < ey * s ∧ (ey - y) * c = s * (ex - x) ∧
        ey * s * ((ex - x) * ex) = ex * c * ((ey - y) * ey)) ∨
    (∃ X, boundedHit (rayOf x y c s) ⟨⟨-1, ey⟩, ⟨1, ey⟩⟩ = some ⟨X, ey⟩ ∧
        boundedHit (rayOf x y c s) ⟨⟨ex, -1⟩, ⟨ex, 1⟩⟩ = none ∧
        0 ≤ (X - x) * ex ∧ (X - x) * ex < (ex - x) * ex ∧ 0 < ey * s ∧
        (X - x) * s = c * (ey - y) ∧
        ex * c * ((ey - y) * ey) < ey * s * ((ex - x) * ex)) := by
  -- reduce to the absolute quantities
  obtain ⟨A, hA, hAe⟩ : ∃ A : F, 0 < A ∧ ex - x = ex * A := by
    rcases hex with h | h <;> rw [h]
    · exact ⟨1 - x, by linarith, by ring⟩
    · exact ⟨1 + x, by linarith, by ring⟩
  obtain ⟨B, hB, hBe⟩ : ∃ B : F, 0 < B ∧ ey - y = ey * B := by
    rcases hey with h | h <;> rw [h]
    · exact ⟨1 - y, by linarith, by ring⟩
    · exact ⟨1 + y, by linarith, by ring⟩
  have hex2 : ex * ex = 1 := by rcases hex with h | h <;> rw [h] <;> norm_num
  have hey2 : ey * ey = 1 := by rcases hey with h | h <;> rw [h] <;> norm_num
  have hexb : -1 ≤ ex ∧ ex ≤ 1 := by rcases hex with h | h <;> rw [h] <;> norm_num
  have heyb : -1 ≤ ey ∧ ey ≤ 1 := by rcases hey with h | h <;> rw [h] <;> norm_num
  have hAx : (ex - x) * ex = A := by
    rw [hAe, show ex * A * ex = (ex * ex) * A by ring, hex2, one_mul]
  have hBy : (ey - y) * ey = B := by
    rw [hBe, show ey * B * ey = (ey * ey) * B by ring, hey2, one_mul]
  rw [hAx, hBy]
  set c' := ex * c with hc'
  set s' := ey * s with hs'
  have hcc : c = ex * c' := by rw [hc', ← mul_assoc, hex2, one_mul]
  have hss : s = ey * s' := by rw [hs', ← mul_assoc, hey2, one_mul]
  have hA2 : A < 2 := by
    rcases hex with h | h <;> rw [h] at hAe <;> linarith
  have hB2 : B < 2 := by
    rcases hey with h | h <;> rw [h] at hBe <;> linarith
  have hposV : 0 < (ex - x) * c ↔ 0 < c' := by
    rw [hAe, hcc, show ex * A * (ex * c') = (ex * ex) * (A * c') by ring, hex2, one_mul]
    constructor
    · intro h; by_contra h2; push_neg at h2
      nlinarith [mul_nonneg (le_of_lt hA) (neg_nonneg.mpr h2)]
    · intro h; exact mul_pos hA h
  have hposH : 0 < (ey - y) * s ↔ 0 < s' := by
    rw [hBe, hss, show ey * B * (ey * s') = (ey * ey) * (B * s') by ring, hey2, one_mul]
    constructor
    · intro h; by_contra h2; push_neg at h2
      nlinarith [mul_nonneg (le_of_lt hB) (neg_nonneg.mpr h2)]
    · intro h; exact mul_pos hB h
  -- the exit ordinate on the vertical edge is `y + ey * u` with `u * c' = s' * A`
  have hrelV : ∀ u : F, ((y + ey * u) - y) * c = s * (ex - x) ↔ u * c' = s' * A := by
    intro u
    rw [hAe, hcc, hss]
    constructor
    · intro h
      have h1 : ey * ex * (u * c') = ey * ex * (s' * A) := by linear_combination h
      have h2 : (ey * ex) * (ey * ex) = 1 := by
        calc (ey * ex) * (ey * ex) = (ey * ey) * (ex * ex) := by ring
          _ = 1 := by rw [hex2, hey2]; ring
      calc u * c' = (ey * ex) * (ey * ex) * (u * c') := by rw [h2]; ring
        _ = (ey * ex) * (ey * ex * (s' * A)) := by rw [← h1]; ring
        _ = (ey * ex) * (ey * ex) * (s' * A) := by ring
        _ = s' * A := by rw [h2]; ring
    · intro h; linear_combination (ey * ex) * h
  have hrelH : ∀ v : F, ((x + ex * v) - x) * s = c * (ey - y) ↔ v * s' = c' * B := by
    intro v
    rw [hBe, hcc, hss]
    constructor
    · intro h
      have h1 : ey * ex * (v * s') = ey * ex * (c' * B) := by linear_combination h
      have h2 : (ey * ex) * (ey * ex) = 1 := by
        calc (ey * ex) * (ey * ex) = (ey * ey) * (ex * ex) := by ring
          _ = 1 := by rw [hex2, hey2]; ring
      calc v * s' = (ey * ex) * (ey * ex) * (v * s') := by rw [h2]; ring
        _ = (ey * ex) * (ey * ex * (c' * B)) := by rw [← h1]; ring
        _ = (ey * ex) * (ey * ex) * (c' * B) := by ring
        _ = c' * B := by rw [h2]; ring
    · intro h; linear_combination (ey * ex) * h
  have hYb : ∀ u : F, 0 ≤ u → u ≤ B → -1 ≤ y + ey * u ∧ y + ey * u ≤ 1 := by
    intro u hu0 hu1
    rcases hey with h | h <;> rw [h] at hBe ⊢ <;> constructor <;> linarith
  have hXb : ∀ v : F, 0 ≤ v → v ≤ A → -1 ≤ x + ex * v ∧ x + ex * v ≤ 1 := by
    intro v hv0 hv1
    rcases hex with h | h <;> rw [h] at hAe ⊢ <;> constructor <;> linarith
  -- a hit on the horizontal edge at abscissa `p.x` forces `c' * B ≤ s' * A`
  have hHle : ∀ p : QPointF F, boundedHit (rayOf x y c s) ⟨⟨-1, ey⟩, ⟨1, ey⟩⟩ = some p →
      0 < s' ∧ c' * B ≤ s' * A := by
    intro p hp
    obtain ⟨h1, h2, h3, h4, h5⟩ := (hit_horizontal_iff x y c s ey p hx hx' hy hy' hey hu).mp hp
    have hv : p.x = x + ex * (ex * (p.x - x)) := by rw [← mul_assoc, hex2]; ring
    have hvA : ex * (p.x - x) ≤ A := by
      rcases hex with h | h <;> rw [h] at hAe ⊢ <;> linarith
    rw [hv] at h5
    have h6 := (hrelH _).mp h5
    have h7 : ex * (p.x - x) * s' ≤ A * s' := mul_le_mul_of_nonneg_right hvA hs
    exact ⟨hposH.mp h1, by linarith⟩
  have hVle : ∀ p : QPointF F, boundedHit (rayOf x y c s) ⟨⟨ex, -1⟩, ⟨ex, 1⟩⟩ = some p →
      0 < c' ∧ s' * A ≤ c' * B := by
    intro p hp
    obtain ⟨h1, h2, h3, h4, h5⟩ := (hit_vertical_iff x y c s ex p hx hx' hy hy' hex hu).mp hp
    have hv : p.y = y + ey * (ey * (p.y - y)) := by rw [← mul_assoc, hey2]; ring
    have hvB : ey * (p.y - y) ≤ B := by
      rcases hey with h | h <;> rw [h] at hBe ⊢ <;> linarith
    rw [hv] at h5
    have h6 := (hrelV _).mp h5
    have h7 : ey * (p.y - y) * c' ≤ B * c' := mul_le_mul_of_nonneg_right hvB hc
    exact ⟨hposV.mp h1, by linarith⟩
  have hc0 : s' * A ≤ c' * B → 0 < c' := by
    intro hk
    rcases eq_or_lt_of_le hc with h | h
    · exfalso
      rw [← h] at hk
      have h0 : s' = 0 := by
        have h1 := mul_nonneg hs (le_of_lt hA)
        rcases mul_eq_zero.mp (by linarith : s' * A = 0) with h' | h'
        · exact h'
        · linarith
      have : c ^ 2 + s ^ 2 = 0 := by rw [hcc, hss, ← h, h0]; ring
      rw [hu] at this; exact one_ne_zero this
    · exact h
  have hs0 : c' * B ≤ s' * A → 0 < s' := by
    intro hk
    rcases eq_or_lt_of_le hs with h | h
    · exfalso
      rw [← h] at hk
      have h0 : c' = 0 := by
        have h1 := mul_nonneg hc (le_of_lt hB)
        rcases mul_eq_zero.mp (by linarith : c' * B = 0) with h' | h'
        · exact h'
        · linarith
      have : c ^ 2 + s ^ 2 = 0 := by rw [hcc, hss, ← h, h0]; ring
      rw [hu] at this; exact one_ne_zero this
    · exact h
  have hmkV : ∀ u : F, 0 ≤ u → u ≤ B → 0 < c' → u * c' = s' * A →
      boundedHit (rayOf x y c s) ⟨⟨ex, -1⟩, ⟨ex, 1⟩⟩ = some ⟨ex, y + ey * u⟩ := by
    intro u hu0 hu1 hcp hrel
    exact (hit_vertical_iff x y c s ex _ hx hx' hy hy' hex hu).mpr
      ⟨hposV.mpr hcp, rfl, (hYb u hu0 hu1).1, (hYb u hu0 hu1).2, (hrelV u).mpr hrel⟩
  have hmkH : ∀ v : F, 0 ≤ v → v ≤ A → 0 < s' → v * s' = c' * B →
      boundedHit (rayOf x y c s) ⟨⟨-1, ey⟩, ⟨1, ey⟩⟩ = some ⟨x + ex * v, ey⟩ := by
    intro v hv0 hv1 hsp hrel
    exact (hit_horizontal_iff x y c s ey _ hx hx' hy hy' hey hu).mpr
      ⟨hposH.mpr hsp, rfl, (hXb v hv0 hv1).1, (hXb v hv0 hv1).2, (hrelH v).mpr hrel⟩
  rcases lt_trichotomy (s' * A) (c' * B) with hk | hk | hk
  · left
    have hcp := hc0 (le_of_lt hk)
    have hu0 : 0 ≤ s' * A / c' := div_nonneg (mul_nonneg hs (le_of_lt hA)) hc
    have hu1 : s' * A / c' < B := by rw [div_lt_iff₀ hcp]; linarith
    have hrel : s' * A / c' * c' = s' * A := by field_simp
    refine ⟨y + ey * (s' * A / c'), hmkV _ hu0 (le_of_lt hu1) hcp hrel,
      none_of_forall _ fun p hp => ?_, ?_, ?_, hcp, (hrelV _).mpr hrel, hk⟩
    · have := (hHle p hp).2; linarith
    · rw [show (y + ey * (s' * A / c') - y) * ey = (ey * ey) * (s' * A / c') by ring, hey2, one_mul]
      exact hu0
    · rw [show (y + ey * (s' * A / c') - y) * ey = (ey * ey) * (s' * A / c') by ring, hey2, one_mul]
      exact hu1
  · right; left
    have hcp := hc0 (le_of_eq hk)
    have hsp := hs0 (le_of_eq hk.symm)
    have hV := hmkV B (le_of_lt hB) le_rfl hcp (by linarith)
    have hH := hmkH A (le_of_lt hA) le_rfl hsp (by linarith)
    have e1 : y + ey * B = ey := by linarith
    have e2 : x + ex * A = ex := by linarith
    rw [e1] at hV
    rw [e2] at hH
    refine ⟨hV, hH, hcp, hsp, ?_, hk⟩
    have := (hrelV B).mpr (by linarith)
    rw [e1] at this; exact this
  · right; right
    have hsp := hs0 (le_of_lt hk)
    have hv0 : 0 ≤ c' * B / s' := div_nonneg (mul_nonneg hc (le_of_lt hB)) hs
    have hv1 : c' * B / s' < A := by rw [div_lt_iff₀ hsp]; linarith
    have hrel : c' * B / s' * s' = c' * B := by field_simp
    refine ⟨x + ex * (c' * B / s'), hmkH _ hv0 (le_of_lt hv1) hsp hrel,
      none_of_forall _ fun p hp => ?_, ?_, ?_, hsp, (hrelH _).mpr hrel, hk⟩
    · have := (hVle p hp).2; linarith
    · rw [show (x + ex * (c' * B / s') - x) * ex = (ex * ex) * (c' * B / s') by ring, hex2, one_mul]
      exact hv0
    · rw [show (x + ex * (c' * B / s') - x) * ex = (ex * ex) * (c' * B / s') by ring, hex2, one_mul]
      exact hv1

theorem hit_left_none (x y c s : F) (hx : -1 < x) (hx' : x < 1) (hy : -1 < y) (hy' : y < 1)
    (hu : c ^ 2 + s ^ 2 = 1) (hc : 0 ≤ c) :
    boundedHit (rayOf x y c s) ⟨⟨-1, -1⟩, ⟨-1, 1⟩⟩ = none :=
  none_of_forall _ fun p hp => by
    have := ((hit_left_iff x y c s p hx hx' hy hy' hu).mp hp).1; linarith

theorem hit_right_none (x y c s : F) (hx : -1 < x) (hx' : x < 1) (hy : -1 < y) (hy' : y < 1)
    (hu : c ^ 2 + s ^ 2 = 1) (hc : c ≤ 0) :
    boundedHit (rayOf x y c s) ⟨⟨1, -1⟩, ⟨1, 1⟩⟩ = none :=
  none_of_forall _ fun p hp => by
    have := ((hit_right_iff x y c s p hx hx' hy hy' hu).mp hp).1; linarith

theorem hit_top_none (x y c s : F) (hx : -1 < x) (hx' : x < 1) (hy : -1 < y) (hy' : y < 1)
    (hu : c ^ 2 + s ^ 2 = 1) (hs : s ≤ 0) :
    boundedHit (rayOf x y c s) ⟨⟨-1, 1⟩, ⟨1, 1⟩⟩ = none :=
  none_of_forall _ fun p hp => by
    have := ((hit_top_iff x y c s p hx hx' hy hy' hu).mp hp).1; linarith

theorem hit_bottom_none (x y c s : F) (hx : -1 < x) (hx' : x < 1) (hy : -1 < y) (hy' : y < 1)
    (hu : c ^ 2 + s ^ 2 = 1) (hs : 0 ≤ s) :
    boundedHit (rayOf x y c s) ⟨⟨-1, -1⟩, ⟨1, -1⟩⟩ = none :=
  none_of_forall _ fun p hp => by
    have := ((hit_bottom_iff x y c s p hx hx' hy hy' hu).mp hp).1; linarith

theorem mk_eq (ib ic ie an : QPointF F) (a l a' l' : F) (h1 : a = a') (h2 : l = l') :
    ∃ ib' ie', (Except.ok (mkSector ib ic ie an a l) : Except Fault (Sector F))
      = Except.ok (mkSector ib' ic ie' an a' l') :=
  ⟨ib, ie, by rw [h1, h2]⟩

theorem area_vert (x y e Y1 Y2 : F) :
    compute_area ⟨x, y⟩ ⟨e, Y1⟩ ⟨e, Y2⟩ = 1 / 2 * (|e - x| * |Y2 - Y1|) := by
  unfold compute_area
  rw [← abs_mul]
  congr 2; ring

theorem area_horiz (x y e X1 X2 : F) :
    compute_area ⟨x, y⟩ ⟨X1, e⟩ ⟨X2, e⟩ = 1 / 2 * (|e - y| * |X1 - X2|) := by
  unfold compute_area
  rw [← abs_mul]
  congr 2; ring

theorem abs_eq_ite (a : F) : |a| = if 0 ≤ a then a else -a := by
  split_ifs with h
  · exact abs_of_nonneg h
  · exact abs_of_neg (not_le.mp h)

/-- Order of two exits on a vertical edge `x = ex` for directions in
counter-clockwise order. -/
theorem order_vert (x y ex c1 s1 c2 s2 Y1 Y2 : F) (hA : 0 < (ex - x) * ex)
    (hc1 : 0 < ex * c1) (hc2 : 0 < ex * c2)
    (h1 : (Y1 - y) * c1 = s1 * (ex - x)) (h2 : (Y2 - y) * c2 = s2 * (ex - x))
    (hcross : 0 ≤ c1 * s2 - s1 * c2) : 0 ≤ (Y2 - Y1) * ex := by
  have hpos : 0 < (ex * c1) * (ex * c2) := mul_pos hc1 hc2
  have hk : (Y2 - Y1) * ex * ((ex * c1) * (ex * c2))
      = ((ex - x) * ex) * (ex * ex) * (c1 * s2 - s1 * c2) := by
    linear_combination (ex * ex * ex * c1) * h2 - (ex * ex * ex * c2) * h1
  have hex2 : 0 ≤ ex * ex := mul_self_nonneg ex
  have : 0 ≤ (Y2 - Y1) * ex * ((ex * c1) * (ex * c2)) := by
    rw [hk]; exact mul_nonneg (mul_nonneg (le_of_lt hA) hex2) hcross
  by_contra hneg
  push_neg at hneg
  have := mul_neg_of_neg_of_pos hneg hpos
  linarith

/-- Order of two exits on a horizontal edge `y = ey` for directions in
counter-clockwise order. -/
theorem order_horiz (x y ey c1 s1 c2 s2 X1 X2 : F) (hB : 0 < (ey - y) * ey)
    (hs1 : 0 < ey * s1) (hs2 : 0 < ey * s2)
    (h1 : (X1 - x) * s1 = c1 * (ey - y)) (h2 : (X2 - x) * s2 = c2 * (ey - y))
    (hcross : 0 ≤ c1 * s2 - s1 * c2) : 0 ≤ (X1 - X2) * ey := by
  have hpos : 0 < (ey * s1) * (ey * s2) := mul_pos hs1 hs2
  have hk : (X1 - X2) * ey * ((ey * s1) * (ey * s2))
      = ((ey - y) * ey) * (ey * ey) * (c1 * s2 - s1 * c2) := by
    linear_combination (ey * ey * ey * s2) * h1 - (ey * ey * ey * s1) * h2
  have hey2 : 0 ≤ ey * ey := mul_self_nonneg ey
  have : 0 ≤ (X1 - X2) * ey * ((ey * s1) * (ey * s2)) := by
    rw [hk]; exact mul_nonneg (mul_nonneg (le_of_lt hB) hey2) hcross
  by_contra hneg
  push_neg at hneg
  have := mul_neg_of_neg_of_pos hneg hpos
  linarith

/-- For two directions of one quadrant in counter-clockwise order, the second is
not before the corner once the first has reached it. -/
theorem kappa_mono (A B c1 s1 c2 s2 : F) (_hA : 0 < A) (hB : 0 < B)
    (hc1 : 0 ≤ c1) (hs1 : 0 ≤ s1) (hc2 : 0 ≤ c2) (hs2 : 0 ≤ s2)
    (hu1 : c1 ^ 2 + s1 ^ 2 = 1) (hu2 : c2 ^ 2 + s2 ^ 2 = 1)
    (hcross : 0 ≤ c1 * s2 - s1 * c2) :
    (c1 * B ≤ s1 * A → c2 * B ≤ s2 * A) ∧ (c1 * B < s1 * A → c2 * B < s2 * A) := by
  have hs1pos : c1 * B ≤ s1 * A → 0 < s1 := by
    intro h
    rcases eq_or_lt_of_le hs1 with h0 | h0
    · exfalso
      rw [← h0] at h hu1
      have hc : c1 = 0 := by
        have := mul_nonneg hc1 (le_of_lt hB)
        rcases mul_eq_zero.mp (by linarith : c1 * B = 0) with h' | h'
        · exact h'
        · linarith
      rw [hc] at hu1; norm_num at hu1
    · exact h0
  constructor
  · intro h
    have hs := hs1pos h
    by_contra hcon
    push_neg at hcon
    have e1 := mul_lt_mul_of_pos_left hcon hs
    have e2 := mul_le_mul_of_nonneg_left h hs2
    have e3 := mul_nonneg (le_of_lt hB) hcross
    nlinarith
  · intro h
    have hs := hs1pos (le_of_lt h)
    by_contra hcon
    push_neg at hcon
    have e1 := mul_le_mul_of_nonneg_left hcon (le_of_lt hs)
    have e3 := mul_nonneg (le_of_lt hB) hcross
    rcases eq_or_lt_of_le hs2 with h0 | h0
    · rw [← h0] at hcross hu2
      have hc2' : c2 = 0 := by
        have h1 := mul_nonneg (le_of_lt hs) hc2
        rcases mul_eq_zero.mp (by linarith : s1 * c2 = 0) with h' | h'
        · linarith
        · exact h'
      rw [hc2'] at hu2; norm_num at hu2
    · have e2 := mul_lt_mul_of_pos_left h h0
      nlinarith

/-- Sector whose begin direction lies in quadrant 0 and whose end direction lies in
quadrant 0: no `throw` is reached and area and length are differences of the
cumulative values. -/
theorem sector_q00 (x y c1 s1 c2 s2 : F) (cl al : QLineF F) (ic an : QPointF F)
    (hx : -1 < x) (hx' : x < 1) (hy : -1 < y) (hy' : y < 1)
    (hu1 : c1 ^ 2 + s1 ^ 2 = 1) (hu2 : c2 ^ 2 + s2 ^ 2 = 1)
    (hc1 : 0 ≤ c1) (hs1 : 0 ≤ s1) (hc2 : 0 ≤ c2) (hs2 : 0 ≤ s2)
    (hcl : firstHit cl = some ic) (hal : firstHit al = some an)
    (hcross : 0 ≤ c1 * s2 - s1 * c2) :
    ∃ ib ie, sectorBody ⟨x, y⟩ (rayOf x y c1 s1) cl al (rayOf x y c2 s2)
      = .ok (mkSector ib ic ie an
          ((cumulative 0 x y c2 s2).1 - (cumulative 0 x y c1 s1).1)
          ((cumulative 0 x y c2 s2).2 - (cumulative 0 x y c1 s1).2)) := by
  have n1left := hit_left_none x y c1 s1 hx hx' hy hy' hu1 hc1
  have n1bottom := hit_bottom_none x y c1 s1 hx hx' hy hy' hu1 hs1
  have n2left := hit_left_none x y c2 s2 hx hx' hy hy' hu2 hc2
  have n2bottom := hit_bottom_none x y c2 s2 hx hx' hy hy' hu2 hs2
  have hkm := kappa_mono (1 - x) (1 - y) c1 s1 c2 s2 (by linarith) (by linarith) hc1 hs1 hc2 hs2
    hu1 hu2 hcross
  have ax1 : |1 - x| = 1 - x := abs_of_pos (by linarith)
  have ax2 : |-1 - x| = 1 + x := by rw [abs_of_neg (by linarith)]; ring
  have ay1 : |1 - y| = 1 - y := abs_of_pos (by linarith)
  have ay2 : |-1 - y| = 1 + y := by rw [abs_of_neg (by linarith)]; ring
  rcases classify x y c1 s1 (1) (1) hx hx' hy hy' hu1 (Or.inl rfl) (Or.inl rfl) (by linarith) (by linarith)
    with ⟨Y1, hV1, hH1, h1a, h1b, h1c, h1d, h1k⟩ | ⟨hV1, hH1, h1c, h1s, h1d, h1k⟩ |
      ⟨X1, hH1, hV1, h1a, h1b, h1s, h1d, h1k⟩ <;>
  rcases classify x y c2 s2 (1) (1) hx hx' hy hy' hu2 (Or.inl rfl) (Or.inl rfl) (by linarith) (by linarith)
    with ⟨Y2, hV2, hH2, h2a, h2b, h2c, h2d, h2k⟩ | ⟨hV2, hH2, h2c, h2s, h2d, h2k⟩ |
      ⟨X2, hH2, hV2, h2a, h2b, h2s, h2d, h2k⟩ <;>
  simp only [sectorBody, cumulative, left, right, top, bottom, bottomleft, bottomright, topleft,
    topright, hcl, hal, n1left, n1bottom, n2left, n2bottom, hV1, hH1, hV2, hH2] <;>
  first
  | (exfalso; have := hkm.1 (by linarith); linarith)
  | (exfalso; have := hkm.2 (by linarith); linarith)
  | (try have ov := order_vert x y (1) c1 s1 c2 s2 Y1 Y2 (by linarith) h1c h2c h1d h2d hcross
     try have oh := order_horiz x y (1) c1 s1 c2 s2 X1 X2 (by linarith) h1s h2s h1d h2d hcross
     apply mk_eq <;>
     simp only [area_vert, area_horiz, sweptR, sweptT, sweptL, sweptB, arcR, arcT, arcL, arcB,
       ax1, ax2, ay1, ay2, abs_eq_ite] <;>
     (try split_ifs) <;>
     first
     | ring1
     | (exfalso; linarith))

/-- Sector whose begin direction lies in quadrant 0 and whose end direction lies in
quadrant 1: no `throw` is reached and area and length are differences of the
cumulative values. -/
theorem sector_q01 (x y c1 s1 c2 s2 : F) (cl al : QLineF F) (ic an : QPointF F)
    (hx : -1 < x) (hx' : x < 1) (hy : -1 < y) (hy' : y < 1)
    (hu1 : c1 ^ 2 + s1 ^ 2 = 1) (hu2 : c2 ^ 2 + s2 ^ 2 = 1)
    (hc1 : 0 ≤ c1) (hs1 : 0 ≤ s1) (hc2 : c2 ≤ 0) (hs2 : 0 ≤ s2)
    (hcl : firstHit cl = some ic) (hal : firstHit al = some an) :
    ∃ ib ie, sectorBody ⟨x, y⟩ (rayOf x y c1 s1) cl al (rayOf x y c2 s2)
      = .ok (mkSector ib ic ie an
          ((cumulative 1 x y c2 s2).1 - (cumulative 0 x y c1 s1).1)
          ((cumulative 1 x y c2 s2).2 - (cumulative 0 x y c1 s1).2)) := by
  have n1left := hit_left_none x y c1 s1 hx hx' hy hy' hu1 hc1
  have n1bottom := hit_bottom_none x y c1 s1 hx hx' hy hy' hu1 hs1
  have n2right := hit_right_none x y c2 s2 hx hx' hy hy' hu2 hc2
  have n2bottom := hit_bottom_none x y c2 s2 hx hx' hy hy' hu2 hs2
  have ax1 : |1 - x| = 1 - x := abs_of_pos (by linarith)
  have ax2 : |-1 - x| = 1 + x := by rw [abs_of_neg (by linarith)]; ring
  have ay1 : |1 - y| = 1 - y := abs_of_pos (by linarith)
  have ay2 : |-1 - y| = 1 + y := by rw [abs_of_neg (by linarith)]; ring
  rcases classify x y c1 s1 (1) (1) hx hx' hy hy' hu1 (Or.inl rfl) (Or.inl rfl) (by linarith) (by linarith)
    with ⟨Y1, hV1, hH1, h1a, h1b, h1c, h1d, h1k⟩ | ⟨hV1, hH1, h1c, h1s, h1d, h1k⟩ |
      ⟨X1, hH1, hV1, h1a, h1b, h1s, h1d, h1k⟩ <;>
  rcases classify x y c2 s2 (-1) (1) hx hx' hy hy' hu2 (Or.inr rfl) (Or.inl rfl) (by linarith) (by linarith)
    with ⟨Y2, hV2, hH2, h2a, h2b, h2c, h2d, h2k⟩ | ⟨hV2, hH2, h2c, h2s, h2d, h2k⟩ |
      ⟨X2, hH2, hV2, h2a, h2b, h2s, h2d, h2k⟩ <;>
  simp only [sectorBody, cumulative, left, right, top, bottom, bottomleft, bottomright, topleft,
    topright, hcl, hal, n1left, n1bottom, n2right, n2bottom, hV1, hH1, hV2, hH2] <;>
  first
  | (apply mk_eq <;>
     simp only [area_vert, area_horiz, sweptR, sweptT, sweptL, sweptB, arcR, arcT, arcL, arcB,
       ax1, ax2, ay1, ay2, abs_eq_ite] <;>
     (try split_ifs) <;>
     first
     | ring1
     | (exfalso; linarith))

/-- Sector whose begin direction lies in quadrant 1 and whose end direction lies in
quadrant 1: no `throw` is reached and area and length are differences of the
cumulative values. -/
theorem sector_q11 (x y c1 s1 c2 s2 : F) (cl al : QLineF F) (ic an : QPointF F)
    (hx : -1 < x) (hx' : x < 1) (hy : -1 < y) (hy' : y < 1)
    (hu1 : c1 ^ 2 + s1 ^ 2 = 1) (hu2 : c2 ^ 2 + s2 ^ 2 = 1)
    (hc1 : c1 ≤ 0) (hs1 : 0 ≤ s1) (hc2 : c2 ≤ 0) (hs2 : 0 ≤ s2)
    (hcl : firstHit cl = some ic) (hal : firstHit al = some an)
    (hcross : 0 ≤ c1 * s2 - s1 * c2) :
    ∃ ib ie, sectorBody ⟨x, y⟩ (rayOf x y c1 s1) cl al (rayOf x y c2 s2)
      = .ok (mkSector ib ic ie an
          ((cumulative 1 x y c2 s2).1 - (cumulative 1 x y c1 s1).1)
          ((cumulative 1 x y c2 s2).2 - (cumulative 1 x y c1 s1).2)) := by
  have n1right := hit_right_none x y c1 s1 hx hx' hy hy' hu1 hc1
  have n1bottom := hit_bottom_none x y c1 s1 hx hx' hy hy' hu1 hs1
  have n2right := hit_right_none x y c2 s2 hx hx' hy hy' hu2 hc2
  have n2bottom := hit_bottom_none x y c2 s2 hx hx' hy hy' hu2 hs2
  have hkm := kappa_mono (1 - y) (1 + x) s1 (-c1) s2 (-c2) (by linarith) (by linarith) hs1 (by linarith)
    hs2 (by linarith) (by rw [neg_sq]; linarith) (by rw [neg_sq]; linarith) (by linarith)
  have ax1 : |1 - x| = 1 - x := abs_of_pos (by linarith)
  have ax2 : |-1 - x| = 1 + x := by rw [abs_of_neg (by linarith)]; ring
  have ay1 : |1 - y| = 1 - y := abs_of_pos (by linarith)
  have ay2 : |-1 - y| = 1 + y := by rw [abs_of_neg (by linarith)]; ring
  rcases classify x y c1 s1 (-1) (1) hx hx' hy hy' hu1 (Or.inr rfl) (Or.inl rfl) (by linarith) (by linarith)
    with ⟨Y1, hV1, hH1, h1a, h1b, h1c, h1d, h1k⟩ | ⟨hV1, hH1, h1c, h1s, h1d, h1k⟩ |
      ⟨X1, hH1, hV1, h1a, h1b, h1s, h1d, h1k⟩ <;>
  rcases classify x y c2 s2 (-1) (1) hx hx' hy hy' hu2 (Or.inr rfl) (Or.inl rfl) (by linarith) (by linarith)
    with ⟨Y2, hV2, hH2, h2a, h2b, h2c, h2d, h2k⟩ | ⟨hV2, hH2, h2c, h2s, h2d, h2k⟩ |
      ⟨X2, hH2, hV2, h2a, h2b, h2s, h2d, h2k⟩ <;>
  simp only [sectorBody, cumulative, left, right, top, bottom, bottomleft, bottomright, topleft,
    topright, hcl, hal, n1right, n1bottom, n2right, n2bottom, hV1, hH1, hV2, hH2] <;>
  first
  | (exfalso; have := hkm.1 (by linarith); linarith)
  | (exfalso; have := hkm.2 (by linarith); linarith)
  | (try have ov := order_vert x y (-1) c1 s1 c2 s2 Y1 Y2 (by linarith) h1c h2c h1d h2d hcross
     try have oh := order_horiz x y (1) c1 s1 c2 s2 X1 X2 (by linarith) h1s h2s h1d h2d hcross
     apply mk_eq <;>
     simp only [area_vert, area_horiz, sweptR, sweptT, sweptL, sweptB, arcR, arcT, arcL, arcB,
       ax1, ax2, ay1, ay2, abs_eq_ite] <;>
     (try split_ifs) <;>
     first
     | ring1
     | (exfalso; linarith)
     | (have e : Y2 = Y1 := by linarith
        rw [e]; ring1))

/-- Sector whose begin direction lies in quadrant 1 and whose end direction lies in
quadrant 2: no `throw` is reached and area and length are differences of the
cumulative values. -/
theorem sector_q12 (x y c1 s1 c2 s2 : F) (cl al : QLineF F) (ic an : QPointF F)
    (hx : -1 < x) (hx' : x < 1) (hy : -1 < y) (hy' : y < 1)
    (hu1 : c1 ^ 2 + s1 ^ 2 = 1) (hu2 : c2 ^ 2 + s2 ^ 2 = 1)
    (hc1 : c1 ≤ 0) (hs1 : 0 ≤ s1) (hc2 : c2 ≤ 0) (hs2 : s2 ≤ 0)
    (hcl : firstHit cl = some ic) (hal : firstHit al = some an) :
    ∃ ib ie, sectorBody ⟨x, y⟩ (rayOf x y c1 s1) cl al (rayOf x y c2 s2)
      = .ok (mkSector ib ic ie an
          ((cumulative 2 x y c2 s2).1 - (cumulative 1 x y c1 s1).1)
          ((cumulative 2 x y c2 s2).2 - (cumulative 1 x y c1 s1).2)) := by
  have n1right := hit_right_none x y c1 s1 hx hx' hy hy' hu1 hc1
  have n1bottom := hit_bottom_none x y c1 s1 hx hx' hy hy' hu1 hs1
  have n2right := hit_right_none x y c2 s2 hx hx' hy hy' hu2 hc2
  have n2top := hit_top_none x y c2 s2 hx hx' hy hy' hu2 hs2
  have ax1 : |1 - x| = 1 - x := abs_of_pos (by linarith)
  have ax2 : |-1 - x| = 1 + x := by rw [abs_of_neg (by linarith)]; ring
  have ay1 : |1 - y| = 1 - y := abs_of_pos (by linarith)
  have ay2 : |-1 - y| = 1 + y := by rw [abs_of_neg (by linarith)]; ring
  rcases classify x y c1 s1 (-1) (1) hx hx' hy hy' hu1 (Or.inr rfl) (Or.inl rfl) (by linarith) (by linarith)
    with ⟨Y1, hV1, hH1, h1a, h1b, h1c, h1d, h1k⟩ | ⟨hV1, hH1, h1c, h1s, h1d, h1k⟩ |
      ⟨X1, hH1, hV1, h1a, h1b, h1s, h1d, h1k⟩ <;>
  rcases classify x y c2 s2 (-1) (-1) hx hx' hy hy' hu2 (Or.inr rfl) (Or.inr rfl) (by linarith) (by linarith)
    with ⟨Y2, hV2, hH2, h2a, h2b, h2c, h2d, h2k⟩ | ⟨hV2, hH2, h2c, h2s, h2d, h2k⟩ |
      ⟨X2, hH2, hV2, h2a, h2b, h2s, h2d, h2k⟩ <;>
  simp only [sectorBody, cumulative, left, right, top, bottom, bottomleft, bottomright, topleft,
    topright, hcl, hal, n1right, n1bottom, n2right, n2top, hV1, hH1, hV2, hH2] <;>
  first
  | (apply mk_eq <;>
     simp only [area_vert, area_horiz, sweptR, sweptT, sweptL, sweptB, arcR, arcT, arcL, arcB,
       ax1, ax2, ay1, ay2, abs_eq_ite] <;>
     (try split_ifs) <;>
     first
     | ring1
     | (exfalso; linarith)
     | (have e : Y2 = Y1 := by linarith
        rw [e]; ring1))

/-- Sector whose begin direction lies in quadrant 2 and whose end direction lies in
quadrant 2: no `throw` is reached and area and length are differences of the
cumulative values. -/
theorem sector_q22 (x y c1 s1 c2 s2 : F) (cl al : QLineF F) (ic an : QPointF F)
    (hx : -1 < x) (hx' : x < 1) (hy : -1 < y) (hy' : y < 1)
    (hu1 : c1 ^ 2 + s1 ^ 2 = 1) (hu2 : c2 ^ 2 + s2 ^ 2 = 1)
    (hc1 : c1 ≤ 0) (hs1 : s1 ≤ 0) (hc2 : c2 ≤ 0) (hs2 : s2 ≤ 0)
    (hcl : firstHit cl = some ic) (hal : firstHit al = some an)
    (hcross : 0 ≤ c1 * s2 - s1 * c2) :
    ∃ ib ie, sectorBody ⟨x, y⟩ (rayOf x y c1 s1) cl al (rayOf x y c2 s2)
      = .ok (mkSector ib ic ie an
          ((cumulative 2 x y c2 s2).1 - (cumulative 2 x y c1 s1).1)
          ((cumulative 2 x y c2 s2).2 - (cumulative 2 x y c1 s1).2)) := by
  have n1right := hit_right_none x y c1 s1 hx hx' hy hy' hu1 hc1
  have n1top := hit_top_none x y c1 s1 hx hx' hy hy' hu1 hs1
  have n2right := hit_right_none x y c2 s2 hx hx' hy hy' hu2 hc2
  have n2top := hit_top_none x y c2 s2 hx hx' hy hy' hu2 hs2
  have hkm := kappa_mono (1 + x) (1 + y) (-c1) (-s1) (-c2) (-s2) (by linarith) (by linarith) (by linarith)
    (by linarith) (by linarith) (by linarith) (by rw [neg_sq, neg_sq]; linarith)
    (by rw [neg_sq, neg_sq]; linarith) (by linarith)
  have ax1 : |1 - x| = 1 - x := abs_of_pos (by linarith)
  have ax2 : |-1 - x| = 1 + x := by rw [abs_of_neg (by linarith)]; ring
  have ay1 : |1 - y| = 1 - y := abs_of_pos (by linarith)
  have ay2 : |-1 - y| = 1 + y := by rw [abs_of_neg (by linarith)]; ring
  rcases classify x y c1 s1 (-1) (-1) hx hx' hy hy' hu1 (Or.inr rfl) (Or.inr rfl) (by linarith) (by linarith)
    with ⟨Y1, hV1, hH1, h1a, h1b, h1c, h1d, h1k⟩ | ⟨hV1, hH1, h1c, h1s, h1d, h1k⟩ |
      ⟨X1, hH1, hV1, h1a, h1b, h1s, h1d, h1k⟩ <;>
  rcases classify x y c2 s2 (-1) (-1) hx hx' hy hy' hu2 (Or.inr rfl) (Or.inr rfl) (by linarith) (by linarith)
    with ⟨Y2, hV2, hH2, h2a, h2b, h2c, h2d, h2k⟩ | ⟨hV2, hH2, h2c, h2s, h2d, h2k⟩ |
      ⟨X2, hH2, hV2, h2a, h2b, h2s, h2d, h2k⟩ <;>
  simp only [sectorBody, cumulative, left, right, top, bottom, bottomleft, bottomright, topleft,
    topright, hcl, hal, n1right, n1top, n2right, n2top, hV1, hH1, hV2, hH2] <;>
  first
  | (exfalso; have := hkm.1 (by linarith); linarith)
  | (exfalso; have := hkm.2 (by linarith); linarith)
  | (try have ov := order_vert x y (-1) c1 s1 c2 s2 Y1 Y2 (by linarith) h1c h2c h1d h2d hcross
     try have oh := order_horiz x y (-1) c1 s1 c2 s2 X1 X2 (by linarith) h1s h2s h1d h2d hcross
     apply mk_eq <;>
     simp only [area_vert, area_horiz, sweptR, sweptT, sweptL, sweptB, arcR, arcT, arcL, arcB,
       ax1, ax2, ay1, ay2, abs_eq_ite] <;>
     (try split_ifs) <;>
     first
     | ring1
     | (exfalso; linarith)
     | (have e : Y2 = Y1 := by linarith
        rw [e]; ring1)
     | (have e : X2 = X1 := by linarith
        rw [e]; ring1))

/-- Sector whose begin direction lies in quadrant 2 and whose end direction lies in
quadrant 3: no `throw` is reached and area and length are differences of the
cumulative values. -/
theorem sector_q23 (x y c1 s1 c2 s2 : F) (cl al : QLineF F) (ic an : QPointF F)
    (hx : -1 < x) (hx' : x < 1) (hy : -1 < y) (hy' : y < 1)
    (hu1 : c1 ^ 2 + s1 ^ 2 = 1) (hu2 : c2 ^ 2 + s2 ^ 2 = 1)
    (hc1 : c1 ≤ 0) (hs1 : s1 ≤ 0) (hc2 : 0 ≤ c2) (hs2 : s2 ≤ 0)
    (hcl : firstHit cl = some ic) (hal : firstHit al = some an) :
    ∃ ib ie, sectorBody ⟨x, y⟩ (rayOf x y c1 s1) cl al (rayOf x y c2 s2)
      = .ok (mkSector ib ic ie an
          ((cumulative 3 x y c2 s2).1 - (cumulative 2 x y c1 s1).1)
          ((cumulative 3 x y c2 s2).2 - (cumulative 2 x y c1 s1).2)) := by
  have n1right := hit_right_none x y c1 s1 hx hx' hy hy' hu1 hc1
  have n1top := hit_top_none x y c1 s1 hx hx' hy hy' hu1 hs1
  have n2left := hit_left_none x y c2 s2 hx hx' hy hy' hu2 hc2
  have n2top := hit_top_none x y c2 s2 hx hx' hy hy' hu2 hs2
  have ax1 : |1 - x| = 1 - x := abs_of_pos (by linarith)
  have ax2 : |-1 - x| = 1 + x := by rw [abs_of_neg (by linarith)]; ring
  have ay1 : |1 - y| = 1 - y := abs_of_pos (by linarith)
  have ay2 : |-1 - y| = 1 + y := by rw [abs_of_neg (by linarith)]; ring
  rcases classify x y c1 s1 (-1) (-1) hx hx' hy hy' hu1 (Or.inr rfl) (Or.inr rfl) (by linarith) (by linarith)
    with ⟨Y1, hV1, hH1, h1a, h1b, h1c, h1d, h1k⟩ | ⟨hV1, hH1, h1c, h1s, h1d, h1k⟩ |
      ⟨X1, hH1, hV1, h1a, h1b, h1s, h1d, h1k⟩ <;>
  rcases classify x y c2 s2 (1) (-1) hx hx' hy hy' hu2 (Or.inl rfl) (Or.inr rfl) (by linarith) (by linarith)
    with ⟨Y2, hV2, hH2, h2a, h2b, h2c, h2d, h2k⟩ | ⟨hV2, hH2, h2c, h2s, h2d, h2k⟩ |
      ⟨X2, hH2, hV2, h2a, h2b, h2s, h2d, h2k⟩ <;>
  simp only [sectorBody, cumulative, left, right, top, bottom, bottomleft, bottomright, topleft,
    topright, hcl, hal, n1right, n1top, n2left, n2top, hV1, hH1, hV2, hH2] <;>
  first
  | (apply mk_eq <;>
     simp only [area_vert, area_horiz, sweptR, sweptT, sweptL, sweptB, arcR, arcT, arcL, arcB,
       ax1, ax2, ay1, ay2, abs_eq_ite] <;>
     (try split_ifs) <;>
     first
     | ring1
     | (exfalso; linarith)
     | (have e : X2 = X1 := by linarith
        rw [e]; ring1))

/-- Sector whose begin direction lies in quadrant 3 and whose end direction lies in
quadrant 3: no `throw` is reached and area and length are differences of the
cumulative values. -/
theorem sector_q33 (x y c1 s1 c2 s2 : F) (cl al : QLineF F) (ic an : QPointF F)
    (hx : -1 < x) (hx' : x < 1) (hy : -1 < y) (hy' : y < 1)
    (hu1 : c1 ^ 2 + s1 ^ 2 = 1) (hu2 : c2 ^ 2 + s2 ^ 2 = 1)
    (hc1 : 0 ≤ c1) (hs1 : s1 ≤ 0) (hc2 : 0 ≤ c2) (hs2 : s2 ≤ 0)
    (hcl : firstHit cl = some ic) (hal : firstHit al = some an)
    (hcross : 0 ≤ c1 * s2 - s1 * c2) :
    ∃ ib ie, sectorBody ⟨x, y⟩ (rayOf x y c1 s1) cl al (rayOf x y c2 s2)
      = .ok (mkSector ib ic ie an
          ((cumulative 3 x y c2 s2).1 - (cumulative 3 x y c1 s1).1)
          ((cumulative 3 x y c2 s2).2 - (cumulative 3 x y c1 s1).2)) := by
  have n1left := hit_left_none x y c1 s1 hx hx' hy hy' hu1 hc1
  have n1top := hit_top_none x y c1 s1 hx hx' hy hy' hu1 hs1
  have n2left := hit_left_none x y c2 s2 hx hx' hy hy' hu2 hc2
  have n2top := hit_top_none x y c2 s2 hx hx' hy hy' hu2 hs2
  have hkm := kappa_mono (1 + y) (1 - x) (-s1) c1 (-s2) c2 (by linarith) (by linarith) (by linarith) hc1
    (by linarith) hc2 (by rw [neg_sq]; linarith) (by rw [neg_sq]; linarith) (by linarith)
  have ax1 : |1 - x| = 1 - x := abs_of_pos (by linarith)
  have ax2 : |-1 - x| = 1 + x := by rw [abs_of_neg (by linarith)]; ring
  have ay1 : |1 - y| = 1 - y := abs_of_pos (by linarith)
  have ay2 : |-1 - y| = 1 + y := by rw [abs_of_neg (by linarith)]; ring
  rcases classify x y c1 s1 (1) (-1) hx hx' hy hy' hu1 (Or.inl rfl) (Or.inr rfl) (by linarith) (by linarith)
    with ⟨Y1, hV1, hH1, h1a, h1b, h1c, h1d, h1k⟩ | ⟨hV1, hH1, h1c, h1s, h1d, h1k⟩ |
      ⟨X1, hH1, hV1, h1a, h1b, h1s, h1d, h1k⟩ <;>
  rcases classify x y c2 s2 (1) (-1) hx hx' hy hy' hu2 (Or.inl rfl) (Or.inr rfl) (by linarith) (by linarith)
    with ⟨Y2, hV2, hH2, h2a, h2b, h2c, h2d, h2k⟩ | ⟨hV2, hH2, h2c, h2s, h2d, h2k⟩ |
      ⟨X2, hH2, hV2, h2a, h2b, h2s, h2d, h2k⟩ <;>
  simp only [sectorBody, cumulative, left, right, top, bottom, bottomleft, bottomright, topleft,
    topright, hcl, hal, n1left, n1top, n2left, n2top, hV1, hH1, hV2, hH2] <;>
  first
  | (exfalso; have := hkm.1 (by linarith); linarith)
  | (exfalso; have := hkm.2 (by linarith); linarith)
  | (try have ov := order_vert x y (1) c1 s1 c2 s2 Y1 Y2 (by linarith) h1c h2c h1d h2d hcross
     try have oh := order_horiz x y (-1) c1 s1 c2 s2 X1 X2 (by linarith) h1s h2s h1d h2d hcross
     apply mk_eq <;>
     simp only [area_vert, area_horiz, sweptR, sweptT, sweptL, sweptB, arcR, arcT, arcL, arcB,
       ax1, ax2, ay1, ay2, abs_eq_ite] <;>
     (try split_ifs) <;>
     first
     | ring1
     | (exfalso; linarith)
     | (have e : X2 = X1 := by linarith
        rw [e]; ring1))

theorem firstHit_some_of_hit (ray : QLineF F)
    (h : (∃ p, boundedHit ray ⟨⟨-1, -1⟩, ⟨-1, 1⟩⟩ = some p) ∨
      (∃ p, boundedHit ray ⟨⟨-1, 1⟩, ⟨1, 1⟩⟩ = some p) ∨
      (∃ p, boundedHit ray ⟨⟨1, -1⟩, ⟨1, 1⟩⟩ = some p) ∨
      (∃ p, boundedHit ray ⟨⟨-1, -1⟩, ⟨1, -1⟩⟩ = some p)) :
    ∃ p, firstHit ray = some p := by
  simp only [firstHit, left, right, top, bottom, bottomleft, bottomright, topleft, topright]
  cases hl : boundedHit ray ⟨⟨-1, -1⟩, ⟨-1, 1⟩⟩ with
  | some p => exact ⟨p, rfl⟩
  | none =>
    cases ht : boundedHit ray ⟨⟨-1, 1⟩, ⟨1, 1⟩⟩ with
    | some p => exact ⟨p, rfl⟩
    | none =>
      cases hr : boundedHit ray ⟨⟨1, -1⟩, ⟨1, 1⟩⟩ with
      | some p => exact ⟨p, rfl⟩
      | none =>
        cases hb : boundedHit ray ⟨⟨-1, -1⟩, ⟨1, -1⟩⟩ with
        | some p => exact ⟨p, rfl⟩
        | none =>
          simp only [hl, ht, hr, hb] at h
          rcases h with ⟨p, hp⟩ | ⟨p, hp⟩ | ⟨p, hp⟩ | ⟨p, hp⟩ <;> cases hp

/-- Every ray of unit direction from an interior point has a bounded hit with an
edge: the chains for the centre and the anchor do not reach `throw`. -/
theorem firstHit_some (x y c s : F) (hx : -1 < x) (hx' : x < 1) (hy : -1 < y) (hy' : y < 1)
    (hu : c ^ 2 + s ^ 2 = 1) : ∃ p, firstHit (rayOf x y c s) = some p := by
  apply firstHit_some_of_hit
  rcases le_total 0 c with hc | hc <;> rcases le_total 0 s with hs | hs
  · rcases classify x y c s 1 1 hx hx' hy hy' hu (Or.inl rfl) (Or.inl rfl) (by linarith)
      (by linarith) with ⟨Y, hV, _⟩ | ⟨hV, _⟩ | ⟨X, hH, _⟩
    · exact Or.inr (Or.inr (Or.inl ⟨_, hV⟩))
    · exact Or.inr (Or.inr (Or.inl ⟨_, hV⟩))
    · exact Or.inr (Or.inl ⟨_, hH⟩)
  · rcases classify x y c s 1 (-1) hx hx' hy hy' hu (Or.inl rfl) (Or.inr rfl) (by linarith)
      (by linarith) with ⟨Y, hV, _⟩ | ⟨hV, _⟩ | ⟨X, hH, _⟩
    · exact Or.inr (Or.inr (Or.inl ⟨_, hV⟩))
    · exact Or.inr (Or.inr (Or.inl ⟨_, hV⟩))
    · exact Or.inr (Or.inr (Or.inr ⟨_, hH⟩))
  · rcases classify x y c s (-1) 1 hx hx' hy hy' hu (Or.inr rfl) (Or.inl rfl) (by linarith)
      (by linarith) with ⟨Y, hV, _⟩ | ⟨hV, _⟩ | ⟨X, hH, _⟩
    · exact Or.inl ⟨_, hV⟩
    · exact Or.inl ⟨_, hV⟩
    · exact Or.inr (Or.inl ⟨_, hH⟩)
  · rcases classify x y c s (-1) (-1) hx hx' hy hy' hu (Or.inr rfl) (Or.inr rfl) (by linarith)
      (by linarith) with ⟨Y, hV, _⟩ | ⟨hV, _⟩ | ⟨X, hH, _⟩
    · exact Or.inl ⟨_, hV⟩
    · exact Or.inl ⟨_, hV⟩
    · exact Or.inr (Or.inr (Or.inr ⟨_, hH⟩))

/-- The sector between two unit directions lying in the same closed quadrant (in
counter-clockwise order) or in consecutive quadrants. -/
theorem sectorBody_quadrants (x y c1 s1 c2 s2 : F) (cl al : QLineF F) (ic an : QPointF F)
    (q1 q2 : ℕ) (hx : -1 < x) (hx' : x < 1) (hy : -1 < y) (hy' : y < 1)
    (hu1 : c1 ^ 2 + s1 ^ 2 = 1) (hu2 : c2 ^ 2 + s2 ^ 2 = 1)
    (h1 : InQuadrant q1 c1 s1) (h2 : InQuadrant q2 c2 s2) (hq2 : q2 ≤ 3)
    (hqq : (q2 = q1 ∧ 0 ≤ c1 * s2 - s1 * c2) ∨ q2 = q1 + 1)
    (hcl : firstHit cl = some ic) (hal : firstHit al = some an) :
    ∃ ib ie, sectorBody ⟨x, y⟩ (rayOf x y c1 s1) cl al (rayOf x y c2 s2)
      = .ok (mkSector ib ic ie an
          ((cumulative q2 x y c2 s2).1 - (cumulative q1 x y c1 s1).1)
          ((cumulative q2 x y c2 s2).2 - (cumulative q1 x y c1 s1).2)) := by
  rcases hqq with ⟨he, hcross⟩ | he
  · subst he
    interval_cases q2
    · exact sector_q00 x y c1 s1 c2 s2 cl al ic an hx hx' hy hy' hu1 hu2 h1.1 h1.2 h2.1 h2.2
        hcl hal hcross
    · exact sector_q11 x y c1 s1 c2 s2 cl al ic an hx hx' hy hy' hu1 hu2 h1.1 h1.2 h2.1 h2.2
        hcl hal hcross
    · exact sector_q22 x y c1 s1 c2 s2 cl al ic an hx hx' hy hy' hu1 hu2 h1.1 h1.2 h2.1 h2.2
        hcl hal hcross
    · exact sector_q33 x y c1 s1 c2 s2 cl al ic an hx hx' hy hy' hu1 hu2 h1.1 h1.2 h2.1 h2.2
        hcl hal hcross
  · subst he
    have hq1 : q1 ≤ 2 := by omega
    interval_cases q1
    · exact sector_q01 x y c1 s1 c2 s2 cl al ic an hx hx' hy hy' hu1 hu2 h1.1 h1.2 h2.1 h2.2
        hcl hal
    · exact sector_q12 x y c1 s1 c2 s2 cl al ic an hx hx' hy hy' hu1 hu2 h1.1 h1.2 h2.1 h2.2
        hcl hal
    · exact sector_q23 x y c1 s1 c2 s2 cl al ic an hx hx' hy hy' hu1 hu2 h1.1 h1.2 h2.1 h2.2
        hcl hal

end

/-- Result of `SquareDomain::sector` for an interior position and two angles whose
directions lie in the same closed quadrant (in counter-clockwise order) or in
consecutive quadrants. -/
theorem sector_quadrants (x y θ1 θ2 : ℝ) (q1 q2 : ℕ)
    (hx : -1 < x) (hx' : x < 1) (hy : -1 < y) (hy' : y < 1)
    (h1 : InQuadrant q1 (Real.cos θ1) (Real.sin θ1))
    (h2 : InQuadrant q2 (Real.cos θ2) (Real.sin θ2)) (hq2 : q2 ≤ 3)
    (hqq : (q2 = q1 ∧ 0 ≤ Real.sin (θ2 - θ1)) ∨ q2 = q1 + 1) :
    ∃ ib ic ie an, SquareDomain.sector ⟨x, y⟩ θ1 θ2
      = .ok (mkSector ib ic ie an
          ((cumulative q2 x y (Real.cos θ2) (Real.sin θ2)).1
            - (cumulative q1 x y (Real.cos θ1) (Real.sin θ1)).1)
          ((cumulative q2 x y (Real.cos θ2) (Real.sin θ2)).2
            - (cumulative q1 x y (Real.cos θ1) (Real.sin θ1)).2)) := by
  have hu : ∀ θ : ℝ, Real.cos θ ^ 2 + Real.sin θ ^ 2 = 1 := fun θ => Real.cos_sq_add_sin_sq θ
  obtain ⟨ic, hic⟩ := firstHit_some x y (Real.cos ((θ1 + θ2) / 2)) (Real.sin ((θ1 + θ2) / 2))
    hx hx' hy hy' (hu _)
  obtain ⟨an, han⟩ := firstHit_some x y (-Real.cos ((θ1 + θ2) / 2)) (-Real.sin ((θ1 + θ2) / 2))
    hx hx' hy hy' (by rw [neg_sq, neg_sq]; exact hu _)
  have hal : firstHit (⟨⟨x, y⟩, (⟨x, y⟩ : QPointF ℝ) - (10 : ℝ) *
      (⟨Real.cos ((θ1 + θ2) / 2), Real.sin ((θ1 + θ2) / 2)⟩ : QPointF ℝ)⟩ : QLineF ℝ) = some an := by
    have e : (⟨⟨x, y⟩, (⟨x, y⟩ : QPointF ℝ) - (10 : ℝ) *
        (⟨Real.cos ((θ1 + θ2) / 2), Real.sin ((θ1 + θ2) / 2)⟩ : QPointF ℝ)⟩ : QLineF ℝ)
        = rayOf x y (-Real.cos ((θ1 + θ2) / 2)) (-Real.sin ((θ1 + θ2) / 2)) := by
      unfold rayOf
      congr 1
      apply QPointF.ext
      · show x - 10 * Real.cos ((θ1 + θ2) / 2) = x + 10 * -Real.cos ((θ1 + θ2) / 2); ring
      · show y - 10 * Real.sin ((θ1 + θ2) / 2) = y + 10 * -Real.sin ((θ1 + θ2) / 2); ring
    rw [e]; exact han
  have hcross : (q2 = q1 ∧ 0 ≤ Real.cos θ1 * Real.sin θ2 - Real.sin θ1 * Real.cos θ2)
      ∨ q2 = q1 + 1 := by
    rcases hqq with ⟨he, hs⟩ | he
    · left; refine ⟨he, ?_⟩
      rw [Real.sin_sub] at hs; linarith
    · right; exact he
  obtain ⟨ib, ie, h⟩ := sectorBody_quadrants x y (Real.cos θ1) (Real.sin θ1) (Real.cos θ2)
    (Real.sin θ2) _ _ ic an q1 q2 hx hx' hy hy' (hu _) (hu _) h1 h2 hq2 hcross hic hal
  exact ⟨ib, ic, ie, an, h⟩

theorem quadrantOf_bounds (K k : ℕ) (hK : 4 ≤ K) (hk : k ≤ K) :
    quadrantOf K k * K ≤ 4 * k ∧ 4 * k ≤ (quadrantOf K k + 1) * K ∧ quadrantOf K k ≤ 3 := by
  have hK0 : 0 < K := by omega
  have h1 : 4 * k / K * K ≤ 4 * k := Nat.div_mul_le_self _ _
  have h2 : 4 * k < K * (4 * k / K + 1) := Nat.lt_mul_div_succ _ hK0
  unfold quadrantOf
  rcases le_or_lt (4 * k / K) 3 with h | h
  · rw [min_eq_right h]
    refine ⟨h1, ?_, h⟩
    calc 4 * k ≤ K * (4 * k / K + 1) := le_of_lt h2
      _ = (4 * k / K + 1) * K := mul_comm _ _
  · rw [min_eq_left (le_of_lt h)]
    refine ⟨?_, by omega, le_rfl⟩
    calc 3 * K ≤ 4 * k / K * K := Nat.mul_le_mul_right K (by omega)
      _ ≤ 4 * k := h1

theorem quadrantOf_succ (K k : ℕ) (hK : 4 ≤ K) :
    quadrantOf K (k + 1) = quadrantOf K k ∨ quadrantOf K (k + 1) = quadrantOf K k + 1 := by
  have hK0 : 0 < K := by omega
  have h1 : 4 * k / K ≤ 4 * (k + 1) / K := Nat.div_le_div_right (by omega)
  have h2 : 4 * (k + 1) / K ≤ 4 * k / K + 1 := by
    calc 4 * (k + 1) / K ≤ (4 * k + K) / K := Nat.div_le_div_right (by omega)
      _ = 4 * k / K + 1 := Nat.add_div_right _ hK0
  unfold quadrantOf
  omega

theorem quadrantOf_zero (K : ℕ) : quadrantOf K 0 = 0 := by
  simp [quadrantOf]

theorem quadrantOf_self (K : ℕ) (hK : 4 ≤ K) : quadrantOf K K = 3 := by
  unfold quadrantOf
  have : 4 * K / K = 4 := Nat.mul_div_cancel 4 (by omega)
  rw [this]; rfl

theorem sectorAngle_bounds (K k : ℕ) (hK : 4 ≤ K) (hk : k ≤ K) :
    (quadrantOf K k : ℝ) * (Real.pi / 2) ≤ sectorAngle K k ∧
      sectorAngle K k ≤ ((quadrantOf K k : ℝ) + 1) * (Real.pi / 2) := by
  obtain ⟨h1, h2, _⟩ := quadrantOf_bounds K k hK hk
  have hKr : (0 : ℝ) < K := by exact_mod_cast (by omega : 0 < K)
  have h1r : (quadrantOf K k : ℝ) * K ≤ 4 * k := by exact_mod_cast h1
  have h2r : (4 : ℝ) * k ≤ ((quadrantOf K k : ℝ) + 1) * K := by exact_mod_cast h2
  have hpos : 0 ≤ Real.pi / (2 * K) := by positivity
  have e0 : sectorAngle K k = Real.pi / (2 * K) * (4 * k) := by
    unfold sectorAngle; field_simp; ring
  have e1 : (quadrantOf K k : ℝ) * (Real.pi / 2) = Real.pi / (2 * K) * ((quadrantOf K k : ℝ) * K) := by
    field_simp; ring
  have e2 : ((quadrantOf K k : ℝ) + 1) * (Real.pi / 2)
      = Real.pi / (2 * K) * (((quadrantOf K k : ℝ) + 1) * K) := by
    field_simp; ring
  rw [e0, e1, e2]
  exact ⟨mul_le_mul_of_nonneg_left h1r hpos, mul_le_mul_of_nonneg_left h2r hpos⟩

/-- Signs of cosine and sine in the four closed quadrants of `[0, 2π]`. -/
theorem inQuadrant_of_angle (q : ℕ) (θ : ℝ) (hq : q ≤ 3)
    (h1 : (q : ℝ) * (Real.pi / 2) ≤ θ) (h2 : θ ≤ ((q : ℝ) + 1) * (Real.pi / 2)) :
    InQuadrant q (Real.cos θ) (Real.sin θ) := by
  have hpi := Real.pi_pos
  interval_cases q
  · norm_num at h1 h2
    exact ⟨Real.cos_nonneg_of_mem_Icc ⟨by linarith, by linarith⟩,
      Real.sin_nonneg_of_nonneg_of_le_pi h1 (by linarith)⟩
  · norm_num at h1 h2
    exact ⟨Real.cos_nonpos_of_pi_div_two_le_of_le (by linarith) (by linarith),
      Real.sin_nonneg_of_nonneg_of_le_pi (by linarith) (by linarith)⟩
  · norm_num at h1 h2
    refine ⟨Real.cos_nonpos_of_pi_div_two_le_of_le (by linarith) (by linarith), ?_⟩
    have := Real.sin_nonneg_of_nonneg_of_le_pi (by linarith : 0 ≤ θ - Real.pi) (by linarith)
    rw [Real.sin_sub_pi] at this
    show Real.sin θ ≤ 0
    linarith
  · norm_num at h1 h2
    refine ⟨?_, ?_⟩
    · have := Real.cos_nonneg_of_mem_Icc
        (⟨by linarith, by linarith⟩ : θ - 2 * Real.pi ∈ Set.Icc (-(Real.pi / 2)) (Real.pi / 2))
      rw [Real.cos_sub_two_pi] at this
      exact this
    · have := Real.sin_nonpos_of_nonnpos_of_neg_pi_le
        (by linarith : θ - 2 * Real.pi ≤ 0) (by linarith)
      rw [Real.sin_sub_two_pi] at this
      exact this

theorem sectorAngle_succ (K k : ℕ) :
    sectorAngle K (k + 1) = ((k : ℝ) + 1) * (2 * Real.pi / (K : ℝ)) := by
  unfold sectorAngle; push_cast; ring

/-- Sector `k` of `K ≥ 4` around an interior position: `sector` returns, and area
and length are the increments of the cumulative values. -/
theorem sector_index (x y : ℝ) (K k : ℕ) (hx : -1 < x) (hx' : x < 1) (hy : -1 < y) (hy' : y < 1)
    (hK : 4 ≤ K) (hk : k < K) :
    ∃ ib ic ie an, SquareDomain.sector ⟨x, y⟩ ((k : ℝ) * (2 * Real.pi / (K : ℝ)))
        (((k : ℝ) + 1) * (2 * Real.pi / (K : ℝ)))
      = .ok (mkSector ib ic ie an ((cumAt x y K (k + 1)).1 - (cumAt x y K k).1)
          ((cumAt x y K (k + 1)).2 - (cumAt x y K k).2)) := by
  have hb1 := sectorAngle_bounds K k hK (le_of_lt hk)
  have hb2 := sectorAngle_bounds K (k + 1) hK hk
  have hq1 := (quadrantOf_bounds K k hK (le_of_lt hk)).2.2
  have hq2 := (quadrantOf_bounds K (k + 1) hK hk).2.2
  have hi1 := inQuadrant_of_angle (quadrantOf K k) (sectorAngle K k) hq1 hb1.1 hb1.2
  have hi2 := inQuadrant_of_angle (quadrantOf K (k + 1)) (sectorAngle K (k + 1)) hq2 hb2.1 hb2.2
  have hKr : (4 : ℝ) ≤ K := by exact_mod_cast hK
  have hdiff : sectorAngle K (k + 1) - sectorAngle K k = 2 * Real.pi / K := by
    rw [sectorAngle_succ]; unfold sectorAngle; ring
  have hstep0 : 0 ≤ 2 * Real.pi / (K : ℝ) := by positivity
  have hstep1 : 2 * Real.pi / (K : ℝ) ≤ Real.pi := by
    rw [div_le_iff₀ (by linarith)]
    nlinarith [Real.pi_pos]
  have hqq : (quadrantOf K (k + 1) = quadrantOf K k ∧
      0 ≤ Real.sin (sectorAngle K (k + 1) - sectorAngle K k)) ∨
      quadrantOf K (k + 1) = quadrantOf K k + 1 := by
    rcases quadrantOf_succ K k hK with h | h
    · left; refine ⟨h, ?_⟩
      rw [hdiff]; exact Real.sin_nonneg_of_nonneg_of_le_pi hstep0 hstep1
    · right; exact h
  have := sector_quadrants x y (sectorAngle K k) (sectorAngle K (k + 1)) (quadrantOf K k)
    (quadrantOf K (k + 1)) hx hx' hy hy' hi1 hi2 hq2 hqq
  rw [sectorAngle_succ] at this
  unfold cumAt
  rw [sectorAngle_succ]
  exact this

/-- Cumulative values at the first begin ray and at the last end ray differ by
the whole area and the whole circumference. -/
theorem cumAt_total (x y : ℝ) (K : ℕ) (hx : -1 < x) (hx' : x < 1) (hy : -1 < y) (hy' : y < 1)
    (hK : 4 ≤ K) :
    (cumAt x y K K).1 - (cumAt x y K 0).1 = 4 ∧ (cumAt x y K K).2 - (cumAt x y K 0).2 = 8 := by
  have hKr : (K : ℝ) ≠ 0 := by
    have : (0 : ℝ) < K := by exact_mod_cast (by omega : 0 < K)
    exact ne_of_gt this
  have a0 : sectorAngle K 0 = 0 := by unfold sectorAngle; simp
  have aK : sectorAngle K K = 2 * Real.pi := by unfold sectorAngle; field_simp
  have hu : (1 : ℝ) ^ 2 + 0 ^ 2 = 1 := by norm_num
  have hR : boundedHit (rayOf x y 1 0) ⟨⟨1, -1⟩, ⟨1, 1⟩⟩ = some ⟨1, y⟩ :=
    (hit_right_iff x y 1 0 ⟨1, y⟩ hx hx' hy hy' hu).mpr
      ⟨by norm_num, rfl, le_of_lt hy, le_of_lt hy', by simp⟩
  have hB : boundedHit (rayOf x y 1 0) ⟨⟨-1, -1⟩, ⟨1, -1⟩⟩ = none :=
    hit_bottom_none x y 1 0 hx hx' hy hy' hu le_rfl
  unfold cumAt
  rw [quadrantOf_zero, quadrantOf_self K hK, a0, aK, Real.cos_zero, Real.sin_zero,
    Real.cos_two_pi, Real.sin_two_pi]
  simp only [cumulative, right, bottom, bottomleft, bottomright, topright, hR, hB]
  constructor <;> ring

theorem allOk_cons_ok {ε α : Type} (a : α) (rest : List (Except ε α)) :
    allOk (.ok a :: rest) = match allOk rest with
      | .ok l => .ok (a :: l)
      | .error e => .error e := rfl

theorem allOk_append {ε α : Type} (l1 l2 : List (Except ε α)) (a b : List α)
    (h1 : allOk l1 = .ok a) (h2 : allOk l2 = .ok b) : allOk (l1 ++ l2) = .ok (a ++ b) := by
  induction l1 generalizing a with
  | nil =>
    simp only [allOk] at h1
    cases h1
    simpa using h2
  | cons x t ih =>
    cases x with
    | error e => simp [allOk] at h1
    | ok v =>
      rw [allOk_cons_ok] at h1
      rw [List.cons_append, allOk_cons_ok]
      cases ht : allOk t with
      | error e => rw [ht] at h1; cases h1
      | ok l =>
        rw [ht] at h1
        cases h1
        rw [ih l ht]
        rfl

/-- A loop whose steps all succeed returns the list of their results. -/
theorem allOk_map_range {ε α : Type} (F : ℕ → Except ε α) (P : ℕ → α → Prop) (n : ℕ)
    (h : ∀ k, k < n → ∃ S, F k = .ok S ∧ P k S) :
    ∃ l : List α, allOk ((List.range n).map F) = .ok l ∧ l.length = n ∧
      ∀ k, k < n → ∃ S, l[k]? = some S ∧ P k S := by
  induction n with
  | zero => exact ⟨[], rfl, rfl, fun k hk => absurd hk (Nat.not_lt_zero k)⟩
  | succ n ih =>
    obtain ⟨l, hl, hlen, hP⟩ := ih (fun k hk => h k (Nat.lt_succ_of_lt hk))
    obtain ⟨S, hS, hPS⟩ := h n (Nat.lt_succ_self n)
    refine ⟨l ++ [S], ?_, by simp [hlen], ?_⟩
    · rw [List.range_succ, List.map_append]
      apply allOk_append _ _ _ _ hl
      simp [allOk, hS]
    · intro k hk
      rcases Nat.lt_succ_iff_lt_or_eq.mp hk with hk' | hk'
      · obtain ⟨S', hS', hPS'⟩ := hP k hk'
        refine ⟨S', ?_, hPS'⟩
        rw [List.getElem?_append_left (by omega)]
        exact hS'
      · subst hk'
        refine ⟨S, ?_, hPS⟩
        rw [List.getElem?_append_right (by omega)]
        simp [hlen]

/-- Sum of a list of increments. -/
theorem sum_increments {α : Type} (val : α → ℝ) (l : List α) (f : ℕ → ℝ)
    (h : ∀ k, k < l.length → ∃ S, l[k]? = some S ∧ val S = f (k + 1) - f k) :
    (l.map val).sum = f l.length - f 0 := by
  induction l generalizing f with
  | nil => simp
  | cons a t ih =>
    obtain ⟨S, hS, hv⟩ := h 0 (by simp)
    simp only [List.getElem?_cons_zero, Option.some.injEq] at hS
    subst hS
    have ht := ih (fun k => f (k + 1)) (fun k hk => by
      obtain ⟨S', hS', hv'⟩ := h (k + 1) (by simp; omega)
      rw [List.getElem?_cons_succ] at hS'
      exact ⟨S', hS', hv'⟩)
    simp only [List.map_cons, List.sum_cons, List.length_cons]
    rw [ht, hv]
    ring

/-- The `// Compute sectors` loop for an interior position and `K ≥ 4` sectors:
every call of `sector` returns, and sector `k` carries the increments of the
cumulative area and length. -/
theorem computeSectors_spec (position : QPointF ℝ) (K : ℕ)
    (hx : -1 < position.x) (hx' : position.x < 1) (hy : -1 < position.y) (hy' : position.y < 1)
    (hK : 4 ≤ K) :
    ∃ sectors, Scatterplot.computeSectors position K = .ok sectors ∧ sectors.length = K ∧
      ∀ k, k < K → ∃ S, sectors[k]? = some S ∧ ∃ ib ic ie an, S = mkSector ib ic ie an
        ((cumAt position.x position.y K (k + 1)).1 - (cumAt position.x position.y K k).1)
        ((cumAt position.x position.y K (k + 1)).2 - (cumAt position.x position.y K k).2) := by
  obtain ⟨x, y⟩ := position
  unfold Scatterplot.computeSectors
  apply allOk_map_range
  intro k hk
  obtain ⟨ib, ic, ie, an, h⟩ := sector_index x y K k hx hx' hy hy' hK hk
  exact ⟨_, h, ib, ic, ie, an, rfl⟩

theorem abs_lt_one_iff (v : ℝ) : |v| < 1 ↔ -1 < v ∧ v < 1 := abs_lt

/-- C1: for every position strictly inside the square and every sector count
`K ≥ 4`, the `K` sectors computed for the intervals `[2πk/K, 2π(k+1)/K)` have
areas whose sum is `total_area() = 4`. -/
theorem sector_areas_sum_eq_total_area (position : QPointF ℝ) (K : ℕ)
    (hx : |position.x| < 1) (hy : |position.y| < 1) (hK : 4 ≤ K) :
    ∃ sectors, Scatterplot.computeSectors position K = .ok sectors ∧ sectors.length = K ∧
      (sectors.map fun s => s.area).sum = (SquareDomain.total_area : ℝ) ∧
      (SquareDomain.total_area : ℝ) = 4 := by
  obtain ⟨hx1, hx2⟩ := abs_lt.mp hx
  obtain ⟨hy1, hy2⟩ := abs_lt.mp hy
  obtain ⟨sectors, hs, hlen, hk⟩ := computeSectors_spec position K hx1 hx2 hy1 hy2 hK
  refine ⟨sectors, hs, hlen, ?_, rfl⟩
  have := sum_increments (fun s : Sector ℝ => s.area) sectors
    (fun k => (cumAt position.x position.y K k).1) (fun k hk' => by
      obtain ⟨S, hS, ib, ic, ie, an, hS'⟩ := hk k (hlen ▸ hk')
      exact ⟨S, hS, by rw [hS']; rfl⟩)
  rw [this, hlen, (cumAt_total position.x position.y K hx1 hx2 hy1 hy2 hK).1]
  rfl

theorem sector_areas_sum_eq_total_area_witness :
    ∃ sectors, Scatterplot.computeSectors ⟨1 / 2, -1 / 2⟩ 4 = .ok sectors ∧ sectors.length = 4 ∧
      (sectors.map fun s => s.area).sum = (SquareDomain.total_area : ℝ) ∧
      (SquareDomain.total_area : ℝ) = 4 :=
  sector_areas_sum_eq_total_area ⟨1 / 2, -1 / 2⟩ 4
    (by show |(1 / 2 : ℝ)| < 1; rw [abs_lt]; constructor <;> norm_num)
    (by show |(-1 / 2 : ℝ)| < 1; rw [abs_lt]; constructor <;> norm_num) (by norm_num)

/-- C2: for every position strictly inside the square and every sector count
`K ≥ 4`, the `K` sectors computed for the intervals `[2πk/K, 2π(k+1)/K)` have
boundary lengths whose sum is `total_circumference() = 8`. -/
theorem sector_lengths_sum_eq_total_circumference (position : QPointF ℝ) (K : ℕ)
    (hx : |position.x| < 1) (hy : |position.y| < 1) (hK : 4 ≤ K) :
    ∃ sectors, Scatterplot.computeSectors position K = .ok sectors ∧ sectors.length = K ∧
      (sectors.map fun s => s.length).sum = (SquareDomain.total_circumference : ℝ) ∧
      (SquareDomain.total_circumference : ℝ) = 8 := by
  obtain ⟨hx1, hx2⟩ := abs_lt.mp hx
  obtain ⟨hy1, hy2⟩ := abs_lt.mp hy
  obtain ⟨sectors, hs, hlen, hk⟩ := computeSectors_spec position K hx1 hx2 hy1 hy2 hK
  refine ⟨sectors, hs, hlen, ?_, rfl⟩
  have := sum_increments (fun s : Sector ℝ => s.length) sectors
    (fun k => (cumAt position.x position.y K k).2) (fun k hk' => by
      obtain ⟨S, hS, ib, ic, ie, an, hS'⟩ := hk k (hlen ▸ hk')
      exact ⟨S, hS, by rw [hS']; rfl⟩)
  rw [this, hlen, (cumAt_total position.x position.y K hx1 hx2 hy1 hy2 hK).2]
  rfl

theorem sector_lengths_sum_eq_total_circumference_witness :
    ∃ sectors, Scatterplot.computeSectors ⟨1 / 2, -1 / 2⟩ 4 = .ok sectors ∧ sectors.length = 4 ∧
      (sectors.map fun s => s.length).sum = (SquareDomain.total_circumference : ℝ) ∧
      (SquareDomain.total_circumference : ℝ) = 8 :=
  sector_lengths_sum_eq_total_circumference ⟨1 / 2, -1 / 2⟩ 4
    (by show |(1 / 2 : ℝ)| < 1; rw [abs_lt]; constructor <;> norm_num)
    (by show |(-1 / 2 : ℝ)| < 1; rw [abs_lt]; constructor <;> norm_num) (by norm_num)

/-- In exact arithmetic `sector(position, 2πk/K, 2π(k+1)/K)` returns a sector for
every clamped position (`|x| ≤ 0.99`, `|y| ≤ 0.99`), every sector count `K ≥ 4`
and every `k < K`.  This does not carry over to the `double` arithmetic of the
program: there a ray through a corner of the square can fail the bounded test
of both adjacent edges (see `QLineF.intersects`), and the chain of tests ends in
`throw`. -/
theorem sector_returns_exact (position : QPointF ℝ) (K k : ℕ)
    (hx : |position.x| ≤ 0.99) (hy : |position.y| ≤ 0.99) (hK : 4 ≤ K) (hk : k < K) :
    ∃ S, SquareDomain.sector position (2 * Real.pi * k / K) (2 * Real.pi * (k + 1) / K)
      = .ok S := by
  obtain ⟨x, y⟩ := position
  obtain ⟨hx1, hx2⟩ := abs_le.mp hx
  obtain ⟨hy1, hy2⟩ := abs_le.mp hy
  simp only at hx1 hx2 hy1 hy2
  obtain ⟨ib, ic, ie, an, h⟩ := sector_index x y K k (by linarith) (by linarith) (by linarith)
    (by linarith) hK hk
  have e1 : 2 * Real.pi * (k : ℝ) / K = (k : ℝ) * (2 * Real.pi / K) := by ring
  have e2 : 2 * Real.pi * ((k : ℝ) + 1) / K = ((k : ℝ) + 1) * (2 * Real.pi / K) := by ring
  rw [e1, e2]
  exact ⟨_, h⟩

theorem allOk_eq_ok_iff {ε α : Type} (l : List (Except ε α)) (r : List α) :
    allOk l = .ok r ↔ l = r.map .ok := by
  induction l generalizing r with
  | nil =>
    constructor
    · intro h; simp only [allOk] at h; cases h; rfl
    · intro h
      cases r with
      | nil => rfl
      | cons a t => simp at h
  | cons x t ih =>
    cases x with
    | error e =>
      constructor
      · intro h; simp [allOk] at h
      · intro h
        cases r with
        | nil => simp at h
        | cons a r' => simp at h
    | ok v =>
      rw [allOk_cons_ok]
      constructor
      · intro h
        cases ht : allOk t with
        | error e => rw [ht] at h; cases h
        | ok l =>
          rw [ht] at h
          cases h
          rw [(ih l).mp ht]
          rfl
      · intro h
        cases r with
        | nil => simp at h
        | cons a r' =>
          simp only [List.map_cons, List.cons.injEq, Except.ok.injEq] at h
          rw [(ih r').mpr h.2, h.1]

theorem allOk_map_ok {ε α β : Type} (F : α → Except ε β) (l : List α) (r : List β)
    (h : allOk (l.map F) = .ok r) :
    r.length = l.length ∧
      ∀ (i : ℕ) (a : α), l[i]? = some a → ∃ b, r[i]? = some b ∧ F a = .ok b := by
  rw [allOk_eq_ok_iff] at h
  have hlen : r.length = l.length := by
    have := congrArg List.length h
    simp at this; exact this.symm
  refine ⟨hlen, fun i a hi => ?_⟩
  have h2 : (l.map F)[i]? = (r.map Except.ok)[i]? := by rw [h]
  rw [List.getElem?_map, List.getElem?_map, hi] at h2
  cases hr : r[i]? with
  | none => rw [hr] at h2; simp at h2
  | some b =>
    rw [hr] at h2
    simp only [Option.map_some', Option.some.injEq] at h2
    exact ⟨b, rfl, h2⟩

theorem allOk_map_total {ε α β : Type} (F : α → Except ε β) (l : List α)
    (h : ∀ (i : ℕ) (a : α), l[i]? = some a → ∃ b, F a = .ok b) :
    ∃ r, allOk (l.map F) = .ok r := by
  induction l with
  | nil => exact ⟨[], rfl⟩
  | cons a t ih =>
    obtain ⟨b, hb⟩ := h 0 a (by simp)
    obtain ⟨r, hr⟩ := ih (fun i a' hi => h (i + 1) a' (by simpa using hi))
    refine ⟨b :: r, ?_⟩
    rw [List.map_cons, hb, allOk_cons_ok, hr]

theorem stdClamp_le {α : Type} [LinearOrder α] (v lo hi : α) (h : lo ≤ hi) :
    lo ≤ stdClamp v lo hi ∧ stdClamp v lo hi ≤ hi := by
  unfold stdClamp
  split_ifs with h1 h2
  · exact ⟨le_rfl, h⟩
  · exact ⟨h, le_rfl⟩
  · exact ⟨not_lt.mp h1, not_lt.mp h2⟩

theorem sectorIndex_lt (q o : QPointF ℝ) (K : ℕ) (hK : 0 < K) :
    Scatterplot.sectorIndex q o K < K := by
  unfold Scatterplot.sectorIndex
  have := (stdClamp_le (⌊stdClamp ((atan2 (q - o).y (q - o).x + Real.pi) / (2 * Real.pi)) 0 1
    * (K : ℝ)⌋₊) 0 (K - 1) (Nat.zero_le _)).2
  simp only at this ⊢
  omega

/-- The comparison `==` equates every point with itself. -/
theorem operatorEq_refl (p : QPointF ℝ) : QPointF.operatorEq p p := by
  unfold QPointF.operatorEq qFuzzyIsNull qFuzzyCompare
  constructor
  · split_ifs
    · rw [sub_self, abs_zero]; norm_num
    · rw [sub_self, abs_zero, zero_mul, min_self]; exact abs_nonneg _
  · split_ifs
    · rw [sub_self, abs_zero]; norm_num
    · rw [sub_self, abs_zero, zero_mul, min_self]; exact abs_nonneg _

/-- Points that the comparison `==` does not equate are different. -/
theorem ne_of_not_operatorEq (p q : QPointF ℝ) (h : ¬ QPointF.operatorEq p q) : p ≠ q := by
  intro e
  rw [e] at h
  exact h (operatorEq_refl q)

/-- One pair of coordinates that the comparison `==` does not equate: inside
`[-1, 1]` and at least `1/1000` apart. -/
theorem fuzzy_far (a c : ℝ) (ha : -1 ≤ a) (ha' : a ≤ 1)
    (h : 1 / 1000 ≤ a - c ∨ 1 / 1000 ≤ c - a) :
    ¬ (if a = 0 ∨ c = 0 then qFuzzyIsNull (a - c) else qFuzzyCompare a c) := by
  have hd : 1 / 1000 ≤ |a - c| := by
    rcases h with h | h
    · exact le_trans h (le_abs_self _)
    · exact le_trans h (by rw [abs_sub_comm]; exact le_abs_self _)
  have hA : |a| ≤ 1 := abs_le.mpr ⟨ha, ha'⟩
  unfold qFuzzyIsNull qFuzzyCompare
  split_ifs
  · intro hle
    have : (1 / 1000 : ℝ) ≤ 0.000000000001 := le_trans hd hle
    norm_num at this
  · intro hle
    have h1 : min |a| |c| ≤ 1 := le_trans (min_le_left _ _) hA
    have h2 : (1 / 1000 : ℝ) * 1000000000000 ≤ |a - c| * 1000000000000 :=
      mul_le_mul_of_nonneg_right hd (by norm_num)
    have : (1 / 1000 : ℝ) * 1000000000000 ≤ 1 := le_trans h2 (le_trans hle h1)
    norm_num at this

/-- Two points of the square with one coordinate at least `1/1000` apart are not
equated by the comparison `==`. -/
theorem point_far (a b c d : ℝ) (ha : -1 ≤ a ∧ a ≤ 1) (hb : -1 ≤ b ∧ b ≤ 1)
    (h : 1 / 1000 ≤ a - c ∨ 1 / 1000 ≤ c - a ∨ 1 / 1000 ≤ b - d ∨ 1 / 1000 ≤ d - b) :
    ¬ QPointF.operatorEq ⟨a, b⟩ ⟨c, d⟩ := by
  unfold QPointF.operatorEq
  intro he
  rcases h with h | h | h | h
  · exact fuzzy_far a c ha.1 ha.2 (Or.inl h) he.1
  · exact fuzzy_far a c ha.1 ha.2 (Or.inr h) he.1
  · exact fuzzy_far b d hb.1 hb.2 (Or.inl h) he.2
  · exact fuzzy_far b d hb.1 hb.2 (Or.inr h) he.2

/-- Clamping to `[-0.99, 0.99]` keeps a non-zero coordinate non-zero. -/
theorem stdClamp_eq_zero_iff (a : ℝ) : stdClamp a (-0.99) 0.99 = 0 ↔ a = 0 := by
  unfold stdClamp
  split_ifs with h1 h2
  · constructor
    · intro h; norm_num at h
    · intro h; rw [h] at h1; norm_num at h1
  · constructor
    · intro h; norm_num at h
    · intro h; rw [h] at h2; norm_num at h2
  · exact Iff.rfl

/-- Clamping does not increase the distance of two coordinates. -/
theorem stdClamp_dist_le (a b : ℝ) :
    |stdClamp a (-0.99) 0.99 - stdClamp b (-0.99) 0.99| ≤ |a - b| := by
  unfold stdClamp
  split_ifs <;> rw [abs_le] <;> constructor <;>
    linarith [le_abs_self (a - b), neg_abs_le (a - b), abs_nonneg (a - b)]

/-- Two positive coordinates that `qFuzzyCompare` equates are still equated after
clamping. -/
theorem fuzzyCompare_clamp_pos (a b : ℝ) (ha : 0 < a) (hb : 0 < b) (h : qFuzzyCompare a b) :
    qFuzzyCompare (stdClamp a (-0.99) 0.99) (stdClamp b (-0.99) 0.99) := by
  unfold qFuzzyCompare at h ⊢
  rw [abs_of_pos ha, abs_of_pos hb] at h
  have hd := stdClamp_dist_le a b
  have hab : |a - b| * 1000000000000 ≤ a := le_trans h (min_le_left _ _)
  have hab' : |a - b| * 1000000000000 ≤ b := le_trans h (min_le_right _ _)
  have hn := abs_nonneg (a - b)
  unfold stdClamp at hd ⊢
  split_ifs at hd ⊢ with h1 h2 h3 h4 h5 h6 h7 h8
  all_goals first
    | (exfalso; linarith)
    | (rw [sub_self, abs_zero, zero_mul]; exact le_min (abs_nonneg _) (abs_nonneg _))
    | (have e1 : |(0.99 : ℝ)| = 0.99 := abs_of_pos (by norm_num)
       rw [e1, abs_of_pos hb]
       apply le_min
       · nlinarith [le_abs_self (a - b), neg_abs_le (a - b)]
       · nlinarith [le_abs_self (a - b), neg_abs_le (a - b)])
    | (have e1 : |(0.99 : ℝ)| = 0.99 := abs_of_pos (by norm_num)
       rw [e1, abs_of_pos ha]
       apply le_min
       · nlinarith [le_abs_self (a - b), neg_abs_le (a - b)]
       · nlinarith [le_abs_self (a - b), neg_abs_le (a - b)])
    | (rw [abs_of_pos ha, abs_of_pos hb]; exact h)

theorem stdClamp_neg (a : ℝ) :
    stdClamp (-a) (-0.99) 0.99 = -stdClamp a (-0.99) 0.99 := by
  unfold stdClamp
  split_ifs <;> first | rfl | (exfalso; linarith) | norm_num

theorem qFuzzyCompare_neg (a b : ℝ) (h : qFuzzyCompare a b) : qFuzzyCompare (-a) (-b) := by
  unfold qFuzzyCompare at h ⊢
  have e : -a - -b = -(a - b) := by ring
  rw [e, abs_neg, abs_neg, abs_neg]
  exact h

/-- Coordinates that the comparison `==` equates are still equated after
clamping to `[-0.99, 0.99]`. -/
theorem fuzzy_clamp (a b : ℝ)
    (h : if a = 0 ∨ b = 0 then qFuzzyIsNull (a - b) else qFuzzyCompare a b) :
    if stdClamp a (-0.99) 0.99 = 0 ∨ stdClamp b (-0.99) 0.99 = 0
      then qFuzzyIsNull (stdClamp a (-0.99) 0.99 - stdClamp b (-0.99) 0.99)
      else qFuzzyCompare (stdClamp a (-0.99) 0.99) (stdClamp b (-0.99) 0.99) := by
  simp only [stdClamp_eq_zero_iff]
  split_ifs at h ⊢ with h0
  · unfold qFuzzyIsNull at h ⊢
    exact le_trans (stdClamp_dist_le a b) h
  · push_neg at h0
    rcases lt_or_gt_of_ne h0.1 with ha | ha <;> rcases lt_or_gt_of_ne h0.2 with hb | hb
    · have h' := fuzzyCompare_clamp_pos (-a) (-b) (by linarith) (by linarith)
        (qFuzzyCompare_neg a b h)
      rw [stdClamp_neg, stdClamp_neg] at h'
      have hn := qFuzzyCompare_neg _ _ h'
      rw [neg_neg, neg_neg] at hn
      exact hn
    · exfalso
      unfold qFuzzyCompare at h
      have h1 := le_trans h (min_le_right _ _)
      rw [abs_of_pos hb] at h1
      have h2 : b - a ≤ |a - b| := by rw [abs_sub_comm]; exact le_abs_self _
      nlinarith
    · exfalso
      unfold qFuzzyCompare at h
      have h1 := le_trans h (min_le_left _ _)
      rw [abs_of_pos ha] at h1
      have h2 : a - b ≤ |a - b| := le_abs_self _
      nlinarith
    · exact fuzzyCompare_clamp_pos a b ha hb h

/-- Points that the comparison `==` equates are still equated after `clamp`. -/
theorem operatorEq_clamp (p q : QPointF ℝ) (h : QPointF.operatorEq p q) :
    QPointF.operatorEq (clamp p) (clamp q) := by
  unfold QPointF.operatorEq at h ⊢
  exact ⟨fuzzy_clamp _ _ h.1, fuzzy_clamp _ _ h.2⟩

theorem nearPair_operatorEq :
    QPointF.operatorEq (⟨1 / 2 + 1 / 10000000000000, 1 / 2⟩ : QPointF ℝ) ⟨1 / 2, 1 / 2⟩ := by
  unfold QPointF.operatorEq qFuzzyIsNull qFuzzyCompare
  have e1 : |(1 / 2 + 1 / 10000000000000 : ℝ) - 1 / 2| = 1 / 10000000000000 := by
    rw [abs_of_pos] <;> norm_num
  have e2 : |(1 / 2 + 1 / 10000000000000 : ℝ)| = 1 / 2 + 1 / 10000000000000 := by
    rw [abs_of_pos]; norm_num
  have e3 : |(1 / 2 : ℝ)| = 1 / 2 := abs_of_pos (by norm_num)
  constructor
  · rw [if_neg (by norm_num)]
    show |(1 / 2 + 1 / 10000000000000 : ℝ) - 1 / 2| * 1000000000000
      ≤ min |(1 / 2 + 1 / 10000000000000 : ℝ)| |(1 / 2 : ℝ)|
    rw [e1, e2, e3]
    apply le_min <;> norm_num
  · rw [if_neg (by norm_num)]
    show |(1 / 2 : ℝ) - 1 / 2| * 1000000000000 ≤ min |(1 / 2 : ℝ)| |(1 / 2 : ℝ)|
    rw [sub_self, abs_zero, zero_mul, min_self]
    exact abs_nonneg _

theorem countStep_skip (i : ℕ) (q : QPointF ℝ) (sectors : List (Sector ℝ)) (o : ℕ × QPointF ℝ)
    (h : ¬ counted i q o) : Scatterplot.countStep i q sectors o = .ok sectors := by
  unfold Scatterplot.countStep
  unfold counted at h
  by_cases h1 : i = o.1
  · simp [h1]
  · have h2 : QPointF.operatorEq o.2 q := by
      by_contra h2; exact h ⟨h1, h2⟩
    simp [h1, h2]

theorem countStep_bump (i : ℕ) (q : QPointF ℝ) (sectors : List (Sector ℝ)) (o : ℕ × QPointF ℝ)
    (h : counted i q o) (S : Sector ℝ)
    (hS : sectors[Scatterplot.sectorIndex q o.2 sectors.length]? = some S) :
    Scatterplot.countStep i q sectors o
      = .ok (sectors.set (Scatterplot.sectorIndex q o.2 sectors.length)
          { S with points_count := S.points_count + 1 }) := by
  unfold Scatterplot.countStep
  simp only [if_neg h.1, if_neg h.2, hS]

/-- The counting loop never leaves the vector when there is at least one sector;
sector `k` ends with its count raised by the number of counted other points whose
index is `k`, all other members unchanged. -/
theorem countPoints_spec (i : ℕ) (q : QPointF ℝ) (others : List (ℕ × QPointF ℝ))
    (sectors : List (Sector ℝ)) (hK : 0 < sectors.length) :
    ∃ sectors', Scatterplot.countPoints i q others sectors = .ok sectors' ∧
      sectors'.length = sectors.length ∧
      ∀ (k : ℕ) (S : Sector ℝ), sectors[k]? = some S → sectors'[k]? = some { S with
        points_count := S.points_count + ((others.countP fun o =>
          decide (counted i q o ∧ Scatterplot.sectorIndex q o.2 sectors.length = k) : ℕ) : ℝ) } := by
  induction others generalizing sectors with
  | nil =>
    refine ⟨sectors, rfl, rfl, fun k S hS => ?_⟩
    simp [hS]
  | cons o rest ih =>
    by_cases hc : counted i q o
    · have hlt := sectorIndex_lt q o.2 sectors.length hK
      obtain ⟨S0, hS0⟩ : ∃ S0, sectors[Scatterplot.sectorIndex q o.2 sectors.length]? = some S0 :=
        ⟨sectors[Scatterplot.sectorIndex q o.2 sectors.length], List.getElem?_eq_getElem hlt⟩
      have hstep := countStep_bump i q sectors o hc S0 hS0
      have hlen1 : (sectors.set (Scatterplot.sectorIndex q o.2 sectors.length)
          { S0 with points_count := S0.points_count + 1 }).length = sectors.length := by simp
      obtain ⟨sectors', h1, h2, h3⟩ := ih _ (by rw [hlen1]; exact hK)
      refine ⟨sectors', ?_, by rw [h2, hlen1], fun k S hS => ?_⟩
      · rw [Scatterplot.countPoints, hstep]; exact h1
      · rw [hlen1] at h3
        by_cases hk : Scatterplot.sectorIndex q o.2 sectors.length = k
        · have hget : (sectors.set (Scatterplot.sectorIndex q o.2 sectors.length)
              { S0 with points_count := S0.points_count + 1 })[k]?
              = some { S0 with points_count := S0.points_count + 1 } := by
            rw [← hk]; exact List.getElem?_set_self hlt
          have hSS : S = S0 := by
            rw [← hk, hS0] at hS; exact (Option.some.inj hS).symm
          rw [h3 k _ hget, hSS, List.countP_cons_of_pos]
          · congr 1
            simp only [Sector.mk.injEq, true_and]
            push_cast; ring
          · simp [hc, hk]
        · have hget : (sectors.set (Scatterplot.sectorIndex q o.2 sectors.length)
              { S0 with points_count := S0.points_count + 1 })[k]? = some S := by
            rw [List.getElem?_set_ne hk]; exact hS
          rw [h3 k _ hget, List.countP_cons_of_neg]
          simp [hk]
    · have hstep := countStep_skip i q sectors o hc
      obtain ⟨sectors', h1, h2, h3⟩ := ih sectors hK
      refine ⟨sectors', ?_, h2, fun k S hS => ?_⟩
      · rw [Scatterplot.countPoints, hstep]; exact h1
      · rw [h3 k S hS, List.countP_cons_of_neg]
        simp [hc]

/-- Every sector returned by `sector` has the members that `sector` does not
assign still at zero. -/
theorem sectorBody_fresh {F : Type} [LinearOrderedField F] (P : QPointF F)
    (bl cl al el : QLineF F) (S : Sector F)
    (h : sectorBody P bl cl al el = .ok S) :
    ∃ ib ic ie an a l, S = mkSector ib ic ie an a l := by
  unfold sectorBody at h
  repeat' split at h
  all_goals first
    | (cases h; done)
    | (cases h; exact ⟨_, _, _, _, _, _, rfl⟩)

theorem sector_fresh (P : QPointF ℝ) (a b : ℝ) (S : Sector ℝ)
    (h : SquareDomain.sector P a b = .ok S) :
    ∃ ib ic ie an ar l, S = mkSector ib ic ie an ar l :=
  sectorBody_fresh _ _ _ _ _ _ h

theorem computeSectors_fresh (position : QPointF ℝ) (K : ℕ) (sectors : List (Sector ℝ))
    (h : Scatterplot.computeSectors position K = .ok sectors) :
    sectors.length = K ∧ ∀ (k : ℕ) (S : Sector ℝ), sectors[k]? = some S → S.points_count = 0 := by
  unfold Scatterplot.computeSectors at h
  obtain ⟨hlen, hget⟩ := allOk_map_ok _ _ _ h
  refine ⟨by simpa using hlen, fun k S hS => ?_⟩
  have hk : k < K := by
    have := (List.getElem?_eq_some.mp hS).1
    rw [hlen] at this; simpa using this
  obtain ⟨S', hS', hsec⟩ := hget k k (by simp [hk])
  rw [hS] at hS'
  cases hS'
  obtain ⟨ib, ic, ie, an, ar, l, hmk⟩ := sector_fresh _ _ _ _ hsec
  rw [hmk]; rfl

theorem countStep_length (i : ℕ) (q : QPointF ℝ) (o : ℕ × QPointF ℝ)
    (sectors sectors' : List (Sector ℝ))
    (h : Scatterplot.countStep i q sectors o = .ok sectors') :
    sectors'.length = sectors.length := by
  unfold Scatterplot.countStep at h
  split_ifs at h with h1 h2
  · cases h; rfl
  · cases h; rfl
  · simp only at h
    split at h
    · cases h
    · cases h; simp

theorem countPoints_length (i : ℕ) (q : QPointF ℝ) (others : List (ℕ × QPointF ℝ))
    (sectors sectors' : List (Sector ℝ))
    (h : Scatterplot.countPoints i q others sectors = .ok sectors') :
    sectors'.length = sectors.length := by
  induction others generalizing sectors with
  | nil => simp only [Scatterplot.countPoints] at h; cases h; rfl
  | cons o rest ih =>
    rw [Scatterplot.countPoints] at h
    cases hs : Scatterplot.countStep i q sectors o with
    | error e => rw [hs] at h; cases h
    | ok sectors1 =>
      rw [hs] at h
      rw [ih sectors1 h, countStep_length _ _ _ _ _ hs]

/-- Unfolding of the body of the outer loop of `compute` on success. -/
theorem computePoint_ok (positions : List (QPointF ℝ)) (i : ℕ) (pt p' : Point)
    (h : Scatterplot.computePoint positions i pt = .ok p') :
    ∃ sectors0 sectors1,
      Scatterplot.computeSectors pt.position pt.sectors.length = .ok sectors0 ∧
      Scatterplot.countPoints i pt.position positions.enum sectors0 = .ok sectors1 ∧
      p'.position = pt.position ∧
      p'.sectors = sectors1.map (Scatterplot.deform positions.length) ∧
      p'.deformation_density = p'.sectors.foldl (fun acc s => acc + s.deformation_density) 0 ∧
      p'.deformation_uniform = p'.sectors.foldl (fun acc s => acc + s.deformation_uniform) 0 ∧
      p'.deformation_boundary = p'.sectors.foldl (fun acc s => acc + s.deformation_boundary) 0 ∧
      p'.deformation_total = p'.deformation_density + p'.deformation_uniform := by
  unfold Scatterplot.computePoint at h
  cases h0 : Scatterplot.computeSectors pt.position pt.sectors.length with
  | error e => rw [h0] at h; cases h
  | ok sectors0 =>
    rw [h0] at h
    simp only at h
    cases h1 : Scatterplot.countPoints i pt.position positions.enum sectors0 with
    | error e => rw [h1] at h; cases h
    | ok sectors1 =>
      rw [h1] at h
      simp only [Except.ok.injEq] at h
      subst h
      exact ⟨sectors0, sectors1, rfl, h1, rfl, rfl, rfl, rfl, rfl, rfl⟩

/-- The body of the outer loop of `compute` returns for an interior position
with at least four sectors. -/
theorem computePoint_total (positions : List (QPointF ℝ)) (i : ℕ) (pt : Point)
    (hx : -1 < pt.position.x) (hx' : pt.position.x < 1)
    (hy : -1 < pt.position.y) (hy' : pt.position.y < 1) (hK : 4 ≤ pt.sectors.length) :
    ∃ p', Scatterplot.computePoint positions i pt = .ok p' := by
  obtain ⟨sectors0, h0, hlen, _⟩ := computeSectors_spec pt.position pt.sectors.length hx hx' hy hy' hK
  obtain ⟨sectors1, h1, _, _⟩ := countPoints_spec i pt.position positions.enum sectors0
    (by rw [hlen]; omega)
  unfold Scatterplot.computePoint
  rw [h0]
  simp only [h1]
  exact ⟨_, rfl⟩

theorem compute_ok (s s' : Scatterplot) (h : Scatterplot.compute s = .ok s') :
    s'._points.length = s._points.length ∧
      ∀ (i : ℕ) (pt : Point), s._points[i]? = some pt → ∃ p', s'._points[i]? = some p' ∧
        Scatterplot.computePoint (s._points.map fun p => p.position) i pt = .ok p' := by
  unfold Scatterplot.compute at h
  simp only at h
  cases h0 : allOk (s._points.enum.map fun ip =>
      Scatterplot.computePoint (s._points.map fun p => p.position) ip.1 ip.2) with
  | error e => rw [h0] at h; cases h
  | ok pts =>
    rw [h0] at h
    simp only [Except.ok.injEq] at h
    subst h
    obtain ⟨hlen, hget⟩ := allOk_map_ok _ _ _ h0
    refine ⟨by simpa using hlen, fun i pt hi => ?_⟩
    have he : s._points.enum[i]? = some (i, pt) := by
      rw [List.getElem?_enum, hi]; rfl
    exact hget i (i, pt) he

theorem compute_total (s : Scatterplot)
    (h : ∀ (i : ℕ) (pt : Point), s._points[i]? = some pt →
      ∃ p', Scatterplot.computePoint (s._points.map fun p => p.position) i pt = .ok p') :
    ∃ s', Scatterplot.compute s = .ok s' := by
  obtain ⟨r, hr⟩ := allOk_map_total (fun ip : ℕ × Point =>
      Scatterplot.computePoint (s._points.map fun p => p.position) ip.1 ip.2) s._points.enum
    (fun i a hi => by
      have := List.getElem?_enum s._points i
      rw [hi] at this
      cases hp : s._points[i]? with
      | none => rw [hp] at this; simp at this
      | some pt =>
        rw [hp] at this
        simp only [Option.map_some', Option.some.injEq] at this
        subst this
        exact h i pt hp)
  refine ⟨⟨r⟩, ?_⟩
  unfold Scatterplot.compute
  simp only [hr]

theorem make_positions (points : List (QPointF ℝ)) (K : ℕ) :
    ((points.map fun p => Scatterplot.freshPoint p K).map fun p => p.position) = points := by
  induction points with
  | nil => rfl
  | cons a t ih => simp only [List.map_cons, ih]; rfl

/-- What the constructor stores on success: one analysed point per input
position, in the same order. -/
theorem make_ok (points : List (QPointF ℝ)) (K : ℕ) (s : Scatterplot)
    (h : Scatterplot.make points K = .ok s) :
    s._points.length = points.length ∧
      ∀ (i : ℕ) (q : QPointF ℝ), points[i]? = some q → ∃ p, s._points[i]? = some p ∧
        Scatterplot.computePoint points i (Scatterplot.freshPoint q K) = .ok p := by
  unfold Scatterplot.make at h
  obtain ⟨hlen, hget⟩ := compute_ok _ _ h
  simp only [make_positions] at hget
  refine ⟨by simpa using hlen, fun i q hi => ?_⟩
  exact hget i _ (by simp [hi])

/-- The constructor returns for positions strictly inside the square and at
least four sectors. -/
theorem make_total (points : List (QPointF ℝ)) (K : ℕ) (hK : 4 ≤ K)
    (hin : ∀ q ∈ points, -1 < q.x ∧ q.x < 1 ∧ -1 < q.y ∧ q.y < 1) :
    ∃ s, Scatterplot.make points K = .ok s := by
  unfold Scatterplot.make
  apply compute_total
  intro i pt hi
  simp only [List.getElem?_map] at hi
  cases hq : points[i]? with
  | none => rw [hq] at hi; simp at hi
  | some q =>
    rw [hq] at hi
    simp only [Option.map_some', Option.some.injEq] at hi
    subst hi
    obtain ⟨h1, h2, h3, h4⟩ := hin q (List.getElem?_mem hq)
    exact computePoint_total _ i _ h1 h2 h3 h4 (by simp [Scatterplot.freshPoint]; exact hK)

/-- Positions of a constructed layout are the input positions. -/
theorem make_position_eq (points : List (QPointF ℝ)) (K : ℕ) (s : Scatterplot)
    (h : Scatterplot.make points K = .ok s) :
    (s._points.map fun p => p.position) = points := by
  obtain ⟨hlen, hget⟩ := make_ok points K s h
  apply List.ext_getElem?
  intro i
  rw [List.getElem?_map]
  cases hq : points[i]? with
  | none =>
    have : s._points[i]? = none := by
      rw [List.getElem?_eq_none_iff] at hq ⊢
      omega
    rw [this]; rfl
  | some q =>
    obtain ⟨p, hp, hc⟩ := hget i q hq
    obtain ⟨_, _, _, _, hpos, _⟩ := computePoint_ok _ _ _ _ hc
    rw [hp]
    simp only [Option.map_some', Option.some.injEq]
    rw [hpos]; rfl

/-- Every point of a constructed layout has as many sectors as requested. -/
theorem make_sectors_length (points : List (QPointF ℝ)) (K : ℕ) (s : Scatterplot)
    (h : Scatterplot.make points K = .ok s) (p : Point) (hp : p ∈ s._points) :
    p.sectors.length = K := by
  obtain ⟨hlen, hget⟩ := make_ok points K s h
  obtain ⟨i, hi⟩ := List.getElem?_of_mem hp
  have hi' : i < points.length := by
    have := (List.getElem?_eq_some.mp hi).1
    omega
  obtain ⟨p', hp', hc⟩ := hget i points[i] (List.getElem?_eq_getElem hi')
  rw [hi] at hp'
  cases hp'
  obtain ⟨sectors0, sectors1, h0, h1, _, hsec, _⟩ := computePoint_ok _ _ _ _ hc
  have hl0 := (computeSectors_fresh _ _ _ h0).1
  have hK' : (Scatterplot.freshPoint points[i] K).sectors.length = K := by
    simp [Scatterplot.freshPoint]
  rw [hK'] at hl0
  rw [hsec, List.length_map]
  rw [countPoints_length _ _ _ _ _ h1]
  exact hl0

theorem layoutAt_error_mono (seeds : List (QPointF ℝ)) (K j : ℕ) (e : Fault)
    (h : layoutAt seeds K j = .error e) (m : ℕ) (hm : j ≤ m) : layoutAt seeds K m = .error e := by
  induction m with
  | zero =>
    have : j = 0 := by omega
    subst this; exact h
  | succ m ih =>
    rcases Nat.lt_or_ge j (m + 1) with hlt | hge
    · have := ih (by omega)
      simp only [layoutAt, this]
    · have : j = m + 1 := by omega
      subst this; exact h

theorem extend_spec (seeds : List (QPointF ℝ)) (K n : ℕ) :
    ∀ (d : ℕ) (l : List Scatterplot), n + 1 - l.length = d → l ≠ [] →
      (∀ (j : ℕ) (s : Scatterplot), l[j]? = some s → layoutAt seeds K j = .ok s) →
      match layoutAt seeds K n with
      | .ok s => ∃ l', ScatterplotWidget.extend n l = .ok l' ∧ l'[n]? = some s ∧
          (∀ (j : ℕ) (s' : Scatterplot), l'[j]? = some s' → layoutAt seeds K j = .ok s')
      | .error e => ScatterplotWidget.extend n l = .error e := by
  intro d
  induction d using Nat.strong_induction_on with
  | _ d ih =>
    intro l hd hne hinv
    rw [ScatterplotWidget.extend]
    by_cases hn : n ≥ l.length
    · simp only [hn, if_true]
      have hlen : 0 < l.length := List.length_pos.mpr hne
      have hlast : l.getLast? = some (l.getLast hne) := List.getLast?_eq_getLast _ hne
      have hlast' : l[l.length - 1]? = some (l.getLast hne) := by
        rw [List.getLast_eq_getElem]
        exact List.getElem?_eq_getElem (by omega)
      have hL := hinv _ _ hlast'
      have hsucc : layoutAt seeds K (l.length - 1 + 1) = (l.getLast hne).regularize := by
        simp only [layoutAt, hL]
      have hidx : l.length - 1 + 1 = l.length := by omega
      rw [hidx] at hsucc
      rw [hlast]
      simp only
      cases hr : (l.getLast hne).regularize with
      | error e =>
        rw [hr] at hsucc
        rw [layoutAt_error_mono seeds K l.length e hsucc n hn]
      | ok next =>
        rw [hr] at hsucc
        simp only
        have hinv' : ∀ (j : ℕ) (s : Scatterplot), (l ++ [next])[j]? = some s →
            layoutAt seeds K j = .ok s := by
          intro j s hj
          rcases Nat.lt_or_ge j l.length with hlt | hge
          · rw [List.getElem?_append_left hlt] at hj
            exact hinv j s hj
          · rw [List.getElem?_append_right hge] at hj
            have hj0 : j - l.length = 0 := by
              by_contra hne0
              have : [next][j - l.length]? = none := by
                rw [List.getElem?_eq_none_iff]; simp; omega
              rw [this] at hj; cases hj
            rw [hj0] at hj
            simp only [List.getElem?_cons_zero, Option.some.injEq] at hj
            subst hj
            have : j = l.length := by omega
            subst this; exact hsucc
        exact ih (n + 1 - (l ++ [next]).length) (by simp; omega) (l ++ [next]) rfl (by simp) hinv'
    · simp only [hn, if_false]
      push_neg at hn
      have hget : l[n]? = some l[n] := List.getElem?_eq_getElem hn
      rw [hinv n _ hget]
      exact ⟨l, rfl, hget, hinv⟩

/-- A call of `scatterplot` on a cache whose entries are cache-cold layouts
returns the cache-cold layout, or stops with the fault of the cache-cold
computation, and leaves such a cache. -/
theorem scatterplot_spec (seeds : List (QPointF ℝ)) (c : Cache) (K n : ℕ)
    (hinv : CacheInv seeds c) :
    match layoutAt seeds K n with
    | .ok s => ∃ c', ScatterplotWidget.scatterplot seeds c K n = .ok (c', s) ∧ CacheInv seeds c'
    | .error e => ScatterplotWidget.scatterplot seeds c K n = .error e := by
  unfold ScatterplotWidget.scatterplot
  simp only
  by_cases hemp : (c K).isEmpty = true
  · simp only [hemp, if_true]
    have hnil : c K = [] := List.isEmpty_iff.mp hemp
    cases hm : Scatterplot.make seeds K with
    | error e =>
      simp only
      have h0 : layoutAt seeds K 0 = .error e := by simp only [layoutAt, hm]
      rw [layoutAt_error_mono seeds K 0 e h0 n (Nat.zero_le n)]
    | ok s0 =>
      simp only [hnil, List.nil_append]
      have hinv0 : ∀ (j : ℕ) (s : Scatterplot), [s0][j]? = some s → layoutAt seeds K j = .ok s := by
        intro j s hj
        cases j with
        | zero =>
          simp only [List.getElem?_cons_zero, Option.some.injEq] at hj
          subst hj; simp only [layoutAt, hm]
        | succ j => simp at hj
      have := extend_spec seeds K n _ [s0] rfl (by simp) hinv0
      cases hl : layoutAt seeds K n with
      | error e => rw [hl] at this; simp only at this; rw [this]
      | ok s =>
        rw [hl] at this
        obtain ⟨l', h1, h2, h3⟩ := this
        simp only [h1, h2]
        refine ⟨_, rfl, ?_⟩
        intro K' j s' hj
        by_cases hK : K' = K
        · subst hK
          simp only [Function.update_same] at hj
          exact h3 j s' hj
        · simp only [Function.update_noteq hK] at hj
          exact hinv K' j s' hj
  · simp only [hemp]
    have hne : c K ≠ [] := fun h => hemp (List.isEmpty_iff.mpr h)
    have := extend_spec seeds K n _ (c K) rfl hne (fun j s hj => hinv K j s hj)
    cases hl : layoutAt seeds K n with
    | error e => rw [hl] at this; simp only at this; simp only [Bool.false_eq_true, if_false, this]
    | ok s =>
      rw [hl] at this
      obtain ⟨l', h1, h2, h3⟩ := this
      simp only [Bool.false_eq_true, if_false, h1, h2]
      refine ⟨_, rfl, ?_⟩
      intro K' j s' hj
      by_cases hK : K' = K
      · subst hK
        simp only [Function.update_same] at hj
        exact h3 j s' hj
      · simp only [Function.update_noteq hK] at hj
        exact hinv K' j s' hj

theorem reachable_inv (seeds : List (QPointF ℝ)) (c : Cache) (h : Reachable seeds c) :
    CacheInv seeds c := by
  induction h with
  | empty => intro K j s hj; simp at hj
  | call c c' K n s _ hcall ih =>
    have := scatterplot_spec seeds c K n ih
    cases hl : layoutAt seeds K n with
    | error e => rw [hl] at this; simp only at this; rw [this] at hcall; cases hcall
    | ok s' =>
      rw [hl] at this
      obtain ⟨c'', h1, h2⟩ := this
      rw [h1] at hcall
      cases hcall
      exact h2

/-- C9: on every cache state reachable through earlier calls, `scatterplot(K, n)`
returns the layout of the cache-cold computation (the layout constructed from the
seeds with `K` sectors followed by `n` applications of `regularize`), or stops
with the same fault. -/
theorem scatterplot_eq_cache_cold (seeds : List (QPointF ℝ)) (c : Cache) (K n : ℕ)
    (hc : Reachable seeds c) :
    Except.map Prod.snd (ScatterplotWidget.scatterplot seeds c K n) = layoutAt seeds K n := by
  have := scatterplot_spec seeds c K n (reachable_inv seeds c hc)
  cases hl : layoutAt seeds K n with
  | error e => rw [hl] at this; simp only at this; rw [this]; rfl
  | ok s =>
    rw [hl] at this
    obtain ⟨c', h1, _⟩ := this
    rw [h1]; rfl

theorem stdClamp_of_mem {α : Type} [LinearOrder α] (w lo hi : α) (h1 : lo ≤ w) (h2 : w ≤ hi) :
    stdClamp w lo hi = w := by
  unfold stdClamp
  rw [if_neg (not_lt.mpr h1), if_neg (not_lt.mpr h2)]

theorem clamp_bounds (p : QPointF ℝ) :
    -0.99 ≤ (clamp p).x ∧ (clamp p).x ≤ 0.99 ∧ -0.99 ≤ (clamp p).y ∧ (clamp p).y ≤ 0.99 := by
  have h : (-0.99 : ℝ) ≤ 0.99 := by norm_num
  exact ⟨(stdClamp_le p.x _ _ h).1, (stdClamp_le p.x _ _ h).2,
    (stdClamp_le p.y _ _ h).1, (stdClamp_le p.y _ _ h).2⟩

/-- C8: `SquareDomain::clamp` is idempotent. -/
theorem clamp_idempotent (p : QPointF ℝ) : clamp (clamp p) = clamp p := by
  obtain ⟨h1, h2, h3, h4⟩ := clamp_bounds p
  apply QPointF.ext
  · exact stdClamp_of_mem _ _ _ h1 h2
  · exact stdClamp_of_mem _ _ _ h3 h4

/-- Unfolding of `regularize` on success. -/
theorem regularize_ok (s s' : Scatterplot) (h : s.regularize = .ok s') :
    ∃ p0 rest, s._points = p0 :: rest ∧
      Scatterplot.make (s._points.map fun p =>
        clamp (p.position + (0.85 : ℝ) * p.deformation_total)) p0.sectors.length = .ok s' := by
  unfold Scatterplot.regularize at h
  cases hp : s._points with
  | nil => rw [hp] at h; cases h
  | cons p0 rest =>
    rw [hp] at h
    exact ⟨p0, rest, rfl, h⟩

theorem clamp_interior (p : QPointF ℝ) :
    -1 < (clamp p).x ∧ (clamp p).x < 1 ∧ -1 < (clamp p).y ∧ (clamp p).y < 1 := by
  obtain ⟨h1, h2, h3, h4⟩ := clamp_bounds p
  norm_num at h1 h2 h3 h4
  refine ⟨by linarith, by linarith, by linarith, by linarith⟩

theorem regularize_total (s : Scatterplot) (p0 : Point) (rest : List Point)
    (hp : s._points = p0 :: rest) (hK : 4 ≤ p0.sectors.length) :
    ∃ s', s.regularize = .ok s' := by
  obtain ⟨s', hs'⟩ := make_total (s._points.map fun p =>
    clamp (p.position + (0.85 : ℝ) * p.deformation_total)) p0.sectors.length hK
    (fun q hq => by
      obtain ⟨p, _, rfl⟩ := List.mem_map.mp hq
      exact clamp_interior _)
  refine ⟨s', ?_⟩
  unfold Scatterplot.regularize
  rw [hp] at hs' ⊢
  exact hs'

/-- The cache-cold computation returns every iteration for non-empty seeds
strictly inside the square and at least four sectors. -/
theorem layoutAt_total (seeds : List (QPointF ℝ)) (K : ℕ) (hK : 4 ≤ K) (hne : seeds ≠ [])
    (hin : ∀ q ∈ seeds, -1 < q.x ∧ q.x < 1 ∧ -1 < q.y ∧ q.y < 1) (n : ℕ) :
    ∃ s, layoutAt seeds K n = .ok s ∧ s._points.length = seeds.length ∧
      ∀ p ∈ s._points, p.sectors.length = K := by
  induction n with
  | zero =>
    obtain ⟨s, hs⟩ := make_total seeds K hK hin
    exact ⟨s, hs, (make_ok seeds K s hs).1, fun p hp => make_sectors_length seeds K s hs p hp⟩
  | succ n ih =>
    obtain ⟨s, hs, hlen, hsec⟩ := ih
    have hpos : 0 < s._points.length := by
      rw [hlen]; exact List.length_pos.mpr hne
    obtain ⟨p0, rest, hp⟩ : ∃ p0 rest, s._points = p0 :: rest := by
      cases h : s._points with
      | nil => rw [h] at hpos; simp at hpos
      | cons p0 rest => exact ⟨p0, rest, rfl⟩
    have hK0 : p0.sectors.length = K := hsec p0 (by rw [hp]; simp)
    obtain ⟨s', hs'⟩ := regularize_total s p0 rest hp (by omega)
    obtain ⟨p0', rest', hp', hm⟩ := regularize_ok s s' hs'
    have hp0 : p0' = p0 := by
      rw [hp] at hp'; cases hp'; rfl
    refine ⟨s', by simp only [layoutAt, hs, hs'], ?_, fun p hpm => ?_⟩
    · rw [(make_ok _ _ _ hm).1, List.length_map, hlen]
    · rw [make_sectors_length _ _ _ hm p hpm, hp0, hK0]

/-- On a reachable cache `scatterplot` returns whenever the cache-cold
computation does. -/
theorem scatterplot_total (seeds : List (QPointF ℝ)) (c : Cache) (K n : ℕ)
    (hc : Reachable seeds c) (s : Scatterplot) (hs : layoutAt seeds K n = .ok s) :
    ∃ c', ScatterplotWidget.scatterplot seeds c K n = .ok (c', s) := by
  have := scatterplot_spec seeds c K n (reachable_inv seeds c hc)
  rw [hs] at this
  obtain ⟨c', h, _⟩ := this
  exact ⟨c', h⟩

theorem scatterplot_layoutAt (seeds : List (QPointF ℝ)) (c c' : Cache) (K n : ℕ)
    (hc : Reachable seeds c) (s : Scatterplot)
    (h : ScatterplotWidget.scatterplot seeds c K n = .ok (c', s)) :
    layoutAt seeds K n = .ok s := by
  have := scatterplot_spec seeds c K n (reachable_inv seeds c hc)
  cases hl : layoutAt seeds K n with
  | error e => rw [hl] at this; simp only at this; rw [this] at h; cases h
  | ok s' =>
    rw [hl] at this
    obtain ⟨c'', h1, _⟩ := this
    rw [h1] at h
    cases h; rfl

/-- C7: every point of a layout of an iteration `n ≥ 1` has both coordinates in
`[-0.99, 0.99]`. -/
theorem iterated_layout_clamped (seeds : List (QPointF ℝ)) (c c' : Cache) (K n : ℕ)
    (s : Scatterplot) (hc : Reachable seeds c) (hn : 1 ≤ n)
    (h : ScatterplotWidget.scatterplot seeds c K n = .ok (c', s)) :
    ∀ p ∈ s._points, -0.99 ≤ p.position.x ∧ p.position.x ≤ 0.99 ∧
      -0.99 ≤ p.position.y ∧ p.position.y ≤ 0.99 := by
  have hl := scatterplot_layoutAt seeds c c' K n hc s h
  obtain ⟨m, rfl⟩ : ∃ m, n = m + 1 := ⟨n - 1, by omega⟩
  simp only [layoutAt] at hl
  cases hprev : layoutAt seeds K m with
  | error e => rw [hprev] at hl; cases hl
  | ok s0 =>
    rw [hprev] at hl
    obtain ⟨p0, rest, _, hm⟩ := regularize_ok s0 s hl
    have hpos := make_position_eq _ _ _ hm
    intro p hp
    have hmem : p.position ∈ s._points.map fun p => p.position := List.mem_map.mpr ⟨p, hp, rfl⟩
    rw [hpos] at hmem
    obtain ⟨p1, _, hp1⟩ := List.mem_map.mp hmem
    rw [← hp1]
    exact clamp_bounds _

/-- C10: the positions of iteration 0 are the seed positions, index by index,
without clamping. -/
theorem layout_zero_positions (seeds : List (QPointF ℝ)) (c c' : Cache) (K : ℕ)
    (s : Scatterplot) (hc : Reachable seeds c)
    (h : ScatterplotWidget.scatterplot seeds c K 0 = .ok (c', s)) :
    (s._points.map fun p => p.position) = seeds := by
  have hl := scatterplot_layoutAt seeds c c' K 0 hc s h
  simp only [layoutAt] at hl
  exact make_position_eq _ _ _ hl

theorem exampleSeeds_interior :
    ∀ q ∈ exampleSeeds, -1 < q.x ∧ q.x < 1 ∧ -1 < q.y ∧ q.y < 1 := by
  intro q hq
  simp only [exampleSeeds, List.mem_cons, List.mem_singleton, List.not_mem_nil, or_false] at hq
  rcases hq with rfl | rfl <;> norm_num

theorem exampleSeeds_ne : exampleSeeds ≠ [] := by simp [exampleSeeds]

theorem layout_zero_positions_witness :
    ∃ c' s, ScatterplotWidget.scatterplot exampleSeeds (fun _ => []) 4 0 = .ok (c', s) ∧
      (s._points.map fun p => p.position) = [⟨0.995, 0⟩, ⟨-1 / 2, 1 / 4⟩] := by
  obtain ⟨s, hs, _⟩ := layoutAt_total exampleSeeds 4 (by norm_num) exampleSeeds_ne
    exampleSeeds_interior 0
  obtain ⟨c', h⟩ := scatterplot_total exampleSeeds _ 4 0 Reachable.empty s hs
  exact ⟨c', s, h, layout_zero_positions exampleSeeds _ c' 4 s Reachable.empty h⟩

theorem iterated_layout_clamped_witness :
    ∃ c' s, ScatterplotWidget.scatterplot exampleSeeds (fun _ => []) 4 1 = .ok (c', s) ∧
      s._points.length = 2 ∧
      ∀ p ∈ s._points, -0.99 ≤ p.position.x ∧ p.position.x ≤ 0.99 ∧
        -0.99 ≤ p.position.y ∧ p.position.y ≤ 0.99 := by
  obtain ⟨s, hs, hlen, _⟩ := layoutAt_total exampleSeeds 4 (by norm_num) exampleSeeds_ne
    exampleSeeds_interior 1
  obtain ⟨c', h⟩ := scatterplot_total exampleSeeds _ 4 1 Reachable.empty s hs
  exact ⟨c', s, h, hlen, iterated_layout_clamped exampleSeeds _ c' 4 1 s Reachable.empty
    (by norm_num) h⟩

theorem scatterplot_eq_cache_cold_witness :
    ∃ c' s, ScatterplotWidget.scatterplot exampleSeeds (fun _ => []) 8 2 = .ok (c', s) ∧
      Except.map Prod.snd (ScatterplotWidget.scatterplot exampleSeeds c' 4 1)
        = layoutAt exampleSeeds 4 1 := by
  obtain ⟨s, hs, _⟩ := layoutAt_total exampleSeeds 8 (by norm_num) exampleSeeds_ne
    exampleSeeds_interior 2
  obtain ⟨c', h⟩ := scatterplot_total exampleSeeds _ 8 2 Reachable.empty s hs
  exact ⟨c', s, h, scatterplot_eq_cache_cold exampleSeeds c' 4 1
    (Reachable.call _ c' 8 2 s Reachable.empty h)⟩

/-- Points counted for sector `k` of point `i` at position `q`, per sector of the
analysed point: the count of the counted other points whose index is `k`. -/
theorem make_points_count (points : List (QPointF ℝ)) (K : ℕ) (s : Scatterplot) (i k : ℕ)
    (p : Point) (S : Sector ℝ) (hK : 1 ≤ K) (hs : Scatterplot.make points K = .ok s)
    (hp : s._points[i]? = some p) (hS : p.sectors[k]? = some S) :
    S.points_count = ((points.enum.countP fun o =>
      decide (counted i p.position o ∧ Scatterplot.sectorIndex p.position o.2 K = k) : ℕ) : ℝ) := by
  obtain ⟨hlen, hget⟩ := make_ok points K s hs
  have hi : i < points.length := by
    have := (List.getElem?_eq_some.mp hp).1
    omega
  obtain ⟨p', hp', hc⟩ := hget i points[i] (List.getElem?_eq_getElem hi)
  rw [hp] at hp'
  cases hp'
  obtain ⟨sectors0, sectors1, h0, h1, hpos, hsec, _⟩ := computePoint_ok _ _ _ _ hc
  have hK' : (Scatterplot.freshPoint points[i] K).sectors.length = K := by
    simp [Scatterplot.freshPoint]
  rw [hK'] at h0
  obtain ⟨hl0, hfresh⟩ := computeSectors_fresh _ _ _ h0
  obtain ⟨sectors1', h1', hl1, hcnt⟩ := countPoints_spec i
    (Scatterplot.freshPoint points[i] K).position points.enum sectors0 (by omega)
  rw [h1] at h1'
  cases h1'
  rw [hsec, List.getElem?_map] at hS
  have hk : k < sectors0.length := by
    cases h : sectors1[k]? with
    | none => rw [h] at hS; simp at hS
    | some S1 =>
      have := (List.getElem?_eq_some.mp h).1
      omega
  have hS0 := hcnt k sectors0[k] (List.getElem?_eq_getElem hk)
  rw [hS0] at hS
  simp only [Option.map_some', Option.some.injEq] at hS
  rw [← hS, hpos, hl0]
  simp only [Scatterplot.deform]
  rw [hfresh k sectors0[k] (List.getElem?_eq_getElem hk)]
  simp

theorem make_sectors_getElem (points : List (QPointF ℝ)) (K : ℕ) (s : Scatterplot) (i k : ℕ)
    (p : Point) (hs : Scatterplot.make points K = .ok s)
    (hp : s._points[i]? = some p) (hk : k < K) : ∃ S, p.sectors[k]? = some S := by
  have hl := make_sectors_length points K s hs p (List.getElem?_mem hp)
  exact ⟨p.sectors[k], List.getElem?_eq_getElem (by omega)⟩

/-- Each counted element falls into exactly one of the `K` index classes. -/
theorem sum_countP_index {α : Type} (P : α → Prop) [DecidablePred P] (f : α → ℕ) (K : ℕ)
    (l : List α) (hf : ∀ o ∈ l, f o < K) :
    ((List.range K).map fun k => l.countP fun o => decide (P o ∧ f o = k)).sum
      = l.countP fun o => decide (P o) := by
  induction l with
  | nil => simp
  | cons a t ih =>
    have ht := ih (fun o ho => hf o (List.mem_cons_of_mem a ho))
    have ha : f a < K := hf a (List.mem_cons_self a t)
    simp only [List.countP_cons]
    rw [List.sum_map_add, ht]
    congr 1
    by_cases hP : P a
    · simp only [hP, true_and, decide_True, if_true]
      have : ∀ n, f a < n → ((List.range n).map fun k => if decide (f a = k) = true then 1 else 0).sum
          = 1 := by
        intro n
        induction n with
        | zero => intro h; omega
        | succ n ihn =>
          intro h
          rw [List.range_succ, List.map_append, List.sum_append]
          rcases Nat.lt_succ_iff_lt_or_eq.mp h with h' | h'
          · rw [ihn h']
            have : f a ≠ n := by omega
            simp [this]
          · have hz : ((List.range n).map fun k => if decide (f a = k) = true then 1 else 0).sum
                = 0 := by
              apply List.sum_eq_zero
              intro x hx
              obtain ⟨k, hk, rfl⟩ := List.mem_map.mp hx
              have : k < n := List.mem_range.mp hk
              have : f a ≠ k := by omega
              simp [this]
            rw [hz]; simp [h']
      exact this K ha
    · simp only [hP, false_and, decide_False]
      simp

/-- Sum of the counts of the sectors of an analysed point: the number of other
indices whose position the comparison `==` does not equate with its position. -/
theorem points_count_total (points : List (QPointF ℝ)) (K : ℕ) (s : Scatterplot) (i : ℕ)
    (p : Point) (hK : 1 ≤ K) (hs : Scatterplot.make points K = .ok s)
    (hp : s._points[i]? = some p) :
    (p.sectors.map fun S => S.points_count).sum
      = ((points.enum.countP fun o =>
          decide (o.1 ≠ i ∧ ¬ QPointF.operatorEq o.2 p.position) : ℕ) : ℝ) := by
  have hl := make_sectors_length points K s hs p (List.getElem?_mem hp)
  have hmap : (p.sectors.map fun S => S.points_count)
      = (List.range K).map fun k => ((points.enum.countP fun o =>
        decide (counted i p.position o ∧ Scatterplot.sectorIndex p.position o.2 K = k) : ℕ) : ℝ) := by
    apply List.ext_getElem?
    intro k
    rw [List.getElem?_map, List.getElem?_map]
    by_cases hk : k < K
    · obtain ⟨S, hS⟩ := make_sectors_getElem points K s i k p hs hp hk
      rw [hS, List.getElem?_range hk]
      simp only [Option.map_some', Option.some.injEq]
      exact make_points_count points K s i k p S hK hs hp hS
    · have h1 : p.sectors[k]? = none := by rw [List.getElem?_eq_none_iff]; omega
      have h2 : (List.range K)[k]? = none := by rw [List.getElem?_eq_none_iff]; simp; omega
      rw [h1, h2]; rfl
  rw [hmap]
  have hsum := sum_countP_index (counted i p.position)
    (fun o : ℕ × QPointF ℝ => Scatterplot.sectorIndex p.position o.2 K) K points.enum
    (fun o _ => sectorIndex_lt _ _ K (by omega))
  have hcast : ((List.range K).map fun k => ((points.enum.countP fun o =>
        decide (counted i p.position o ∧ Scatterplot.sectorIndex p.position o.2 K = k) : ℕ) : ℝ)).sum
      = (((List.range K).map fun k => points.enum.countP fun o =>
        decide (counted i p.position o ∧ Scatterplot.sectorIndex p.position o.2 K = k)).sum : ℕ) := by
    rw [Nat.cast_list_sum, List.map_map]
    rfl
  rw [hcast, hsum]
  congr 1
  apply List.countP_congr
  intro o _
  simp only [counted, decide_eq_true_eq]
  constructor
  · rintro ⟨h1, h2⟩; exact ⟨fun h => h1 h.symm, h2⟩
  · rintro ⟨h1, h2⟩; exact ⟨fun h => h1 h.symm, h2⟩

theorem atan2_opposite (dx dy : ℝ) (h : dx ≠ 0 ∨ dy ≠ 0) :
    atan2 (-dy) (-dx) + Real.pi
      = if atan2 dy dx ≤ 0 then atan2 dy dx + 2 * Real.pi else atan2 dy dx := by
  unfold atan2
  have hneg : (⟨-dx, -dy⟩ : ℂ) = -(⟨dx, dy⟩ : ℂ) := by
    apply Complex.ext <;> simp
  rw [hneg]
  have hpi := Real.pi_pos
  rcases lt_trichotomy dy 0 with hy | hy | hy
  · have h1 : Complex.arg (-(⟨dx, dy⟩ : ℂ)) = Complex.arg ⟨dx, dy⟩ + Real.pi :=
      Complex.arg_neg_eq_arg_add_pi_of_im_neg (by simpa using hy)
    have h2 : Complex.arg (⟨dx, dy⟩ : ℂ) < 0 := Complex.arg_neg_iff.mpr (by simpa using hy)
    rw [h1, if_pos (le_of_lt h2)]; ring
  · subst hy
    have hdx : dx ≠ 0 := by
      rcases h with h | h
      · exact h
      · exact absurd rfl h
    have hz : (⟨dx, 0⟩ : ℂ) = (dx : ℂ) := by apply Complex.ext <;> simp
    have hz' : -(⟨dx, 0⟩ : ℂ) = ((-dx : ℝ) : ℂ) := by apply Complex.ext <;> simp
    rw [hz', hz]
    rcases lt_or_gt_of_ne hdx with hx | hx
    · rw [Complex.arg_ofReal_of_neg hx, Complex.arg_ofReal_of_nonneg (by linarith),
        if_neg (by linarith)]
      ring
    · rw [Complex.arg_ofReal_of_nonneg (le_of_lt hx), Complex.arg_ofReal_of_neg (by linarith),
        if_pos le_rfl]
      ring
  · have h1 : Complex.arg (-(⟨dx, dy⟩ : ℂ)) = Complex.arg ⟨dx, dy⟩ - Real.pi :=
      Complex.arg_neg_eq_arg_sub_pi_of_im_pos (by simpa using hy)
    have h2 : 0 < Complex.arg (⟨dx, dy⟩ : ℂ) := by
      have hnn : 0 ≤ Complex.arg (⟨dx, dy⟩ : ℂ) :=
        Complex.arg_nonneg_iff.mpr (show (0:ℝ) ≤ dy from le_of_lt hy)
      rcases lt_or_eq_of_le hnn with h' | h'
      · exact h'
      · exfalso
        have := (Complex.arg_eq_zero_iff.mp h'.symm).2
        simp at this
        linarith
    rw [h1, if_neg (by linarith)]; ring

theorem directionAngleTurn_mem (current other : QPointF ℝ) :
    0 < directionAngleTurn current other ∧ directionAngleTurn current other ≤ 2 * Real.pi := by
  unfold directionAngleTurn atan2
  have h1 := Complex.neg_pi_lt_arg (⟨other.x - current.x, other.y - current.y⟩ : ℂ)
  have h2 := Complex.arg_le_pi (⟨other.x - current.x, other.y - current.y⟩ : ℂ)
  have hpi := Real.pi_pos
  simp only
  split_ifs with h
  · constructor <;> linarith
  · push_neg at h
    constructor <;> linarith

/-- The index that the counting loop computes, in terms of the direction angle
taken in `(0, 2π]`. -/
theorem sectorIndex_eq (current other : QPointF ℝ) (K : ℕ) (hne : other ≠ current) :
    Scatterplot.sectorIndex current other K
      = min ⌊directionAngleTurn current other / (2 * Real.pi) * K⌋₊ (K - 1) := by
  have hpi := Real.pi_pos
  obtain ⟨ha0, ha1⟩ := directionAngleTurn_mem current other
  have hd : other.x - current.x ≠ 0 ∨ other.y - current.y ≠ 0 := by
    by_contra hcon
    push_neg at hcon
    apply hne
    apply QPointF.ext <;> linarith [hcon.1, hcon.2]
  have hop := atan2_opposite (other.x - current.x) (other.y - current.y) hd
  unfold Scatterplot.sectorIndex
  simp only [QPointF.sub_x, QPointF.sub_y]
  have e1 : current.y - other.y = -(other.y - current.y) := by ring
  have e2 : current.x - other.x = -(other.x - current.x) := by ring
  rw [e1, e2, hop]
  have hturn : (if atan2 (other.y - current.y) (other.x - current.x) ≤ 0
      then atan2 (other.y - current.y) (other.x - current.x) + 2 * Real.pi
      else atan2 (other.y - current.y) (other.x - current.x)) = directionAngleTurn current other := rfl
  rw [hturn]
  have ht0 : 0 ≤ directionAngleTurn current other / (2 * Real.pi) := by positivity
  have ht1 : directionAngleTurn current other / (2 * Real.pi) ≤ 1 := by
    rw [div_le_one (by positivity)]; exact ha1
  rw [stdClamp_of_mem _ _ _ ht0 ht1]
  unfold stdClamp
  rw [if_neg (Nat.not_lt_zero _)]
  split_ifs with h
  · exact (min_eq_right (le_of_lt h)).symm
  · exact (min_eq_left (not_lt.mp h)).symm

theorem sectorIndex_eq_iff (current other : QPointF ℝ) (K k : ℕ) (hne : other ≠ current)
    (hk : k < K) :
    Scatterplot.sectorIndex current other K = k
      ↔ InSectorIntervalLastClosed K k (directionAngleTurn current other) := by
  rw [sectorIndex_eq current other K hne]
  have hpi := Real.pi_pos
  obtain ⟨ha0, ha1⟩ := directionAngleTurn_mem current other
  have hKr : (0 : ℝ) < K := by exact_mod_cast (by omega : 0 < K)
  set a := directionAngleTurn current other with ha
  have ht0 : 0 ≤ a / (2 * Real.pi) * K := by positivity
  have hfl : ∀ m : ℕ, ⌊a / (2 * Real.pi) * K⌋₊ = m ↔
      2 * Real.pi * m / K ≤ a ∧ a < 2 * Real.pi * (m + 1) / K := by
    intro m
    rw [Nat.floor_eq_iff ht0]
    constructor
    · rintro ⟨h1, h2⟩
      constructor
      · rw [div_le_iff₀ hKr]
        have := mul_le_mul_of_nonneg_right h1 (by positivity : (0:ℝ) ≤ 2 * Real.pi)
        have e : a / (2 * Real.pi) * K * (2 * Real.pi) = a * K := by field_simp
        rw [e] at this; linarith
      · rw [lt_div_iff₀ hKr]
        have := mul_lt_mul_of_pos_right h2 (by positivity : (0:ℝ) < 2 * Real.pi)
        have e : a / (2 * Real.pi) * K * (2 * Real.pi) = a * K := by field_simp
        rw [e] at this; linarith
    · rintro ⟨h1, h2⟩
      rw [div_le_iff₀ hKr] at h1
      rw [lt_div_iff₀ hKr] at h2
      have e : a / (2 * Real.pi) * K = a * K / (2 * Real.pi) := by field_simp
      rw [e]
      constructor
      · rw [le_div_iff₀ (by positivity)]; linarith
      · rw [div_lt_iff₀ (by positivity)]; linarith
  unfold InSectorIntervalLastClosed
  constructor
  · intro h
    rcases le_or_lt ⌊a / (2 * Real.pi) * K⌋₊ (K - 1) with hle | hgt
    · rw [min_eq_left hle] at h
      obtain ⟨h1, h2⟩ := (hfl k).mp h
      exact ⟨h1, Or.inl h2⟩
    · rw [min_eq_right (le_of_lt hgt)] at h
      have hkK : k + 1 = K := by omega
      refine ⟨?_, Or.inr hkK⟩
      have hfloor : (K : ℝ) - 1 ≤ a / (2 * Real.pi) * K := by
        have h1 : K - 1 ≤ ⌊a / (2 * Real.pi) * K⌋₊ := le_of_lt hgt
        have h2 := Nat.floor_le ht0
        have h3 : ((K - 1 : ℕ) : ℝ) ≤ (⌊a / (2 * Real.pi) * K⌋₊ : ℝ) := by exact_mod_cast h1
        have h4 : ((K - 1 : ℕ) : ℝ) = (K : ℝ) - 1 := by
          rw [Nat.cast_sub (by omega)]; simp
        linarith
      have hkr : (k : ℝ) = (K : ℝ) - 1 := by
        have : ((k + 1 : ℕ) : ℝ) = (K : ℝ) := by exact_mod_cast hkK
        push_cast at this; linarith
      rw [div_le_iff₀ hKr, hkr]
      have := mul_le_mul_of_nonneg_right hfloor (by positivity : (0:ℝ) ≤ 2 * Real.pi)
      have e : a / (2 * Real.pi) * K * (2 * Real.pi) = a * K := by field_simp
      rw [e] at this; linarith
  · rintro ⟨h1, h2 | h2⟩
    · have := (hfl k).mpr ⟨h1, h2⟩
      rw [this]
      exact min_eq_left (by omega)
    · have hkr : (k : ℝ) = (K : ℝ) - 1 := by
        have : ((k + 1 : ℕ) : ℝ) = (K : ℝ) := by exact_mod_cast h2
        push_cast at this; linarith
      have hge : K - 1 ≤ ⌊a / (2 * Real.pi) * K⌋₊ := by
        apply Nat.le_floor
        have h4 : ((K - 1 : ℕ) : ℝ) = (K : ℝ) - 1 := by
          rw [Nat.cast_sub (by omega)]; simp
        rw [h4]
        rw [div_le_iff₀ hKr, hkr] at h1
        have e : a / (2 * Real.pi) * K = a * K / (2 * Real.pi) := by field_simp
        rw [e, le_div_iff₀ (by positivity)]
        linarith
      rw [min_eq_right hge]; omega

/-- C4, amended: `points_count` of sector `k` of point `i` is the number of points
`j ≠ i` whose position the comparison `==` of `QPointF` does not equate with the
position of `i` and whose direction angle, taken in `(0, 2π]`, lies in
`[2πk/K, 2π(k+1)/K)`, the last sector also taking the angle `2π`. -/
theorem points_count_sector (points : List (QPointF ℝ)) (K : ℕ) (s : Scatterplot) (i k : ℕ)
    (p : Point) (S : Sector ℝ) (hK : 4 ≤ K) (hs : Scatterplot.make points K = .ok s)
    (hp : s._points[i]? = some p) (hS : p.sectors[k]? = some S) :
    S.points_count = ((points.enum.countP fun o =>
      decide (o.1 ≠ i ∧ ¬ QPointF.operatorEq o.2 p.position ∧
        InSectorIntervalLastClosed K k (directionAngleTurn p.position o.2)) : ℕ) : ℝ) := by
  have hl := make_sectors_length points K s hs p (List.getElem?_mem hp)
  have hk : k < K := by
    have := (List.getElem?_eq_some.mp hS).1
    omega
  rw [make_points_count points K s i k p S (by omega) hs hp hS]
  congr 1
  apply List.countP_congr
  intro o _
  simp only [counted, decide_eq_true_eq]
  constructor
  · rintro ⟨⟨h1, h2⟩, h3⟩
    exact ⟨fun h => h1 h.symm, h2,
      (sectorIndex_eq_iff _ _ K k (ne_of_not_operatorEq _ _ h2) hk).mp h3⟩
  · rintro ⟨h1, h2, h3⟩
    exact ⟨⟨fun h => h1 h.symm, h2⟩,
      (sectorIndex_eq_iff _ _ K k (ne_of_not_operatorEq _ _ h2) hk).mpr h3⟩

theorem getElem?_exists {α : Type} (l : List α) (i : ℕ) (h : i < l.length) :
    ∃ a, l[i]? = some a :=
  ⟨l[i], List.getElem?_eq_getElem h⟩

theorem countP_pair {α : Type} (f : α → Bool) (a b : α) :
    List.countP f [a, b] = (if f a = true then 1 else 0) + (if f b = true then 1 else 0) := by
  rw [List.countP_cons, List.countP_cons, List.countP_nil]
  omega

theorem horizontalPair_interior :
    ∀ q ∈ horizontalPair, -1 < q.x ∧ q.x < 1 ∧ -1 < q.y ∧ q.y < 1 := by
  intro q hq
  simp only [horizontalPair, List.mem_cons, List.mem_singleton, List.not_mem_nil, or_false] at hq
  rcases hq with rfl | rfl <;> norm_num

theorem atan2_zero_pos (x : ℝ) (hx : 0 < x) : atan2 0 x = 0 := by
  unfold atan2
  have hz : (⟨x, 0⟩ : ℂ) = (x : ℂ) := by apply Complex.ext <;> simp
  rw [hz, Complex.arg_ofReal_of_nonneg (le_of_lt hx)]

theorem points_count_sector_witness :
    ∃ s p S, Scatterplot.make horizontalPair 4 = .ok s ∧ s._points[0]? = some p ∧
      p.sectors[3]? = some S ∧
      S.points_count = ((horizontalPair.enum.countP fun o =>
        decide (o.1 ≠ 0 ∧ ¬ QPointF.operatorEq o.2 p.position ∧
          InSectorIntervalLastClosed 4 3 (directionAngleTurn p.position o.2)) : ℕ) : ℝ) := by
  obtain ⟨s, hs⟩ := make_total horizontalPair 4 (by norm_num) horizontalPair_interior
  have hlen := (make_ok horizontalPair 4 s hs).1
  obtain ⟨p, hp⟩ := getElem?_exists s._points 0 (by rw [hlen]; simp [horizontalPair])
  obtain ⟨S, hS⟩ := make_sectors_getElem horizontalPair 4 s 0 3 p hs hp (by norm_num)
  exact ⟨s, p, S, hs, hp, hS, points_count_sector horizontalPair 4 s 0 3 p S (by norm_num) hs hp hS⟩

theorem verticalNearPair_interior :
    ∀ q ∈ verticalNearPair, -1 < q.x ∧ q.x < 1 ∧ -1 < q.y ∧ q.y < 1 := by
  intro q hq
  simp only [verticalNearPair, List.mem_cons, List.mem_singleton, List.not_mem_nil,
    or_false] at hq
  rcases hq with rfl | rfl <;> norm_num

theorem verticalNearPair_operatorEq :
    QPointF.operatorEq (⟨1 / 2, 1 / 2 + 1 / 10000000000000⟩ : QPointF ℝ) ⟨1 / 2, 1 / 2⟩ := by
  unfold QPointF.operatorEq qFuzzyIsNull qFuzzyCompare
  have e1 : |(1 / 2 + 1 / 10000000000000 : ℝ) - 1 / 2| = 1 / 10000000000000 := by
    rw [abs_of_pos] <;> norm_num
  have e2 : |(1 / 2 + 1 / 10000000000000 : ℝ)| = 1 / 2 + 1 / 10000000000000 := by
    rw [abs_of_pos]; norm_num
  have e3 : |(1 / 2 : ℝ)| = 1 / 2 := abs_of_pos (by norm_num)
  constructor
  · rw [if_neg (by norm_num)]
    show |(1 / 2 : ℝ) - 1 / 2| * 1000000000000 ≤ min |(1 / 2 : ℝ)| |(1 / 2 : ℝ)|
    rw [sub_self, abs_zero, zero_mul, min_self]
    exact abs_nonneg _
  · rw [if_neg (by norm_num)]
    show |(1 / 2 + 1 / 10000000000000 : ℝ) - 1 / 2| * 1000000000000
      ≤ min |(1 / 2 + 1 / 10000000000000 : ℝ)| |(1 / 2 : ℝ)|
    rw [e1, e2, e3]
    apply le_min <;> norm_num

theorem atan2_pos_zero (y : ℝ) (hy : 0 < y) : atan2 y 0 = Real.pi / 2 := by
  unfold atan2
  have hz : (⟨0, y⟩ : ℂ) = (y : ℂ) * Complex.I := by apply Complex.ext <;> simp
  rw [hz, Complex.arg_real_mul _ hy, Complex.arg_I]

/-- C4 as stated fails, in two ways.  For the points `(0,0)` and `(1/2,0)` and
four sectors, one point at a different position lies in the interval `[0, π/2)`
of sector 0 of the first point, but the `points_count` of that sector is 0: the
direction `0` is counted in the last sector.  For the points `(1/2, 1/2)` and
`(1/2, 1/2 + 10⁻¹³)` one point at a different position lies in the interval
`[π/2, π)` of sector 1 of the first point, but the `points_count` of that sector
is 0: the comparison `==` of `QPointF` equates the two positions. -/
theorem points_count_interval_counterexample :
    (∃ s p S, Scatterplot.make horizontalPair 4 = .ok s ∧ s._points[0]? = some p ∧
      p.sectors[0]? = some S ∧ S.points_count = 0 ∧
      ((horizontalPair.enum.countP fun o =>
        decide (o.1 ≠ 0 ∧ o.2 ≠ p.position ∧
          InSectorInterval 4 0 (directionAngle p.position o.2)) : ℕ) : ℝ) = 1) ∧
    (∃ s p S, Scatterplot.make verticalNearPair 4 = .ok s ∧ s._points[0]? = some p ∧
      p.sectors[1]? = some S ∧ S.points_count = 0 ∧
      ((verticalNearPair.enum.countP fun o =>
        decide (o.1 ≠ 0 ∧ o.2 ≠ p.position ∧
          InSectorInterval 4 1 (directionAngle p.position o.2)) : ℕ) : ℝ) = 1) := by
  constructor
  swap
  · obtain ⟨s, hs⟩ := make_total verticalNearPair 4 (by norm_num) verticalNearPair_interior
    have hlen := (make_ok verticalNearPair 4 s hs).1
    obtain ⟨p, hp⟩ := getElem?_exists s._points 0 (by rw [hlen]; simp [verticalNearPair])
    obtain ⟨S, hS⟩ := make_sectors_getElem verticalNearPair 4 s 0 1 p hs hp (by norm_num)
    have hpos : p.position = ⟨1 / 2, 1 / 2⟩ := by
      have h := make_position_eq verticalNearPair 4 s hs
      have h2 : (s._points.map fun p => p.position)[0]? = verticalNearPair[0]? := by rw [h]
      rw [List.getElem?_map, hp] at h2
      simp only [verticalNearPair, Option.map_some', List.getElem?_cons_zero,
        Option.some.injEq] at h2
      exact h2
    have hpi := Real.pi_pos
    have hne : (⟨1 / 2, 1 / 2 + 1 / 10000000000000⟩ : QPointF ℝ) ≠ ⟨1 / 2, 1 / 2⟩ := by
      intro h
      have := congrArg QPointF.y h
      norm_num at this
    have henum : verticalNearPair.enum
        = [(0, ⟨1 / 2, 1 / 2⟩), (1, ⟨1 / 2, 1 / 2 + 1 / 10000000000000⟩)] := rfl
    refine ⟨s, p, S, hs, hp, hS, ?_, ?_⟩
    · rw [make_points_count verticalNearPair 4 s 0 1 p S (by norm_num) hs hp hS, hpos, henum,
        countP_pair, if_neg, if_neg]
      · simp
      · simp only [decide_eq_true_eq]
        intro h; exact h.1.2 verticalNearPair_operatorEq
      · simp only [decide_eq_true_eq]
        intro h; exact h.1.1 rfl
    · have hin : InSectorInterval 4 1
          (directionAngle ⟨1 / 2, 1 / 2⟩ ⟨1 / 2, 1 / 2 + 1 / 10000000000000⟩) := by
        unfold InSectorInterval directionAngle
        simp only [sub_self, add_sub_cancel_left]
        rw [atan2_pos_zero _ (by norm_num), if_neg (by linarith)]
        constructor
        · norm_num; linarith
        · norm_num; linarith
      rw [hpos, henum, countP_pair, if_neg, if_pos]
      · simp
      · simp only [decide_eq_true_eq]
        exact ⟨by norm_num, hne, hin⟩
      · simp only [decide_eq_true_eq]
        intro h; exact h.1 rfl
  obtain ⟨s, hs⟩ := make_total horizontalPair 4 (by norm_num) horizontalPair_interior
  have hlen := (make_ok horizontalPair 4 s hs).1
  obtain ⟨p, hp⟩ := getElem?_exists s._points 0 (by rw [hlen]; simp [horizontalPair])
  obtain ⟨S, hS⟩ := make_sectors_getElem horizontalPair 4 s 0 0 p hs hp (by norm_num)
  have hpos : p.position = ⟨0, 0⟩ := by
    have h := make_position_eq horizontalPair 4 s hs
    have h2 : (s._points.map fun p => p.position)[0]? = horizontalPair[0]? := by rw [h]
    rw [List.getElem?_map, hp] at h2
    simp only [horizontalPair, Option.map_some', List.getElem?_cons_zero, Option.some.injEq] at h2
    exact h2
  have hpi := Real.pi_pos
  have hne : (⟨1 / 2, 0⟩ : QPointF ℝ) ≠ ⟨0, 0⟩ := by
    intro h
    have := congrArg QPointF.x h
    norm_num at this
  have hidx : Scatterplot.sectorIndex ⟨0, 0⟩ ⟨1 / 2, 0⟩ 4 ≠ 0 := by
    intro h
    have := (sectorIndex_eq_iff ⟨0, 0⟩ ⟨1 / 2, 0⟩ 4 0 hne (by norm_num)).mp h
    unfold InSectorIntervalLastClosed directionAngleTurn at this
    simp only [sub_zero] at this
    rw [atan2_zero_pos _ (by norm_num), if_pos le_rfl] at this
    rcases this.2 with h' | h'
    · norm_num at h'; linarith
    · norm_num at h'
  have henum : horizontalPair.enum = [(0, ⟨0, 0⟩), (1, ⟨1 / 2, 0⟩)] := rfl
  refine ⟨s, p, S, hs, hp, hS, ?_, ?_⟩
  · rw [make_points_count horizontalPair 4 s 0 0 p S (by norm_num) hs hp hS, hpos, henum,
      countP_pair, if_neg, if_neg]
    · simp
    · simp only [decide_eq_true_eq]
      intro h; exact hidx h.2
    · simp only [decide_eq_true_eq]
      intro h; exact h.1.1 rfl
  · have hin : InSectorInterval 4 0 (directionAngle ⟨0, 0⟩ ⟨1 / 2, 0⟩) := by
      unfold InSectorInterval directionAngle
      simp only [sub_zero]
      rw [atan2_zero_pos _ (by norm_num), if_neg (lt_irrefl _)]
      constructor
      · simp
      · norm_num; positivity
    rw [hpos, henum, countP_pair, if_neg, if_pos]
    · simp
    · simp only [decide_eq_true_eq]
      exact ⟨by norm_num, hne, hin⟩
    · simp only [decide_eq_true_eq]
      intro h; exact h.1 rfl

theorem coincidentPair_interior :
    ∀ q ∈ coincidentPair, -1 < q.x ∧ q.x < 1 ∧ -1 < q.y ∧ q.y < 1 := by
  intro q hq
  simp only [coincidentPair, List.mem_cons, List.mem_singleton, List.not_mem_nil, or_false] at hq
  rcases hq with rfl | rfl <;> norm_num

/-- Position of the point with index `i` of a constructed layout. -/
theorem make_position_getElem (points : List (QPointF ℝ)) (K : ℕ) (s : Scatterplot) (i : ℕ)
    (p : Point) (q : QPointF ℝ) (hs : Scatterplot.make points K = .ok s)
    (hp : s._points[i]? = some p) (hq : points[i]? = some q) : p.position = q := by
  have h := make_position_eq points K s hs
  have h2 : (s._points.map fun p => p.position)[i]? = points[i]? := by rw [h]
  rw [List.getElem?_map, hp, hq] at h2
  simpa using h2

theorem mem_of_mem_enum {α : Type} (l : List α) (o : ℕ × α) (ho : o ∈ l.enum) : o.2 ∈ l := by
  obtain ⟨j, hj⟩ := List.getElem?_of_mem ho
  rw [List.getElem?_enum] at hj
  cases hp : l[j]? with
  | none => rw [hp] at hj; simp at hj
  | some b =>
    rw [hp] at hj
    simp only [Option.map_some', Option.some.injEq] at hj
    rw [← hj]
    exact List.getElem?_mem hp

theorem nearPair_interior :
    ∀ q ∈ nearPair, -1 < q.x ∧ q.x < 1 ∧ -1 < q.y ∧ q.y < 1 := by
  intro q hq
  simp only [nearPair, List.mem_cons, List.mem_singleton, List.not_mem_nil, or_false] at hq
  rcases hq with rfl | rfl <;> norm_num

/-- C3 as stated fails: for the points `(1/2, 1/2)` and `(1/2 + 10⁻¹³, 1/2)` and
four sectors there is one index `j ≠ 0` with a position different from that of
point 0, but the `points_count` of the sectors of point 0 sum to 0: the
comparison `==` of `QPointF` equates the two positions. -/
theorem near_points_counterexample :
    ∃ s p, Scatterplot.make nearPair 4 = .ok s ∧ s._points[0]? = some p ∧
      (p.sectors.map fun S => S.points_count).sum = 0 ∧
      ((nearPair.enum.countP fun o => decide (o.1 ≠ 0 ∧ o.2 ≠ p.position) : ℕ) : ℝ) = 1 := by
  obtain ⟨s, hs⟩ := make_total nearPair 4 (by norm_num) nearPair_interior
  have hlen := (make_ok nearPair 4 s hs).1
  obtain ⟨p, hp⟩ := getElem?_exists s._points 0 (by rw [hlen]; simp [nearPair])
  have hpos : p.position = ⟨1 / 2, 1 / 2⟩ := make_position_getElem nearPair 4 s 0 p _ hs hp rfl
  have henum : nearPair.enum
      = [(0, ⟨1 / 2, 1 / 2⟩), (1, ⟨1 / 2 + 1 / 10000000000000, 1 / 2⟩)] := rfl
  have hne : (⟨1 / 2 + 1 / 10000000000000, 1 / 2⟩ : QPointF ℝ) ≠ ⟨1 / 2, 1 / 2⟩ := by
    intro h
    have := congrArg QPointF.x h
    norm_num at this
  refine ⟨s, p, hs, hp, ?_, ?_⟩
  · rw [points_count_total nearPair 4 s 0 p (by norm_num) hs hp, hpos, henum, countP_pair,
      if_neg, if_neg]
    · simp
    · simp only [decide_eq_true_eq]
      intro h; exact h.2 nearPair_operatorEq
    · simp only [decide_eq_true_eq]
      intro h; exact h.1 rfl
  · rw [hpos, henum, countP_pair, if_neg, if_pos]
    · simp
    · simp only [decide_eq_true_eq]
      exact ⟨by norm_num, hne⟩
    · simp only [decide_eq_true_eq]
      intro h; exact h.1 rfl

/-- C3, amended: for `K ≥ 1` the sum over the sectors of point `i` of
`points_count` is the number of indices `j ≠ i` whose position the comparison
`==` of `QPointF` does not equate with the position of `i`; in particular the sum
is 0 when the comparison equates every position with it, as for two coincident
points. -/
theorem points_count_sum (points : List (QPointF ℝ)) (K : ℕ) (s : Scatterplot) (i : ℕ)
    (p : Point) (hK : 1 ≤ K) (hs : Scatterplot.make points K = .ok s)
    (hp : s._points[i]? = some p) :
    (p.sectors.map fun S => S.points_count).sum
        = ((points.enum.countP fun o =>
            decide (o.1 ≠ i ∧ ¬ QPointF.operatorEq o.2 p.position) : ℕ) : ℝ) ∧
      ((∀ q ∈ points, QPointF.operatorEq q p.position) →
        (p.sectors.map fun S => S.points_count).sum = 0) := by
  have h := points_count_total points K s i p hK hs hp
  refine ⟨h, fun hall => ?_⟩
  rw [h]
  have hz : (points.enum.countP fun o =>
      decide (o.1 ≠ i ∧ ¬ QPointF.operatorEq o.2 p.position)) = 0 := by
    rw [List.countP_eq_zero]
    intro o ho
    simp only [decide_eq_true_eq, not_and, not_not]
    intro _
    exact hall o.2 (mem_of_mem_enum points o ho)
  rw [hz]
  simp

theorem points_count_sum_witness :
    (∃ s p, Scatterplot.make horizontalPair 4 = .ok s ∧ s._points[0]? = some p ∧
      (p.sectors.map fun S => S.points_count).sum = 1) ∧
    (∃ s p, Scatterplot.make coincidentPair 4 = .ok s ∧ s._points[1]? = some p ∧
      (p.sectors.map fun S => S.points_count).sum = 0) := by
  constructor
  · obtain ⟨s, hs⟩ := make_total horizontalPair 4 (by norm_num) horizontalPair_interior
    have hlen := (make_ok horizontalPair 4 s hs).1
    obtain ⟨p, hp⟩ := getElem?_exists s._points 0 (by rw [hlen]; simp [horizontalPair])
    have hpos : p.position = ⟨0, 0⟩ := make_position_getElem horizontalPair 4 s 0 p _ hs hp rfl
    have henum : horizontalPair.enum = [(0, ⟨0, 0⟩), (1, ⟨1 / 2, 0⟩)] := rfl
    refine ⟨s, p, hs, hp, ?_⟩
    rw [(points_count_sum horizontalPair 4 s 0 p (by norm_num) hs hp).1, hpos, henum,
      countP_pair, if_neg, if_pos]
    · simp
    · simp only [decide_eq_true_eq]
      exact ⟨by norm_num, point_far _ _ _ _ (by norm_num) (by norm_num) (Or.inl (by norm_num))⟩
    · simp only [decide_eq_true_eq]
      intro h; exact h.1 rfl
  · obtain ⟨s, hs⟩ := make_total coincidentPair 4 (by norm_num) coincidentPair_interior
    have hlen := (make_ok coincidentPair 4 s hs).1
    obtain ⟨p, hp⟩ := getElem?_exists s._points 1 (by rw [hlen]; simp [coincidentPair])
    have hpos : p.position = ⟨1 / 4, 1 / 4⟩ :=
      make_position_getElem coincidentPair 4 s 1 p _ hs hp rfl
    refine ⟨s, p, hs, hp, ?_⟩
    apply (points_count_sum coincidentPair 4 s 1 p (by norm_num) hs hp).2
    intro q hq
    rw [hpos]
    simp only [coincidentPair, List.mem_cons, List.mem_singleton, List.not_mem_nil,
      or_false, or_self] at hq
    rw [hq]
    exact operatorEq_refl _

/-- With one, two or three sectors the directions of the begin and end ray of
each sector still lie in one quadrant or in consecutive quadrants, so `sector`
returns. -/
theorem sector_index_small (x y : ℝ) (K k : ℕ) (hx : -1 < x) (hx' : x < 1) (hy : -1 < y)
    (hy' : y < 1) (hK1 : 1 ≤ K) (hK3 : K ≤ 3) (hk : k < K) :
    ∃ S, SquareDomain.sector ⟨x, y⟩ ((k : ℝ) * (2 * Real.pi / (K : ℝ)))
      (((k : ℝ) + 1) * (2 * Real.pi / (K : ℝ))) = .ok S := by
  have hpi := Real.pi_pos
  have key : ∀ (θ1 θ2 : ℝ) (q1 q2 : ℕ), q1 ≤ 3 → q2 ≤ 3 →
      (q1 : ℝ) * (Real.pi / 2) ≤ θ1 → θ1 ≤ ((q1 : ℝ) + 1) * (Real.pi / 2) →
      (q2 : ℝ) * (Real.pi / 2) ≤ θ2 → θ2 ≤ ((q2 : ℝ) + 1) * (Real.pi / 2) →
      ((q2 = q1 ∧ 0 ≤ Real.sin (θ2 - θ1)) ∨ q2 = q1 + 1) →
      ∃ S, SquareDomain.sector ⟨x, y⟩ θ1 θ2 = .ok S := by
    intro θ1 θ2 q1 q2 hq1 hq2 a1 a2 b1 b2 hqq
    obtain ⟨ib, ic, ie, an, h⟩ := sector_quadrants x y θ1 θ2 q1 q2 hx hx' hy hy'
      (inQuadrant_of_angle q1 θ1 hq1 a1 a2) (inQuadrant_of_angle q2 θ2 hq2 b1 b2) hq2 hqq
    exact ⟨_, h⟩
  interval_cases K
  · -- one sector: both rays point along the positive x-axis
    interval_cases k
    have e1 : ((0 : ℕ) : ℝ) * (2 * Real.pi / ((1 : ℕ) : ℝ)) = 0 := by simp
    have e2 : (((0 : ℕ) : ℝ) + 1) * (2 * Real.pi / ((1 : ℕ) : ℝ)) = 2 * Real.pi := by simp
    rw [e1, e2]
    obtain ⟨ib, ic, ie, an, h⟩ := sector_quadrants x y 0 (2 * Real.pi) 0 0 hx hx' hy hy'
      (by rw [Real.cos_zero, Real.sin_zero]; exact ⟨zero_le_one, le_rfl⟩)
      (by rw [Real.cos_two_pi, Real.sin_two_pi]; exact ⟨zero_le_one, le_rfl⟩) (by norm_num)
      (Or.inl ⟨rfl, by rw [sub_zero, Real.sin_two_pi]⟩)
    exact ⟨_, h⟩
  · interval_cases k
    · have e1 : ((0 : ℕ) : ℝ) * (2 * Real.pi / ((2 : ℕ) : ℝ)) = 0 := by simp
      have e2 : (((0 : ℕ) : ℝ) + 1) * (2 * Real.pi / ((2 : ℕ) : ℝ)) = Real.pi := by
        push_cast; ring
      rw [e1, e2]
      exact key 0 Real.pi 0 1 (by norm_num) (by norm_num) (by norm_num) (by norm_num; positivity)
        (by norm_num; linarith) (by norm_num; linarith) (Or.inr rfl)
    · have e1 : ((1 : ℕ) : ℝ) * (2 * Real.pi / ((2 : ℕ) : ℝ)) = Real.pi := by push_cast; ring
      have e2 : (((1 : ℕ) : ℝ) + 1) * (2 * Real.pi / ((2 : ℕ) : ℝ)) = 2 * Real.pi := by
        push_cast; ring
      rw [e1, e2]
      exact key Real.pi (2 * Real.pi) 2 3 (by norm_num) (by norm_num) (by norm_num; linarith)
        (by norm_num; linarith) (by norm_num; linarith) (by norm_num; linarith) (Or.inr rfl)
  · interval_cases k
    · have e1 : ((0 : ℕ) : ℝ) * (2 * Real.pi / ((3 : ℕ) : ℝ)) = 0 := by simp
      have e2 : (((0 : ℕ) : ℝ) + 1) * (2 * Real.pi / ((3 : ℕ) : ℝ)) = 2 * Real.pi / 3 := by
        push_cast; ring
      rw [e1, e2]
      exact key 0 (2 * Real.pi / 3) 0 1 (by norm_num) (by norm_num) (by norm_num)
        (by norm_num; positivity) (by norm_num; linarith) (by norm_num; linarith) (Or.inr rfl)
    · have e1 : ((1 : ℕ) : ℝ) * (2 * Real.pi / ((3 : ℕ) : ℝ)) = 2 * Real.pi / 3 := by
        push_cast; ring
      have e2 : (((1 : ℕ) : ℝ) + 1) * (2 * Real.pi / ((3 : ℕ) : ℝ)) = 4 * Real.pi / 3 := by
        push_cast; ring
      rw [e1, e2]
      exact key (2 * Real.pi / 3) (4 * Real.pi / 3) 1 2 (by norm_num) (by norm_num)
        (by norm_num; linarith) (by norm_num; linarith) (by norm_num; linarith)
        (by norm_num; linarith) (Or.inr rfl)
    · have e1 : ((2 : ℕ) : ℝ) * (2 * Real.pi / ((3 : ℕ) : ℝ)) = 4 * Real.pi / 3 := by
        push_cast; ring
      have e2 : (((2 : ℕ) : ℝ) + 1) * (2 * Real.pi / ((3 : ℕ) : ℝ)) = 2 * Real.pi := by
        push_cast; ring
      rw [e1, e2]
      exact key (4 * Real.pi / 3) (2 * Real.pi) 2 3 (by norm_num) (by norm_num)
        (by norm_num; linarith) (by norm_num; linarith) (by norm_num; linarith)
        (by norm_num; linarith) (Or.inr rfl)

/-- The sector loop of `compute` returns for every interior position, whatever
the number of sectors. -/
theorem computeSectors_total (position : QPointF ℝ) (K : ℕ)
    (hx : -1 < position.x) (hx' : position.x < 1) (hy : -1 < position.y) (hy' : position.y < 1) :
    ∃ sectors, Scatterplot.computeSectors position K = .ok sectors ∧ sectors.length = K := by
  rcases Nat.lt_or_ge K 4 with hK | hK
  · obtain ⟨x, y⟩ := position
    unfold Scatterplot.computeSectors
    rcases Nat.eq_zero_or_pos K with h0 | h0
    · subst h0; exact ⟨[], rfl, rfl⟩
    · obtain ⟨l, h1, h2, _⟩ := allOk_map_range (fun (sector_index : ℕ) =>
          SquareDomain.sector ⟨x, y⟩ ((sector_index : ℝ) * (2 * Real.pi / (K : ℝ)))
            (((sector_index : ℝ) + 1) * (2 * Real.pi / (K : ℝ)))) (fun _ _ => True) K
        (fun k hk => by
          obtain ⟨S, hS⟩ := sector_index_small x y K k hx hx' hy hy' h0 (by omega) hk
          exact ⟨S, hS, trivial⟩)
      exact ⟨l, h1, h2⟩
  · obtain ⟨sectors, h1, h2, _⟩ := computeSectors_spec position K hx hx' hy hy' hK
    exact ⟨sectors, h1, h2⟩

theorem countPoints_skip_all (i : ℕ) (q : QPointF ℝ) (others : List (ℕ × QPointF ℝ))
    (sectors : List (Sector ℝ)) (h : ∀ o ∈ others, ¬ counted i q o) :
    Scatterplot.countPoints i q others sectors = .ok sectors := by
  induction others with
  | nil => rfl
  | cons o rest ih =>
    rw [Scatterplot.countPoints, countStep_skip i q sectors o (h o (List.mem_cons_self o rest))]
    exact ih (fun o' ho' => h o' (List.mem_cons_of_mem o ho'))

theorem countPoints_nil_ok (i : ℕ) (q : QPointF ℝ) (others : List (ℕ × QPointF ℝ))
    (r : List (Sector ℝ)) (h : Scatterplot.countPoints i q others [] = .ok r) :
    ∀ o ∈ others, ¬ counted i q o := by
  induction others with
  | nil => intro o ho; cases ho
  | cons o rest ih =>
    rw [Scatterplot.countPoints] at h
    by_cases hc : counted i q o
    · exfalso
      unfold Scatterplot.countStep at h
      simp only [if_neg hc.1, if_neg hc.2, List.getElem?_nil] at h
      cases h
    · rw [countStep_skip i q [] o hc] at h
      intro o' ho'
      rcases List.mem_cons.mp ho' with rfl | hmem
      · exact hc
      · exact ih h o' hmem

/-- The body of the outer loop of `compute` returns for an interior position when
there is at least one sector, or when no other point is counted. -/
theorem computePoint_total_gen (positions : List (QPointF ℝ)) (i : ℕ) (pt : Point)
    (hx : -1 < pt.position.x) (hx' : pt.position.x < 1)
    (hy : -1 < pt.position.y) (hy' : pt.position.y < 1)
    (h : 1 ≤ pt.sectors.length ∨ ∀ o ∈ positions.enum, ¬ counted i pt.position o) :
    ∃ p', Scatterplot.computePoint positions i pt = .ok p' := by
  obtain ⟨sectors0, h0, hlen⟩ := computeSectors_total pt.position pt.sectors.length hx hx' hy hy'
  have h1 : ∃ sectors1, Scatterplot.countPoints i pt.position positions.enum sectors0
      = .ok sectors1 := by
    rcases h with hK | hnone
    · obtain ⟨sectors1, h1, _, _⟩ := countPoints_spec i pt.position positions.enum sectors0
        (by rw [hlen]; omega)
      exact ⟨sectors1, h1⟩
    · exact ⟨sectors0, countPoints_skip_all i pt.position positions.enum sectors0 hnone⟩
  obtain ⟨sectors1, h1⟩ := h1
  unfold Scatterplot.computePoint
  rw [h0]
  simp only [h1]
  exact ⟨_, rfl⟩

/-- The constructor returns for positions strictly inside the square when there
is at least one sector, or when the comparison `==` equates all positions. -/
theorem make_total_gen (points : List (QPointF ℝ)) (K : ℕ)
    (hin : ∀ q ∈ points, -1 < q.x ∧ q.x < 1 ∧ -1 < q.y ∧ q.y < 1)
    (h : 1 ≤ K ∨ ∀ a ∈ points, ∀ b ∈ points, QPointF.operatorEq a b) :
    ∃ s, Scatterplot.make points K = .ok s := by
  unfold Scatterplot.make
  apply compute_total
  intro i pt hi
  simp only [List.getElem?_map] at hi
  cases hq : points[i]? with
  | none => rw [hq] at hi; simp at hi
  | some q =>
    rw [hq] at hi
    simp only [Option.map_some', Option.some.injEq] at hi
    subst hi
    obtain ⟨h1, h2, h3, h4⟩ := hin q (List.getElem?_mem hq)
    rw [make_positions]
    apply computePoint_total_gen _ i _ h1 h2 h3 h4
    rcases h with hK | hall
    · left; simp [Scatterplot.freshPoint]; exact hK
    · right
      intro o ho hc
      have hmem : o.2 ∈ points := mem_of_mem_enum points o ho
      exact hc.2 (hall o.2 hmem q (List.getElem?_mem hq))

/-- In a layout constructed with zero sectors the comparison `==` equates all
positions and every total deformation is the empty sum. -/
theorem make_zero_sectors (points : List (QPointF ℝ)) (s : Scatterplot)
    (hs : Scatterplot.make points 0 = .ok s) :
    (∀ a ∈ s._points, ∀ b ∈ s._points, QPointF.operatorEq b.position a.position) ∧
      ∀ p ∈ s._points, p.deformation_total = (0 : QPointF ℝ) + 0 := by
  obtain ⟨hlen, hget⟩ := make_ok points 0 s hs
  have hpos := make_position_eq points 0 s hs
  have hpt : ∀ (i : ℕ) (p : Point), s._points[i]? = some p →
      ∃ q, points[i]? = some q ∧
        Scatterplot.computePoint points i (Scatterplot.freshPoint q 0) = .ok p := by
    intro i p hp
    have hi : i < points.length := by
      have := (List.getElem?_eq_some.mp hp).1
      omega
    obtain ⟨q, hq⟩ := getElem?_exists points i hi
    obtain ⟨p', hp', hc⟩ := hget i q hq
    rw [hp] at hp'
    cases hp'
    exact ⟨q, hq, hc⟩
  constructor
  · intro a ha b hb
    obtain ⟨i, hi⟩ := List.getElem?_of_mem ha
    obtain ⟨j, hj⟩ := List.getElem?_of_mem hb
    obtain ⟨qa, hqa, hca⟩ := hpt i a hi
    obtain ⟨qb, hqb, hcb⟩ := hpt j b hj
    obtain ⟨s0, s1, h0, h1, hpa, _⟩ := computePoint_ok _ _ _ _ hca
    obtain ⟨_, _, _, _, hpb, _⟩ := computePoint_ok _ _ _ _ hcb
    rw [hpa, hpb]
    show QPointF.operatorEq qb qa
    by_cases hij : i = j
    · subst hij
      rw [hqa] at hqb
      rw [Option.some.inj hqb]
      exact operatorEq_refl qb
    · have hl0 := (computeSectors_fresh _ _ _ h0).1
      have hnil : s0 = [] := List.eq_nil_of_length_eq_zero (by
        rw [hl0]; simp [Scatterplot.freshPoint])
      rw [hnil] at h1
      have hno := countPoints_nil_ok i _ _ _ h1 (j, qb) (by
        apply List.getElem?_mem (n := j)
        rw [List.getElem?_enum, hqb]; rfl)
      by_contra hne
      exact hno ⟨hij, hne⟩
  · intro p hp
    obtain ⟨i, hi⟩ := List.getElem?_of_mem hp
    obtain ⟨q, hq, hc⟩ := hpt i p hi
    obtain ⟨s0, s1, h0, h1, _, hsec, hd, hu, _, ht⟩ := computePoint_ok _ _ _ _ hc
    have hl := make_sectors_length points 0 s hs p hp
    have hnil : p.sectors = [] := List.eq_nil_of_length_eq_zero hl
    rw [ht, hd, hu, hnil]
    rfl

/-- C6: for every analysed layout with at least one point, `regularize` produces
a layout in which the position of every point `i` is
`clamp(position[i] + 0.85 * total[i])`, both taken from the prior layout. -/
theorem regularize_positions (points : List (QPointF ℝ)) (K : ℕ) (s : Scatterplot)
    (hs : Scatterplot.make points K = .ok s) (hne : points ≠ []) :
    ∃ s', s.regularize = .ok s' ∧
      (s'._points.map fun p => p.position)
        = s._points.map fun p => clamp (p.position + (0.85 : ℝ) * p.deformation_total) := by
  have hlen := (make_ok points K s hs).1
  obtain ⟨p0, rest, hp⟩ : ∃ p0 rest, s._points = p0 :: rest := by
    cases h : s._points with
    | nil =>
      rw [h] at hlen
      exact absurd (List.length_eq_zero.mp hlen.symm) hne
    | cons p0 rest => exact ⟨p0, rest, rfl⟩
  have hK0 : p0.sectors.length = K := make_sectors_length points K s hs p0 (by rw [hp]; simp)
  have htot : ∃ s', Scatterplot.make (s._points.map fun p =>
      clamp (p.position + (0.85 : ℝ) * p.deformation_total)) K = .ok s' := by
    apply make_total_gen
    · intro q hq
      obtain ⟨p, _, rfl⟩ := List.mem_map.mp hq
      exact clamp_interior _
    · rcases Nat.eq_zero_or_pos K with h0 | h0
      · right
        subst h0
        obtain ⟨hall, hzero⟩ := make_zero_sectors points s hs
        intro a ha b hb
        obtain ⟨pa, hpa, rfl⟩ := List.mem_map.mp ha
        obtain ⟨pb, hpb, rfl⟩ := List.mem_map.mp hb
        rw [hzero pa hpa, hzero pb hpb]
        have e : ∀ q : QPointF ℝ, q + (0.85 : ℝ) * ((0 : QPointF ℝ) + 0) = q := by
          intro q
          apply QPointF.ext <;> simp
        rw [e, e]
        exact operatorEq_clamp _ _ (hall pb hpb pa hpa)
      · left; exact h0
  obtain ⟨s', hs'⟩ := htot
  refine ⟨s', ?_, make_position_eq _ _ _ hs'⟩
  unfold Scatterplot.regularize
  rw [hp] at hs' ⊢
  simp only [hK0]
  exact hs'

theorem regularize_positions_witness :
    ∃ s s', Scatterplot.make exampleSeeds 4 = .ok s ∧ s.regularize = .ok s' ∧
      (s'._points.map fun p => p.position)
        = s._points.map fun p => clamp (p.position + (0.85 : ℝ) * p.deformation_total) := by
  obtain ⟨s, hs⟩ := make_total exampleSeeds 4 (by norm_num) exampleSeeds_interior
  obtain ⟨s', h1, h2⟩ := regularize_positions exampleSeeds 4 s hs exampleSeeds_ne
  exact ⟨s, s', hs, h1, h2⟩

/-! ### Total deformation -/

/-- Every point of a constructed layout is the result of the loop body of
`compute` for its index. -/
theorem make_point (points : List (QPointF ℝ)) (K : ℕ) (s : Scatterplot)
    (hs : Scatterplot.make points K = .ok s) (p : Point) (hp : p ∈ s._points) :
    ∃ (i : ℕ) (q : QPointF ℝ), points[i]? = some q ∧ s._points[i]? = some p ∧
      Scatterplot.computePoint points i (Scatterplot.freshPoint q K) = .ok p := by
  obtain ⟨hlen, hget⟩ := make_ok points K s hs
  obtain ⟨i, hi⟩ := List.getElem?_of_mem hp
  have hlt : i < points.length := by
    have := (List.getElem?_eq_some.mp hi).1
    omega
  obtain ⟨q, hq⟩ := getElem?_exists points i hlt
  obtain ⟨p', hp', hc⟩ := hget i q hq
  rw [hi] at hp'
  cases hp'
  exact ⟨i, q, hq, hi, hc⟩

theorem foldl_add_eq_sumPoints {α : Type} (g : α → QPointF ℝ) (l : List α) (a : QPointF ℝ) :
    l.foldl (fun acc s => acc + g s) a = a + sumPoints (l.map g) := by
  induction l generalizing a with
  | nil =>
    apply QPointF.ext <;> simp [sumPoints]
  | cons b rest ih =>
    rw [List.foldl_cons, ih]
    apply QPointF.ext
    · simp only [sumPoints, QPointF.add_x, List.map_cons, List.sum_cons, List.map_map]
      ring
    · simp only [sumPoints, QPointF.add_y, List.map_cons, List.sum_cons, List.map_map]
      ring

theorem zero_add_point (a : QPointF ℝ) : (0 : QPointF ℝ) + a = a := by
  apply QPointF.ext <;> simp

/-- The total deformation computed by the loop body of `compute` is the total of
the specification on the sectors it stores. -/
theorem computePoint_total_formula (positions : List (QPointF ℝ)) (i : ℕ) (pt p : Point)
    (h : Scatterplot.computePoint positions i pt = .ok p) :
    p.deformation_total = deformationTotal positions.length p.sectors := by
  obtain ⟨s0, s1, _, _, _, hsec, hd, hu, _, ht⟩ := computePoint_ok positions i pt p h
  rw [ht, hd, hu, foldl_add_eq_sumPoints, foldl_add_eq_sumPoints, zero_add_point,
    zero_add_point, hsec]
  unfold deformationTotal
  simp only [List.map_map]
  congr 2
  apply List.map_congr_left
  intro S _
  show (-S.area / total_area) * S.anchor = (-(S.area / 4)) * S.anchor
  rw [neg_div]
  rfl

/-- C11: for every point of an analysed layout of `N` points, the total
deformation is the sum over its sectors of `(points_count / N) * anchor` plus the
sum over its sectors of `-(area / 4) * anchor`; the boundary term is not part of
it, and replacing the lengths of the sectors by any other values leaves this
total unchanged. -/
theorem total_deformation_formula (points : List (QPointF ℝ)) (K : ℕ) (s : Scatterplot)
    (hs : Scatterplot.make points K = .ok s) (p : Point) (hp : p ∈ s._points) :
    p.deformation_total
        = sumPoints (p.sectors.map fun S => (S.points_count / (points.length : ℝ)) * S.anchor)
          + sumPoints (p.sectors.map fun S => (-(S.area / 4)) * S.anchor) ∧
      ∀ f : Sector ℝ → ℝ,
        deformationTotal points.length (p.sectors.map fun S => { S with length := f S })
          = p.deformation_total := by
  obtain ⟨i, q, _, _, hc⟩ := make_point points K s hs p hp
  have h := computePoint_total_formula points i _ p hc
  refine ⟨h, fun f => ?_⟩
  rw [h]
  unfold deformationTotal
  simp only [List.map_map]
  rfl

theorem total_deformation_formula_witness :
    ∃ s, Scatterplot.make exampleSeeds 4 = .ok s ∧ ∀ p ∈ s._points,
      p.deformation_total
        = sumPoints (p.sectors.map fun S =>
            (S.points_count / (exampleSeeds.length : ℝ)) * S.anchor)
          + sumPoints (p.sectors.map fun S => (-(S.area / 4)) * S.anchor) := by
  obtain ⟨s, hs⟩ := make_total exampleSeeds 4 (by norm_num) exampleSeeds_interior
  exact ⟨s, hs, fun p hp => (total_deformation_formula exampleSeeds 4 s hs p hp).1⟩

/-! ### Sector counts below four and empty seed lists -/

/-- The constructor on an empty list of positions returns the empty layout. -/
theorem make_nil (K : ℕ) : Scatterplot.make [] K = .ok ⟨[]⟩ := rfl

/-- Every later iteration of the cache-cold computation on an empty seed list
stops at the access `_points[0]` of `regularize`. -/
theorem layoutAt_nil_succ (K n : ℕ) : layoutAt [] K (n + 1) = .error .outOfRange := by
  apply layoutAt_error_mono [] K 1 _ _ (n + 1) (by omega)
  simp only [layoutAt, make_nil]
  rfl

/-- C13 (as stated) fails at iteration 0: with no seeds and sector count 4 the
call `scatterplot(4, 0)` on the empty cache is not rejected; it returns the layout
without points. -/
theorem empty_seeds_counterexample :
    (4 : ℕ) ≥ 4 ∧ ∃ c', ScatterplotWidget.scatterplot [] (fun _ => []) 4 0 = .ok (c', ⟨[]⟩) :=
  ⟨le_refl 4, scatterplot_total [] _ 4 0 Reachable.empty ⟨[]⟩ (make_nil 4)⟩

/-- C13 (amended): on an empty seed list the request for iteration 0 is not
rejected; for every sector count `K ≥ 4`, `scatterplot(K, 0)` returns the layout
without points. -/
theorem empty_seeds_layout_zero (c : Cache) (K : ℕ) (hc : Reachable [] c) (_hK : 4 ≤ K) :
    ∃ c', ScatterplotWidget.scatterplot [] c K 0 = .ok (c', ⟨[]⟩) :=
  scatterplot_total [] c K 0 hc ⟨[]⟩ (make_nil K)

theorem empty_seeds_layout_zero_witness :
    ∃ c', ScatterplotWidget.scatterplot [] (fun _ => []) 16 0 = .ok (c', ⟨[]⟩) :=
  empty_seeds_layout_zero _ 16 Reachable.empty (by norm_num)

/-! ### Centre point and anchor of a sector -/

section
variable {F : Type} [LinearOrderedField F]

/-- A point reached from `(x, y)` along `(c, s)` at the positive parameter of an
exit through the vertical edge `x = e`. -/
theorem exit_vertical (x y c s e : F) (p : QPointF F) (he : e = 1 ∨ e = -1)
    (hpos : 0 < (e - x) * c) (hpx : p.x = e) (h1 : -1 ≤ p.y) (h2 : p.y ≤ 1)
    (hk : (p.y - y) * c = s * (e - x)) :
    max |p.x| |p.y| = 1 ∧ ∃ t, 0 < t ∧ p.x = x + t * c ∧ p.y = y + t * s := by
  have hc : c ≠ 0 := by
    intro h0; rw [h0, mul_zero] at hpos; exact lt_irrefl _ hpos
  have hc2 : 0 < c ^ 2 := by positivity
  constructor
  · have hx1 : |p.x| = 1 := by
      rw [hpx]; rcases he with h | h <;> rw [h] <;> simp
    rw [hx1]
    exact max_eq_left (abs_le.mpr ⟨h1, h2⟩)
  · refine ⟨(e - x) / c, ?_, ?_, ?_⟩
    · have : (e - x) / c = (e - x) * c / c ^ 2 := by field_simp; ring
      rw [this]; exact div_pos hpos hc2
    · rw [hpx]; field_simp
    · have : p.y - y = (e - x) / c * s := by
        field_simp; linear_combination hk
      linarith

/-- A point reached from `(x, y)` along `(c, s)` at the positive parameter of an
exit through the horizontal edge `y = e`. -/
theorem exit_horizontal (x y c s e : F) (p : QPointF F) (he : e = 1 ∨ e = -1)
    (hpos : 0 < (e - y) * s) (hpy : p.y = e) (h1 : -1 ≤ p.x) (h2 : p.x ≤ 1)
    (hk : (p.x - x) * s = c * (e - y)) :
    max |p.x| |p.y| = 1 ∧ ∃ t, 0 < t ∧ p.x = x + t * c ∧ p.y = y + t * s := by
  have hs : s ≠ 0 := by
    intro h0; rw [h0, mul_zero] at hpos; exact lt_irrefl _ hpos
  have hs2 : 0 < s ^ 2 := by positivity
  constructor
  · have hy1 : |p.y| = 1 := by
      rw [hpy]; rcases he with h | h <;> rw [h] <;> simp
    rw [hy1]
    exact max_eq_right (abs_le.mpr ⟨h1, h2⟩)
  · refine ⟨(e - y) / s, ?_, ?_, ?_⟩
    · have : (e - y) / s = (e - y) * s / s ^ 2 := by field_simp; ring
      rw [this]; exact div_pos hpos hs2
    · have : p.x - x = (e - y) / s * c := by
        field_simp; linear_combination hk
      linarith
    · rw [hpy]; field_simp

/-- The point found by a chain of edge tests for a unit ray from an interior
point lies on the boundary of the square, at a positive parameter of the ray. -/
theorem firstHit_spec (x y c s : F) (p : QPointF F) (hx : -1 < x) (hx' : x < 1)
    (hy : -1 < y) (hy' : y < 1) (hu : c ^ 2 + s ^ 2 = 1)
    (h : firstHit (rayOf x y c s) = some p) :
    max |p.x| |p.y| = 1 ∧ ∃ t, 0 < t ∧ p.x = x + t * c ∧ p.y = y + t * s := by
  unfold firstHit at h
  cases hl : boundedHit (rayOf x y c s) left with
  | some q =>
    rw [hl] at h
    cases h
    obtain ⟨h1, h2, h3, h4, h5⟩ := (hit_left_iff x y c s p hx hx' hy hy' hu).mp hl
    exact exit_vertical x y c s (-1) p (Or.inr rfl)
      (by nlinarith [mul_pos (by linarith : (0:F) < 1 + x) (neg_pos.mpr h1)]) h2 h3 h4 h5
  | none =>
    rw [hl] at h
    cases ht : boundedHit (rayOf x y c s) top with
    | some q =>
      rw [ht] at h
      cases h
      obtain ⟨h1, h2, h3, h4, h5⟩ := (hit_top_iff x y c s p hx hx' hy hy' hu).mp ht
      exact exit_horizontal x y c s 1 p (Or.inl rfl) (mul_pos (by linarith) h1) h2 h3 h4 h5
    | none =>
      rw [ht] at h
      cases hr : boundedHit (rayOf x y c s) right with
      | some q =>
        rw [hr] at h
        cases h
        obtain ⟨h1, h2, h3, h4, h5⟩ := (hit_right_iff x y c s p hx hx' hy hy' hu).mp hr
        exact exit_vertical x y c s 1 p (Or.inl rfl) (mul_pos (by linarith) h1) h2 h3 h4 h5
      | none =>
        rw [hr] at h
        simp only at h
        obtain ⟨h1, h2, h3, h4, h5⟩ := (hit_bottom_iff x y c s p hx hx' hy hy' hu).mp h
        exact exit_horizontal x y c s (-1) p (Or.inr rfl)
          (by nlinarith [mul_pos (by linarith : (0:F) < 1 + y) (neg_pos.mpr h1)]) h2 h3 h4 h5

/-- A point strictly between an interior point and a point of the square, on
the segment that joins them, is strictly inside in that coordinate. -/
theorem between_lt (x X c t t' : F) (hx : -1 < x) (hx' : x < 1) (hX : -1 ≤ X) (hX' : X ≤ 1)
    (h0 : 0 < t) (ht : t < t') (hXc : X = x + t' * c) :
    -1 < x + t * c ∧ x + t * c < 1 := by
  have ht' : 0 < t' := lt_trans h0 ht
  have e : t' * (x + t * c) = (t' - t) * x + t * X := by rw [hXc]; ring
  have a1 : (t' - t) * x < (t' - t) * 1 := mul_lt_mul_of_pos_left hx' (by linarith)
  have a2 : (t' - t) * (-1) < (t' - t) * x := mul_lt_mul_of_pos_left hx (by linarith)
  have b1 : t * X ≤ t * 1 := mul_le_mul_of_nonneg_left hX' (le_of_lt h0)
  have b2 : t * (-1) ≤ t * X := mul_le_mul_of_nonneg_left hX (le_of_lt h0)
  constructor
  · by_contra hneg
    push_neg at hneg
    have := mul_le_mul_of_nonneg_left hneg (le_of_lt ht')
    linarith
  · by_contra hneg
    push_neg at hneg
    have := mul_le_mul_of_nonneg_left hneg (le_of_lt ht')
    linarith

/-- The exit point of a unit ray from an interior point is the only point of the
boundary on the ray: a boundary point at a positive parameter is the point that
the chain of edge tests finds. -/
theorem firstHit_unique (x y c s : F) (q : QPointF F) (t : F) (hx : -1 < x) (hx' : x < 1)
    (hy : -1 < y) (hy' : y < 1) (hu : c ^ 2 + s ^ 2 = 1)
    (hq : max |q.x| |q.y| = 1) (ht : 0 < t) (hqx : q.x = x + t * c) (hqy : q.y = y + t * s) :
    firstHit (rayOf x y c s) = some q := by
  obtain ⟨p, hp⟩ := firstHit_some x y c s hx hx' hy hy' hu
  obtain ⟨hpb, t', ht', hpx, hpy⟩ := firstHit_spec x y c s p hx hx' hy hy' hu hp
  have hpx1 : |p.x| ≤ 1 := by rw [← hpb]; exact le_max_left _ _
  have hpy1 : |p.y| ≤ 1 := by rw [← hpb]; exact le_max_right _ _
  have hqx1 : |q.x| ≤ 1 := by rw [← hq]; exact le_max_left _ _
  have hqy1 : |q.y| ≤ 1 := by rw [← hq]; exact le_max_right _ _
  have heq : t = t' := by
    rcases lt_trichotomy t t' with hlt | heq | hgt
    · exfalso
      have bx := between_lt x p.x c t t' hx hx' (abs_le.mp hpx1).1 (abs_le.mp hpx1).2 ht hlt hpx
      have by' := between_lt y p.y s t t' hy hy' (abs_le.mp hpy1).1 (abs_le.mp hpy1).2 ht hlt hpy
      rw [← hqx] at bx
      rw [← hqy] at by'
      have : max |q.x| |q.y| < 1 := max_lt (abs_lt.mpr bx) (abs_lt.mpr by')
      rw [hq] at this
      exact lt_irrefl _ this
    · exact heq
    · exfalso
      have bx := between_lt x q.x c t' t hx hx' (abs_le.mp hqx1).1 (abs_le.mp hqx1).2 ht' hgt hqx
      have by' := between_lt y q.y s t' t hy hy' (abs_le.mp hqy1).1 (abs_le.mp hqy1).2 ht' hgt hqy
      rw [← hpx] at bx
      rw [← hpy] at by'
      have : max |p.x| |p.y| < 1 := max_lt (abs_lt.mpr bx) (abs_lt.mpr by')
      rw [hpb] at this
      exact lt_irrefl _ this
  rw [hp]
  congr 1
  apply QPointF.ext
  · rw [hpx, hqx, heq]
  · rw [hpy, hqy, heq]

/-- The centre point and the anchor of a returned sector are the points found by
the chains of edge tests of the centre line and of the anchor line. -/
theorem sectorBody_center_anchor (P : QPointF F) (bl cl al el : QLineF F) (S : Sector F)
    (h : sectorBody P bl cl al el = .ok S) :
    firstHit cl = some S.intersection_center ∧ firstHit al = some S.anchor := by
  unfold sectorBody at h
  repeat' split at h
  all_goals first
    | (cases h; done)
    | (cases h; exact ⟨by assumption, by assumption⟩)

end

/-- The anchor line of `sector` is the unit ray in the direction opposite to the
centre direction. -/
theorem anchor_line_eq (x y θ : ℝ) :
    (⟨⟨x, y⟩, (⟨x, y⟩ : QPointF ℝ) - (10 : ℝ) * (⟨Real.cos θ, Real.sin θ⟩ : QPointF ℝ)⟩ : QLineF ℝ)
      = rayOf x y (-Real.cos θ) (-Real.sin θ) := by
  unfold rayOf
  congr 1
  apply QPointF.ext
  · show x - 10 * Real.cos θ = x + 10 * -Real.cos θ; ring
  · show y - 10 * Real.sin θ = y + 10 * -Real.sin θ; ring

/-- Centre point and anchor of a sector returned by `sector`. -/
theorem sector_center_anchor (x y θ1 θ2 : ℝ) (S : Sector ℝ)
    (h : SquareDomain.sector ⟨x, y⟩ θ1 θ2 = .ok S) :
    firstHit (rayOf x y (Real.cos ((θ1 + θ2) / 2)) (Real.sin ((θ1 + θ2) / 2)))
        = some S.intersection_center ∧
      firstHit (rayOf x y (-Real.cos ((θ1 + θ2) / 2)) (-Real.sin ((θ1 + θ2) / 2)))
        = some S.anchor := by
  have := sectorBody_center_anchor _ _ _ _ _ S h
  rw [anchor_line_eq] at this
  exact this

/-- C17: for a position strictly inside the square, the anchor of a sector
returned by `sector` lies on the boundary of the square and is
`position + t * (cos(θc + π), sin(θc + π))` for some `t > 0`, with `θc` the centre
angle; the centre point is `position + u * (cos θc, sin θc)` for some `u > 0`, and
the position lies on the segment from the anchor to the centre point. -/
theorem anchor_on_boundary_opposite (position : QPointF ℝ) (radian_begin radian_end : ℝ)
    (S : Sector ℝ)
    (hx : -1 < position.x) (hx' : position.x < 1) (hy : -1 < position.y) (hy' : position.y < 1)
    (h : SquareDomain.sector position radian_begin radian_end = .ok S) :
    max |S.anchor.x| |S.anchor.y| = 1 ∧
      (∃ t : ℝ, 0 < t ∧ S.anchor = position + t *
        (⟨Real.cos ((radian_begin + radian_end) / 2 + Real.pi),
          Real.sin ((radian_begin + radian_end) / 2 + Real.pi)⟩ : QPointF ℝ)) ∧
      (∃ u : ℝ, 0 < u ∧ S.intersection_center = position + u *
        (⟨Real.cos ((radian_begin + radian_end) / 2),
          Real.sin ((radian_begin + radian_end) / 2)⟩ : QPointF ℝ)) ∧
      ∃ r : ℝ, 0 ≤ r ∧ r ≤ 1 ∧
        position = S.anchor + r * (S.intersection_center - S.anchor) := by
  obtain ⟨x, y⟩ := position
  simp only at hx hx' hy hy'
  obtain ⟨hc, ha⟩ := sector_center_anchor x y radian_begin radian_end S h
  have hu := Real.cos_sq_add_sin_sq ((radian_begin + radian_end) / 2)
  obtain ⟨_, u, hu0, hcx, hcy⟩ := firstHit_spec x y _ _ _ hx hx' hy hy' hu hc
  obtain ⟨hb, t, ht0, hax, hay⟩ := firstHit_spec x y _ _ _ hx hx' hy hy'
    (by rw [neg_sq, neg_sq]; exact hu) ha
  refine ⟨hb, ⟨t, ht0, ?_⟩, ⟨u, hu0, ?_⟩, ⟨t / (t + u), by positivity, ?_, ?_⟩⟩
  · rw [Real.cos_add_pi, Real.sin_add_pi]
    apply QPointF.ext
    · exact hax
    · exact hay
  · apply QPointF.ext
    · exact hcx
    · exact hcy
  · rw [div_le_one (by linarith)]; linarith
  · have htu : t + u ≠ 0 := by linarith
    apply QPointF.ext
    · show x = S.anchor.x + t / (t + u) * (S.intersection_center.x - S.anchor.x)
      rw [hax, hcx]; field_simp; ring
    · show y = S.anchor.y + t / (t + u) * (S.intersection_center.y - S.anchor.y)
      rw [hay, hcy]; field_simp; ring

theorem anchor_on_boundary_opposite_witness :
    ∃ S, SquareDomain.sector ⟨1 / 2, 1 / 4⟩ ((0 : ℕ) * (2 * Real.pi / (4 : ℕ)))
        (((0 : ℕ) + 1) * (2 * Real.pi / (4 : ℕ))) = .ok S ∧
      max |S.anchor.x| |S.anchor.y| = 1 := by
  obtain ⟨ib, ic, ie, an, h⟩ := sector_index (1 / 2) (1 / 4) 4 0 (by norm_num) (by norm_num)
    (by norm_num) (by norm_num) (by norm_num) (by norm_num)
  exact ⟨_, h, (anchor_on_boundary_opposite ⟨1 / 2, 1 / 4⟩ _ _ _ (by norm_num) (by norm_num)
    (by norm_num) (by norm_num) h).1⟩

/-! ### Bounds on area and length -/

section
variable {F : Type} [LinearOrderedField F]

theorem compute_area_nonneg (a b c : QPointF F) : 0 ≤ compute_area a b c := by
  unfold compute_area
  exact mul_nonneg (by norm_num) (abs_nonneg _)

/-- The area of a returned sector is a sum of triangle areas. -/
theorem sectorBody_area_nonneg (P : QPointF F) (bl cl al el : QLineF F) (S : Sector F)
    (h : sectorBody P bl cl al el = .ok S) : 0 ≤ S.area := by
  unfold sectorBody at h
  repeat' split at h
  all_goals first
    | (cases h; done)
    | (cases h; exact compute_area_nonneg _ _ _)
    | (cases h; exact add_nonneg (compute_area_nonneg _ _ _) (compute_area_nonneg _ _ _))
    | (cases h; exact add_nonneg (add_nonneg (compute_area_nonneg _ _ _)
        (compute_area_nonneg _ _ _)) (compute_area_nonneg _ _ _))

/-- The boundary length of a returned sector is not negative when the end
direction is at most a half turn counter-clockwise from the begin direction. -/
theorem sectorBody_length_nonneg (x y c1 s1 c2 s2 : F) (cl al : QLineF F) (S : Sector F)
    (hx : -1 < x) (hx' : x < 1) (hy : -1 < y) (hy' : y < 1)
    (hu1 : c1 ^ 2 + s1 ^ 2 = 1) (hu2 : c2 ^ 2 + s2 ^ 2 = 1)
    (hcross : 0 ≤ c1 * s2 - s1 * c2)
    (h : sectorBody ⟨x, y⟩ (rayOf x y c1 s1) cl al (rayOf x y c2 s2) = .ok S) :
    0 ≤ S.length := by
  unfold sectorBody at h
  repeat' split at h
  all_goals first
    | (cases h; done)
    | (cases h
       try (have hbL := (hit_left_iff x y c1 s1 _ hx hx' hy hy' hu1).mp (by assumption)
            obtain ⟨bL1, bL2, bL3, bL4, bL5⟩ := hbL)
       try (have hbT := (hit_top_iff x y c1 s1 _ hx hx' hy hy' hu1).mp (by assumption)
            obtain ⟨bT1, bT2, bT3, bT4, bT5⟩ := hbT)
       try (have hbR := (hit_right_iff x y c1 s1 _ hx hx' hy hy' hu1).mp (by assumption)
            obtain ⟨bR1, bR2, bR3, bR4, bR5⟩ := hbR)
       try (have hbB := (hit_bottom_iff x y c1 s1 _ hx hx' hy hy' hu1).mp (by assumption)
            obtain ⟨bB1, bB2, bB3, bB4, bB5⟩ := hbB)
       try (have heL := (hit_left_iff x y c2 s2 _ hx hx' hy hy' hu2).mp (by assumption)
            obtain ⟨eL1, eL2, eL3, eL4, eL5⟩ := heL)
       try (have heT := (hit_top_iff x y c2 s2 _ hx hx' hy hy' hu2).mp (by assumption)
            obtain ⟨eT1, eT2, eT3, eT4, eT5⟩ := heT)
       try (have heR := (hit_right_iff x y c2 s2 _ hx hx' hy hy' hu2).mp (by assumption)
            obtain ⟨eR1, eR2, eR3, eR4, eR5⟩ := heR)
       try (have heB := (hit_bottom_iff x y c2 s2 _ hx hx' hy hy' hu2).mp (by assumption)
            obtain ⟨eB1, eB2, eB3, eB4, eB5⟩ := heB)
       simp only [mkSector, bottomleft, bottomright, topleft, topright]
       first
       | linarith
       | (have ov := order_vert x y (-1) c1 s1 c2 s2 _ _ (by linarith) (by linarith)
            (by linarith) bL5 eL5 hcross
          linarith)
       | (have ov := order_vert x y 1 c1 s1 c2 s2 _ _ (by linarith) (by linarith)
            (by linarith) bR5 eR5 hcross
          linarith)
       | (have oh := order_horiz x y 1 c1 s1 c2 s2 _ _ (by linarith) (by linarith)
            (by linarith) bT5 eT5 hcross
          linarith)
       | (have oh := order_horiz x y (-1) c1 s1 c2 s2 _ _ (by linarith) (by linarith)
            (by linarith) bB5 eB5 hcross
          linarith))

end

theorem le_of_steps (f : ℕ → ℝ) (K : ℕ) (h : ∀ j, j < K → f j ≤ f (j + 1)) :
    ∀ a b, a ≤ b → b ≤ K → f a ≤ f b := by
  intro a b hab
  induction b with
  | zero =>
    intro _
    have : a = 0 := by omega
    rw [this]
  | succ b ih =>
    intro hb
    rcases Nat.lt_or_ge a (b + 1) with hlt | hge
    · exact le_trans (ih (by omega) (by omega)) (h b (by omega))
    · have : a = b + 1 := by omega
      rw [this]

/-- C18: for every position strictly inside the square, every sector count
`K ≥ 4` and every `k < K`, `sector` returns for `[2πk/K, 2π(k+1)/K)` a sector with
`0 ≤ area ≤ 4` and `length ≥ 0`. -/
theorem sector_area_length_bounds (position : QPointF ℝ) (K k : ℕ)
    (hx : -1 < position.x) (hx' : position.x < 1) (hy : -1 < position.y) (hy' : position.y < 1)
    (hK : 4 ≤ K) (hk : k < K) :
    ∃ S, SquareDomain.sector position (2 * Real.pi * k / K) (2 * Real.pi * (k + 1) / K)
        = .ok S ∧ 0 ≤ S.area ∧ S.area ≤ 4 ∧ 0 ≤ S.length := by
  obtain ⟨x, y⟩ := position
  simp only at hx hx' hy hy'
  have e1 : 2 * Real.pi * (k : ℝ) / K = (k : ℝ) * (2 * Real.pi / K) := by ring
  have e2 : 2 * Real.pi * ((k : ℝ) + 1) / K = ((k : ℝ) + 1) * (2 * Real.pi / K) := by ring
  rw [e1, e2]
  have hstep : ∀ j, j < K → (cumAt x y K j).1 ≤ (cumAt x y K (j + 1)).1 := by
    intro j hj
    obtain ⟨ib, ic, ie, an, h⟩ := sector_index x y K j hx hx' hy hy' hK hj
    have := sectorBody_area_nonneg _ _ _ _ _ _ h
    simp only [mkSector] at this
    linarith
  obtain ⟨ib, ic, ie, an, h⟩ := sector_index x y K k hx hx' hy hy' hK hk
  have hmono := le_of_steps (fun j => (cumAt x y K j).1) K hstep
  have h0 := hmono 0 k (by omega) (by omega)
  have h1 := hmono (k + 1) K (by omega) (by omega)
  have htot := (cumAt_total x y K hx hx' hy hy' hK).1
  have hKr : (4 : ℝ) ≤ K := by exact_mod_cast hK
  have hKpos : (0 : ℝ) < K := by linarith
  have hw0 : 0 ≤ 2 * Real.pi / (K : ℝ) := by positivity
  have hw1 : 2 * Real.pi / (K : ℝ) ≤ Real.pi := by
    rw [div_le_iff₀ hKpos]
    nlinarith [Real.pi_pos]
  have hcross : 0 ≤ Real.cos ((k : ℝ) * (2 * Real.pi / K))
        * Real.sin (((k : ℝ) + 1) * (2 * Real.pi / K))
      - Real.sin ((k : ℝ) * (2 * Real.pi / K))
        * Real.cos (((k : ℝ) + 1) * (2 * Real.pi / K)) := by
    have hs := Real.sin_nonneg_of_nonneg_of_le_pi hw0 hw1
    have e : 2 * Real.pi / (K : ℝ)
        = ((k : ℝ) + 1) * (2 * Real.pi / K) - (k : ℝ) * (2 * Real.pi / K) := by ring
    rw [e, Real.sin_sub] at hs
    linarith
  have hlen := sectorBody_length_nonneg x y _ _ _ _ _ _ _ hx hx' hy hy'
    (Real.cos_sq_add_sin_sq _) (Real.cos_sq_add_sin_sq _) hcross h
  refine ⟨_, h, ?_, ?_, hlen⟩
  · simp only [mkSector]; simp only at h0 h1; linarith [hstep k hk]
  · simp only [mkSector]; simp only at h0 h1; linarith

theorem sector_area_length_bounds_witness :
    ∃ S, SquareDomain.sector ⟨0.99, -0.99⟩ (2 * Real.pi * (3 : ℕ) / (4 : ℕ))
        (2 * Real.pi * ((3 : ℕ) + 1) / (4 : ℕ)) = .ok S ∧
      0 ≤ S.area ∧ S.area ≤ 4 ∧ 0 ≤ S.length :=
  sector_area_length_bounds ⟨0.99, -0.99⟩ 4 3 (by norm_num) (by norm_num) (by norm_num)
    (by norm_num) (by norm_num) (by norm_num)

/-! ### A sector that runs through all four corners -/

theorem cos_eleven_pi_div_four : Real.cos (11 * Real.pi / 4) = -(√2 / 2) := by
  have e : 11 * Real.pi / 4 = Real.pi - Real.pi / 4 + 2 * Real.pi := by ring
  rw [e, Real.cos_add_two_pi, Real.cos_pi_sub, Real.cos_pi_div_four]

theorem sin_eleven_pi_div_four : Real.sin (11 * Real.pi / 4) = √2 / 2 := by
  have e : 11 * Real.pi / 4 = Real.pi - Real.pi / 4 + 2 * Real.pi := by ring
  rw [e, Real.sin_add_two_pi, Real.sin_pi_sub, Real.sin_pi_div_four]

section
variable {F : Type} [LinearOrderedField F]

/-- A bounded hit of a unit ray from an interior point with an edge is the exit
point that the chain of edge tests finds. -/
theorem hit_exit (x y c s : F) (q : QPointF F) (hx : -1 < x) (hx' : x < 1)
    (hy : -1 < y) (hy' : y < 1) (hu : c ^ 2 + s ^ 2 = 1)
    (h : boundedHit (rayOf x y c s) left = some q ∨ boundedHit (rayOf x y c s) top = some q ∨
      boundedHit (rayOf x y c s) right = some q ∨ boundedHit (rayOf x y c s) bottom = some q) :
    firstHit (rayOf x y c s) = some q := by
  have key : max |q.x| |q.y| = 1 ∧ ∃ t, 0 < t ∧ q.x = x + t * c ∧ q.y = y + t * s := by
    rcases h with h | h | h | h
    · obtain ⟨h1, h2, h3, h4, h5⟩ := (hit_left_iff x y c s q hx hx' hy hy' hu).mp h
      exact exit_vertical x y c s (-1) q (Or.inr rfl)
        (by nlinarith [mul_pos (by linarith : (0:F) < 1 + x) (neg_pos.mpr h1)]) h2 h3 h4 h5
    · obtain ⟨h1, h2, h3, h4, h5⟩ := (hit_top_iff x y c s q hx hx' hy hy' hu).mp h
      exact exit_horizontal x y c s 1 q (Or.inl rfl) (mul_pos (by linarith) h1) h2 h3 h4 h5
    · obtain ⟨h1, h2, h3, h4, h5⟩ := (hit_right_iff x y c s q hx hx' hy hy' hu).mp h
      exact exit_vertical x y c s 1 q (Or.inl rfl) (mul_pos (by linarith) h1) h2 h3 h4 h5
    · obtain ⟨h1, h2, h3, h4, h5⟩ := (hit_bottom_iff x y c s q hx hx' hy hy' hu).mp h
      exact exit_horizontal x y c s (-1) q (Or.inr rfl)
        (by nlinarith [mul_pos (by linarith : (0:F) < 1 + y) (neg_pos.mpr h1)]) h2 h3 h4 h5
  obtain ⟨hq, t, ht, hqx, hqy⟩ := key
  exact firstHit_unique x y c s q t hx hx' hy hy' hu hq ht hqx hqy

/-- The branches of `sector` for a begin ray that meets one edge only and an end
ray that meets only the edge three corners further counter-clockwise end in
`throw`. -/
theorem sectorBody_throws (P : QPointF F) (bl cl al el : QLineF F) (pb : QPointF F)
    (h : (boundedHit bl left = some pb ∧ boundedHit el left = none ∧
          boundedHit el bottom = none ∧ boundedHit el right = none) ∨
      (boundedHit bl left = none ∧ boundedHit bl top = some pb ∧ boundedHit el top = none ∧
          boundedHit el left = none ∧ boundedHit el bottom = none) ∨
      (boundedHit bl left = none ∧ boundedHit bl top = none ∧ boundedHit bl right = some pb ∧
          boundedHit el right = none ∧ boundedHit el top = none ∧ boundedHit el left = none) ∨
      (boundedHit bl left = none ∧ boundedHit bl top = none ∧ boundedHit bl right = none ∧
          boundedHit bl bottom = some pb ∧ boundedHit el bottom = none ∧
          boundedHit el right = none ∧ boundedHit el top = none)) :
    sectorBody P bl cl al el = .error .rethrow := by
  rcases h with ⟨h1, h2, h3, h4⟩ | ⟨h1, h2, h3, h4, h5⟩ | ⟨h1, h2, h3, h4, h5, h6⟩ |
    ⟨h1, h2, h3, h4, h5, h6, h7⟩
  · simp only [sectorBody, h1, h2, h3, h4]
    repeat' split
    all_goals rfl
  · simp only [sectorBody, h1, h2, h3, h4, h5]
    repeat' split
    all_goals rfl
  · simp only [sectorBody, h1, h2, h3, h4, h5, h6]
    repeat' split
    all_goals rfl
  · simp only [sectorBody, h1, h2, h3, h4, h5, h6, h7]
    repeat' split
    all_goals rfl

end

/-- The exit point of a unit ray from an interior point, when it is not a
corner, lies strictly inside one edge, and the ray has no bounded hit with the
other three edges. -/
theorem exit_edges (x y c s : ℝ) (p : QPointF ℝ) (hx : -1 < x) (hx' : x < 1)
    (hy : -1 < y) (hy' : y < 1) (hu : c ^ 2 + s ^ 2 = 1)
    (h : firstHit (rayOf x y c s) = some p) (hc : ¬ IsCorner p) :
    (boundedHit (rayOf x y c s) left = some p ∧ boundedHit (rayOf x y c s) top = none ∧
        boundedHit (rayOf x y c s) right = none ∧ boundedHit (rayOf x y c s) bottom = none ∧
        4 < arcOf p ∧ arcOf p < 6) ∨
      (boundedHit (rayOf x y c s) left = none ∧ boundedHit (rayOf x y c s) top = some p ∧
        boundedHit (rayOf x y c s) right = none ∧ boundedHit (rayOf x y c s) bottom = none ∧
        2 < arcOf p ∧ arcOf p < 4) ∨
      (boundedHit (rayOf x y c s) left = none ∧ boundedHit (rayOf x y c s) top = none ∧
        boundedHit (rayOf x y c s) right = some p ∧ boundedHit (rayOf x y c s) bottom = none ∧
        0 < arcOf p ∧ arcOf p < 2) ∨
      (boundedHit (rayOf x y c s) left = none ∧ boundedHit (rayOf x y c s) top = none ∧
        boundedHit (rayOf x y c s) right = none ∧ boundedHit (rayOf x y c s) bottom = some p ∧
        6 < arcOf p ∧ arcOf p < 8) := by
  have same : ∀ q, firstHit (rayOf x y c s) = some q → q = p := by
    intro q hq; rw [h] at hq; exact (Option.some.inj hq).symm
  have hL : ∀ q, boundedHit (rayOf x y c s) left = some q →
      q = p ∧ p.x = -1 ∧ -1 ≤ p.y ∧ p.y ≤ 1 := by
    intro q hq
    have e := same q (hit_exit x y c s q hx hx' hy hy' hu (Or.inl hq))
    obtain ⟨_, h2, h3, h4, _⟩ := (hit_left_iff x y c s q hx hx' hy hy' hu).mp hq
    rw [e] at h2 h3 h4
    exact ⟨e, h2, h3, h4⟩
  have hT : ∀ q, boundedHit (rayOf x y c s) top = some q →
      q = p ∧ p.y = 1 ∧ -1 ≤ p.x ∧ p.x ≤ 1 := by
    intro q hq
    have e := same q (hit_exit x y c s q hx hx' hy hy' hu (Or.inr (Or.inl hq)))
    obtain ⟨_, h2, h3, h4, _⟩ := (hit_top_iff x y c s q hx hx' hy hy' hu).mp hq
    rw [e] at h2 h3 h4
    exact ⟨e, h2, h3, h4⟩
  have hR : ∀ q, boundedHit (rayOf x y c s) right = some q →
      q = p ∧ p.x = 1 ∧ -1 ≤ p.y ∧ p.y ≤ 1 := by
    intro q hq
    have e := same q (hit_exit x y c s q hx hx' hy hy' hu (Or.inr (Or.inr (Or.inl hq))))
    obtain ⟨_, h2, h3, h4, _⟩ := (hit_right_iff x y c s q hx hx' hy hy' hu).mp hq
    rw [e] at h2 h3 h4
    exact ⟨e, h2, h3, h4⟩
  have hB : ∀ q, boundedHit (rayOf x y c s) bottom = some q →
      q = p ∧ p.y = -1 ∧ -1 ≤ p.x ∧ p.x ≤ 1 := by
    intro q hq
    have e := same q (hit_exit x y c s q hx hx' hy hy' hu (Or.inr (Or.inr (Or.inr hq))))
    obtain ⟨_, h2, h3, h4, _⟩ := (hit_bottom_iff x y c s q hx hx' hy hy' hu).mp hq
    rw [e] at h2 h3 h4
    exact ⟨e, h2, h3, h4⟩
  have corner : ∀ {P : Prop}, (p.x = 1 ∨ p.x = -1) → (p.y = 1 ∨ p.y = -1) → P := by
    intro P h1 h2
    exfalso
    apply hc
    constructor
    · rcases h1 with h1 | h1 <;> rw [h1] <;> simp
    · rcases h2 with h2 | h2 <;> rw [h2] <;> simp
  have some_hit : ¬ (boundedHit (rayOf x y c s) left = none ∧
      boundedHit (rayOf x y c s) top = none ∧ boundedHit (rayOf x y c s) right = none ∧
      boundedHit (rayOf x y c s) bottom = none) := by
    rintro ⟨h1, h2, h3, h4⟩
    unfold firstHit at h
    simp only [h1, h2, h3, h4] at h
    cases h
  cases hl : boundedHit (rayOf x y c s) left with
  | some ql =>
    obtain ⟨e, l1, l2, l3⟩ := hL ql hl
    cases ht : boundedHit (rayOf x y c s) top with
    | some qt => exact corner (Or.inr l1) (Or.inl (hT qt ht).2.1)
    | none =>
      cases hr : boundedHit (rayOf x y c s) right with
      | some qr => exfalso; have := (hR qr hr).2.1; linarith
      | none =>
        cases hb : boundedHit (rayOf x y c s) bottom with
        | some qb => exact corner (Or.inr l1) (Or.inr (hB qb hb).2.1)
        | none =>
          left
          have n1 : p.y ≠ 1 := fun h1 => corner (Or.inr l1) (Or.inl h1)
          have n2 : p.y ≠ -1 := fun h1 => corner (Or.inr l1) (Or.inr h1)
          have s1 : p.y < 1 := lt_of_le_of_ne l3 n1
          have s2 : -1 < p.y := lt_of_le_of_ne l2 (Ne.symm n2)
          have ea : arcOf p = 4 + (1 - p.y) := by
            unfold arcOf arcL
            rw [if_neg (by rw [l1]; norm_num), if_neg (by intro h'; exact n1 h'.1),
              if_pos ⟨l1, s2⟩]
          rw [e, ea]
          exact ⟨rfl, rfl, rfl, rfl, by linarith, by linarith⟩
  | none =>
    cases ht : boundedHit (rayOf x y c s) top with
    | some qt =>
      obtain ⟨e, l1, l2, l3⟩ := hT qt ht
      cases hr : boundedHit (rayOf x y c s) right with
      | some qr => exact corner (Or.inl (hR qr hr).2.1) (Or.inl l1)
      | none =>
        cases hb : boundedHit (rayOf x y c s) bottom with
        | some qb => exfalso; have := (hB qb hb).2.1; linarith
        | none =>
          right; left
          have n1 : p.x ≠ 1 := fun h1 => corner (Or.inl h1) (Or.inl l1)
          have n2 : p.x ≠ -1 := fun h1 => corner (Or.inr h1) (Or.inl l1)
          have s1 : p.x < 1 := lt_of_le_of_ne l3 n1
          have s2 : -1 < p.x := lt_of_le_of_ne l2 (Ne.symm n2)
          have ea : arcOf p = 2 + (1 - p.x) := by
            unfold arcOf arcT
            rw [if_neg (by intro h'; exact n1 h'.1), if_pos ⟨l1, s2⟩]
          rw [e, ea]
          exact ⟨rfl, rfl, rfl, rfl, by linarith, by linarith⟩
    | none =>
      cases hr : boundedHit (rayOf x y c s) right with
      | some qr =>
        obtain ⟨e, l1, l2, l3⟩ := hR qr hr
        cases hb : boundedHit (rayOf x y c s) bottom with
        | some qb => exact corner (Or.inl l1) (Or.inr (hB qb hb).2.1)
        | none =>
          right; right; left
          have n1 : p.y ≠ 1 := fun h1 => corner (Or.inl l1) (Or.inl h1)
          have n2 : p.y ≠ -1 := fun h1 => corner (Or.inl l1) (Or.inr h1)
          have s1 : p.y < 1 := lt_of_le_of_ne l3 n1
          have s2 : -1 < p.y := lt_of_le_of_ne l2 (Ne.symm n2)
          have ea : arcOf p = p.y + 1 := by
            unfold arcOf arcR
            rw [if_pos ⟨l1, s1⟩]
          rw [e, ea]
          exact ⟨rfl, rfl, rfl, rfl, by linarith, by linarith⟩
      | none =>
        cases hb : boundedHit (rayOf x y c s) bottom with
        | some qb =>
          obtain ⟨e, l1, l2, l3⟩ := hB qb hb
          right; right; right
          have n1 : p.x ≠ 1 := fun h1 => corner (Or.inl h1) (Or.inr l1)
          have n2 : p.x ≠ -1 := fun h1 => corner (Or.inr h1) (Or.inr l1)
          have s1 : p.x < 1 := lt_of_le_of_ne l3 n1
          have s2 : -1 < p.x := lt_of_le_of_ne l2 (Ne.symm n2)
          have ea : arcOf p = 6 + (p.x + 1) := by
            unfold arcOf arcB
            rw [if_neg (by intro h'; exact n1 h'.1), if_neg (by rw [l1]; norm_num),
              if_neg (by intro h'; exact n2 h'.1)]
          rw [e, ea]
          exact ⟨rfl, rfl, rfl, rfl, by linarith, by linarith⟩
        | none => exact absurd ⟨hl, ht, hr, hb⟩ some_hit

set_option maxHeartbeats 4000000 in
/-- The counter-clockwise path between two points strictly inside edges passes
three corners only if the edge of the second point comes just before the edge of
the first in counter-clockwise order: with `ca` and `cb` the boundary lengths of
the corners at which the two edges begin, `cb = ca - 2` up to a full turn. -/
theorem cornersPassed_three (a b ca cb : ℝ)
    (hca : ca = 0 ∨ ca = 2 ∨ ca = 4 ∨ ca = 6) (hcb : cb = 0 ∨ cb = 2 ∨ cb = 4 ∨ cb = 6)
    (ha : ca < a) (ha' : a < ca + 2) (hb : cb < b) (hb' : b < cb + 2)
    (h : cornersPassed a b = 3) : cb = ca - 2 ∨ cb = ca + 6 := by
  rcases lt_trichotomy a b with hab | hab | hab <;>
  rcases hca with rfl | rfl | rfl | rfl <;> rcases hcb with rfl | rfl | rfl | rfl <;>
  first
  | (left; norm_num; done)
  | (right; norm_num; done)
  | (exfalso
     have q1 : ¬ a < 0 := not_lt.mpr (by linarith)
     first | (have q2 : a < 2 := by linarith) | (have q2 : ¬ a < 2 := not_lt.mpr (by linarith))
     first | (have q3 : a < 4 := by linarith) | (have q3 : ¬ a < 4 := not_lt.mpr (by linarith))
     first | (have q4 : a < 6 := by linarith) | (have q4 : ¬ a < 6 := not_lt.mpr (by linarith))
     have r1 : 0 < b := by linarith
     first | (have r2 : 2 < b := by linarith) | (have r2 : ¬ 2 < b := not_lt.mpr (by linarith))
     first | (have r3 : 4 < b := by linarith) | (have r3 : ¬ 4 < b := not_lt.mpr (by linarith))
     first | (have r4 : 6 < b := by linarith) | (have r4 : ¬ 6 < b := not_lt.mpr (by linarith))
     first | (have t1 : b < a := by linarith) | (have t1 : ¬ b < a := not_lt.mpr (by linarith))
     simp only [cornersPassed, PassesArc, q1, q2, q3, q4, r1, r2, r3, r4, t1, and_true,
       true_and, and_false, false_and, or_false, false_or, or_true, true_or, if_true,
       if_false, and_self, or_self, not_true_eq_false, not_false_eq_true] at h
     omega)

theorem cos_five_pi_div_two : Real.cos (5 * Real.pi / 2) = 0 := by
  have e : 5 * Real.pi / 2 = Real.pi / 2 + 2 * Real.pi := by ring
  rw [e, Real.cos_add_two_pi, Real.cos_pi_div_two]

theorem sin_five_pi_div_two : Real.sin (5 * Real.pi / 2) = 1 := by
  have e : 5 * Real.pi / 2 = Real.pi / 2 + 2 * Real.pi := by ring
  rw [e, Real.sin_add_two_pi, Real.sin_pi_div_two]

/-- Sector `k` of an analysed point carries the area, the length and the anchor
that `sector` returned for it, and the density vector of its count. -/
theorem make_sector_geometry (points : List (QPointF ℝ)) (K : ℕ) (s : Scatterplot) (i k : ℕ)
    (p : Point) (S : Sector ℝ) (hs : Scatterplot.make points K = .ok s)
    (hp : s._points[i]? = some p) (hS : p.sectors[k]? = some S) :
    S.area = (sectorOf p.position K k).area ∧ S.anchor = (sectorOf p.position K k).anchor ∧
      S.length = (sectorOf p.position K k).length ∧
      S.deformation_density = (S.points_count / (points.length : ℝ)) * S.anchor := by
  obtain ⟨hlen, hget⟩ := make_ok points K s hs
  have hi : i < points.length := by
    have := (List.getElem?_eq_some.mp hp).1
    omega
  obtain ⟨p', hp', hc⟩ := hget i points[i] (List.getElem?_eq_getElem hi)
  rw [hp] at hp'
  cases hp'
  obtain ⟨sectors0, sectors1, h0, h1, hpos, hsec, _⟩ := computePoint_ok _ _ _ _ hc
  have hK' : (Scatterplot.freshPoint points[i] K).sectors.length = K := by
    simp [Scatterplot.freshPoint]
  rw [hK'] at h0
  have hl0 := (computeSectors_fresh _ _ _ h0).1
  have hl1 := countPoints_length _ _ _ _ _ h1
  rw [hsec, List.getElem?_map] at hS
  have hk : k < K := by
    cases h : sectors1[k]? with
    | none => rw [h] at hS; simp at hS
    | some S1 =>
      have := (List.getElem?_eq_some.mp h).1
      omega
  obtain ⟨sectors1', h1', _, hcnt⟩ := countPoints_spec i
    (Scatterplot.freshPoint points[i] K).position points.enum sectors0 (by omega)
  rw [h1] at h1'
  cases h1'
  unfold Scatterplot.computeSectors at h0
  obtain ⟨_, hget0⟩ := allOk_map_ok _ _ _ h0
  obtain ⟨S0, hS0, hsec0⟩ := hget0 k k (by simp [hk])
  rw [hcnt k S0 hS0] at hS
  simp only [Option.map_some', Option.some.injEq] at hS
  have hof : sectorOf p.position K k = S0 := by
    unfold sectorOf
    rw [hpos]
    simp only at hsec0
    rw [hsec0]
  rw [hof, ← hS]
  exact ⟨rfl, rfl, rfl, rfl⟩

/-- Sum over a list whose elements are known index by index. -/
theorem sum_map_eq_range {α : Type} (val : α → ℝ) (l : List α) (G : ℕ → ℝ)
    (h : ∀ k, k < l.length → ∃ S, l[k]? = some S ∧ val S = G k) :
    (l.map val).sum = ∑ k in Finset.range l.length, G k := by
  induction l generalizing G with
  | nil => simp
  | cons a t ih =>
    obtain ⟨S, hS, hv⟩ := h 0 (by simp)
    simp only [List.getElem?_cons_zero, Option.some.injEq] at hS
    subst hS
    have ht := ih (fun k => G (k + 1)) (fun k hk => by
      obtain ⟨S', hS', hv'⟩ := h (k + 1) (by simp; omega)
      rw [List.getElem?_cons_succ] at hS'
      exact ⟨S', hS', hv'⟩)
    simp only [List.map_cons, List.sum_cons, List.length_cons]
    rw [ht, hv, Finset.sum_range_succ']
    ring

/-- Coordinates of the total deformation of an analysed point as sums over the
sector index. -/
theorem make_total_sums (points : List (QPointF ℝ)) (K : ℕ) (s : Scatterplot) (i : ℕ)
    (p : Point) (hs : Scatterplot.make points K = .ok s) (hp : s._points[i]? = some p)
    (count : ℕ → ℝ)
    (hcount : ∀ (k : ℕ) (S : Sector ℝ), p.sectors[k]? = some S → S.points_count = count k) :
    p.deformation_total.x = ∑ k in Finset.range K,
        ((count k / (points.length : ℝ)) - (sectorOf p.position K k).area / 4)
          * (sectorOf p.position K k).anchor.x ∧
      p.deformation_total.y = ∑ k in Finset.range K,
        ((count k / (points.length : ℝ)) - (sectorOf p.position K k).area / 4)
          * (sectorOf p.position K k).anchor.y := by
  have hmem := List.getElem?_mem hp
  obtain ⟨j, q, _, _, hc⟩ := make_point points K s hs p hmem
  have hform := computePoint_total_formula points j _ p hc
  have hl := make_sectors_length points K s hs p hmem
  have hx : ∀ k, k < p.sectors.length → ∃ S, p.sectors[k]? = some S ∧
      (S.points_count / (points.length : ℝ) * S.anchor.x + -(S.area / 4) * S.anchor.x)
        = ((count k / (points.length : ℝ)) - (sectorOf p.position K k).area / 4)
          * (sectorOf p.position K k).anchor.x := by
    intro k hk
    refine ⟨p.sectors[k], List.getElem?_eq_getElem hk, ?_⟩
    obtain ⟨h1, h2, _, _⟩ := make_sector_geometry points K s i k p _ hs hp
      (List.getElem?_eq_getElem hk)
    rw [hcount k _ (List.getElem?_eq_getElem hk), h1, h2]
    ring
  have hy : ∀ k, k < p.sectors.length → ∃ S, p.sectors[k]? = some S ∧
      (S.points_count / (points.length : ℝ) * S.anchor.y + -(S.area / 4) * S.anchor.y)
        = ((count k / (points.length : ℝ)) - (sectorOf p.position K k).area / 4)
          * (sectorOf p.position K k).anchor.y := by
    intro k hk
    refine ⟨p.sectors[k], List.getElem?_eq_getElem hk, ?_⟩
    obtain ⟨h1, h2, _, _⟩ := make_sector_geometry points K s i k p _ hs hp
      (List.getElem?_eq_getElem hk)
    rw [hcount k _ (List.getElem?_eq_getElem hk), h1, h2]
    ring
  have sx := sum_map_eq_range _ p.sectors _ hx
  have sy := sum_map_eq_range _ p.sectors _ hy
  rw [hl] at sx sy
  rw [← sx, ← sy, hform]
  unfold deformationTotal sumPoints
  simp only [QPointF.add_x, QPointF.add_y, List.map_map]
  constructor
  · rw [← List.sum_map_add]; rfl
  · rw [← List.sum_map_add]; rfl

/-! ### Point reflection at the centre of the square -/

section
variable {F : Type} [LinearOrderedField F]

/-- Seen from the centre of the square, the area swept up to the exit of the
opposite direction is larger by half the area of the square (first quadrant). -/
theorem cumulative_reflect_q0 (c s : F) (hu : c ^ 2 + s ^ 2 = 1) (hc : 0 ≤ c) (hs : 0 ≤ s) :
    (cumulative 2 0 0 (-c) (-s)).1 = (cumulative 0 0 0 c s).1 + 2 := by
  have hu' : (-c) ^ 2 + (-s) ^ 2 = 1 := by rw [neg_sq, neg_sq]; exact hu
  have h0 : (-1 : F) < 0 := by norm_num
  have h1 : (0 : F) < 1 := by norm_num
  rcases classify 0 0 c s 1 1 h0 h1 h0 h1 hu (Or.inl rfl) (Or.inl rfl) (by linarith) (by linarith)
    with ⟨Y1, hV1, hH1, h1a, h1b, h1c, h1d, h1k⟩ | ⟨hV1, hH1, h1c, h1s, h1d, h1k⟩ |
      ⟨X1, hH1, hV1, h1a, h1b, h1s, h1d, h1k⟩ <;>
  rcases classify 0 0 (-c) (-s) (-1) (-1) h0 h1 h0 h1 hu' (Or.inr rfl) (Or.inr rfl) (by linarith)
      (by linarith)
    with ⟨Y2, hV2, hH2, h2a, h2b, h2c, h2d, h2k⟩ | ⟨hV2, hH2, h2c, h2s, h2d, h2k⟩ |
      ⟨X2, hH2, hV2, h2a, h2b, h2s, h2d, h2k⟩ <;>
  simp only [cumulative, left, right, top, bottom, bottomleft, bottomright, topleft,
    topright, hV1, hH1, hV2, hH2, sweptR, sweptT, sweptL, sweptB] <;>
  first
  | (exfalso; linarith)
  | (have e : (Y1 + Y2) * c = 0 := by linear_combination h1d - h2d
     have e' : Y2 = -Y1 := by
       rcases mul_eq_zero.mp e with h | h
       · linarith
       · exfalso; rw [h] at h1c; simp at h1c
     rw [e']; ring1)
  | (have e : (X1 + X2) * s = 0 := by linear_combination h1d - h2d
     have e' : X2 = -X1 := by
       rcases mul_eq_zero.mp e with h | h
       · linarith
       · exfalso; rw [h] at h1s; simp at h1s
     rw [e']; ring1)
  | ring1

/-- Seen from the centre of the square, the area swept up to the exit of the
opposite direction is larger by half the area of the square (second quadrant). -/
theorem cumulative_reflect_q1 (c s : F) (hu : c ^ 2 + s ^ 2 = 1) (hc : c ≤ 0) (hs : 0 ≤ s) :
    (cumulative 3 0 0 (-c) (-s)).1 = (cumulative 1 0 0 c s).1 + 2 := by
  have hu' : (-c) ^ 2 + (-s) ^ 2 = 1 := by rw [neg_sq, neg_sq]; exact hu
  have h0 : (-1 : F) < 0 := by norm_num
  have h1 : (0 : F) < 1 := by norm_num
  rcases classify 0 0 c s (-1) 1 h0 h1 h0 h1 hu (Or.inr rfl) (Or.inl rfl) (by linarith)
      (by linarith)
    with ⟨Y1, hV1, hH1, h1a, h1b, h1c, h1d, h1k⟩ | ⟨hV1, hH1, h1c, h1s, h1d, h1k⟩ |
      ⟨X1, hH1, hV1, h1a, h1b, h1s, h1d, h1k⟩ <;>
  rcases classify 0 0 (-c) (-s) 1 (-1) h0 h1 h0 h1 hu' (Or.inl rfl) (Or.inr rfl) (by linarith)
      (by linarith)
    with ⟨Y2, hV2, hH2, h2a, h2b, h2c, h2d, h2k⟩ | ⟨hV2, hH2, h2c, h2s, h2d, h2k⟩ |
      ⟨X2, hH2, hV2, h2a, h2b, h2s, h2d, h2k⟩ <;>
  simp only [cumulative, left, right, top, bottom, bottomleft, bottomright, topleft,
    topright, hV1, hH1, hV2, hH2, sweptR, sweptT, sweptL, sweptB] <;>
  first
  | (exfalso; linarith)
  | (have e : (Y1 + Y2) * c = 0 := by linear_combination h1d - h2d
     have e' : Y2 = -Y1 := by
       rcases mul_eq_zero.mp e with h | h
       · linarith
       · exfalso; rw [h] at h1c; simp at h1c
     rw [e']; ring1)
  | (have e : (X1 + X2) * s = 0 := by linear_combination h1d - h2d
     have e' : X2 = -X1 := by
       rcases mul_eq_zero.mp e with h | h
       · linarith
       · exfalso; rw [h] at h1s; simp at h1s
     rw [e']; ring1)
  | ring1

/-- Seen from the centre of the square, opposite directions leave the square at
opposite points. -/
theorem firstHit_reflect (c s : F) (a : QPointF F) (hu : c ^ 2 + s ^ 2 = 1)
    (h : firstHit (rayOf 0 0 c s) = some a) :
    firstHit (rayOf 0 0 (-c) (-s)) = some ⟨-a.x, -a.y⟩ := by
  have h0 : (-1 : F) < 0 := by norm_num
  have h1 : (0 : F) < 1 := by norm_num
  obtain ⟨hb, t, ht, hx, hy⟩ := firstHit_spec 0 0 c s a h0 h1 h0 h1 hu h
  refine firstHit_unique 0 0 (-c) (-s) ⟨-a.x, -a.y⟩ t h0 h1 h0 h1
    (by rw [neg_sq, neg_sq]; exact hu) ?_ ht ?_ ?_
  · simp only [abs_neg]; exact hb
  · show -a.x = 0 + t * -c
    rw [hx]; ring
  · show -a.y = 0 + t * -s
    rw [hy]; ring

end

/-- Area of sector `k` of `K ≥ 4` around an interior position. -/
theorem sectorOf_area (x y : ℝ) (K k : ℕ) (hx : -1 < x) (hx' : x < 1) (hy : -1 < y)
    (hy' : y < 1) (hK : 4 ≤ K) (hk : k < K) :
    (sectorOf ⟨x, y⟩ K k).area = (cumAt x y K (k + 1)).1 - (cumAt x y K k).1 := by
  obtain ⟨ib, ic, ie, an, h⟩ := sector_index x y K k hx hx' hy hy' hK hk
  unfold sectorOf
  rw [h]
  rfl

/-- Anchor of sector `k` of `K ≥ 4` around an interior position: the exit of the
ray opposite to the centre direction. -/
theorem sectorOf_anchor (x y : ℝ) (K k : ℕ) (hx : -1 < x) (hx' : x < 1) (hy : -1 < y)
    (hy' : y < 1) (hK : 4 ≤ K) (hk : k < K) :
    firstHit (rayOf x y
        (-Real.cos (((k : ℝ) * (2 * Real.pi / K) + ((k : ℝ) + 1) * (2 * Real.pi / K)) / 2))
        (-Real.sin (((k : ℝ) * (2 * Real.pi / K) + ((k : ℝ) + 1) * (2 * Real.pi / K)) / 2)))
      = some (sectorOf ⟨x, y⟩ K k).anchor := by
  obtain ⟨ib, ic, ie, an, h⟩ := sector_index x y K k hx hx' hy hy' hK hk
  have := (sector_center_anchor x y _ _ _ h).2
  unfold sectorOf
  rw [h]
  exact this

/-! ### Even sector counts around the centre -/

theorem quadrantOf_half (m j : ℕ) (hm : 2 ≤ m) (hj : j < m) :
    quadrantOf (2 * m) j ≤ 1 ∧ quadrantOf (2 * m) (j + m) = quadrantOf (2 * m) j + 2 := by
  have hpos : 0 < 2 * m := by omega
  have h1 : 4 * j / (2 * m) ≤ 1 := by
    have : 4 * j / (2 * m) < 2 := by
      rw [Nat.div_lt_iff_lt_mul hpos]; omega
    omega
  have h2 : 4 * (j + m) / (2 * m) = 4 * j / (2 * m) + 2 := by
    have e : 4 * (j + m) = 4 * j + 2 * (2 * m) := by ring
    rw [e, Nat.add_mul_div_right _ _ hpos]
  unfold quadrantOf
  rw [h2]
  omega

theorem sectorAngle_half (m j : ℕ) (hm : 2 ≤ m) :
    sectorAngle (2 * m) (j + m) = sectorAngle (2 * m) j + Real.pi := by
  have hmr : (m : ℝ) ≠ 0 := by
    have : (0 : ℝ) < m := by exact_mod_cast (by omega : 0 < m)
    exact ne_of_gt this
  unfold sectorAngle
  push_cast
  field_simp
  ring

/-- Around the centre of the square with an even number of sectors, the swept
area at the begin ray of sector `j + m` exceeds that of sector `j` by 2. -/
theorem cumAt_half (m j : ℕ) (hm : 2 ≤ m) (hj : j ≤ m) :
    (cumAt 0 0 (2 * m) (j + m)).1 = (cumAt 0 0 (2 * m) j).1 + 2 := by
  have key : ∀ i, i < m → (cumAt 0 0 (2 * m) (i + m)).1 = (cumAt 0 0 (2 * m) i).1 + 2 := by
    intro i hi
    obtain ⟨hq1, hq2⟩ := quadrantOf_half m i hm hi
    have hb := sectorAngle_bounds (2 * m) i (by omega) (by omega)
    have hin := inQuadrant_of_angle (quadrantOf (2 * m) i) (sectorAngle (2 * m) i) (by omega)
      hb.1 hb.2
    unfold cumAt
    rw [hq2, sectorAngle_half m i hm, Real.cos_add_pi, Real.sin_add_pi]
    have hu := Real.cos_sq_add_sin_sq (sectorAngle (2 * m) i)
    generalize quadrantOf (2 * m) i = q at hq1 hin
    interval_cases q
    · exact cumulative_reflect_q0 _ _ hu hin.1 hin.2
    · exact cumulative_reflect_q1 _ _ hu hin.1 hin.2
  rcases Nat.lt_or_ge j m with hlt | hge
  · exact key j hlt
  · have hjm : j = m := by omega
    rw [hjm]
    have h0 := key 0 (by omega)
    have ht := (cumAt_total 0 0 (2 * m) (by norm_num) (by norm_num) (by norm_num) (by norm_num)
      (by omega)).1
    have e : m + m = 2 * m := by ring
    rw [e]
    rw [Nat.zero_add] at h0
    linarith

/-- Around the centre of the square with an even number of sectors, opposite
sectors have equal areas and opposite anchors. -/
theorem sectorOf_opposite (m k : ℕ) (hm : 2 ≤ m) (hk : k < m) :
    (sectorOf ⟨0, 0⟩ (2 * m) (m + k)).area = (sectorOf ⟨0, 0⟩ (2 * m) k).area ∧
      (sectorOf ⟨0, 0⟩ (2 * m) (m + k)).anchor.x = -(sectorOf ⟨0, 0⟩ (2 * m) k).anchor.x ∧
      (sectorOf ⟨0, 0⟩ (2 * m) (m + k)).anchor.y = -(sectorOf ⟨0, 0⟩ (2 * m) k).anchor.y := by
  have h0 : (-1 : ℝ) < 0 := by norm_num
  have h1 : (0 : ℝ) < 1 := by norm_num
  have hmk : m + k = k + m := Nat.add_comm m k
  rw [hmk]
  have hmr : (m : ℝ) ≠ 0 := by
    have : (0 : ℝ) < m := by exact_mod_cast (by omega : 0 < m)
    exact ne_of_gt this
  refine ⟨?_, ?_⟩
  · rw [sectorOf_area 0 0 (2 * m) (k + m) h0 h1 h0 h1 (by omega) (by omega),
      sectorOf_area 0 0 (2 * m) k h0 h1 h0 h1 (by omega) (by omega)]
    have e : k + m + 1 = (k + 1) + m := by ring
    rw [e, cumAt_half m (k + 1) hm (by omega), cumAt_half m k hm (by omega)]
    ring
  · have ha := sectorOf_anchor 0 0 (2 * m) k h0 h1 h0 h1 (by omega) (by omega)
    have hb := sectorOf_anchor 0 0 (2 * m) (k + m) h0 h1 h0 h1 (by omega) (by omega)
    have hr := firstHit_reflect _ _ _ (by rw [neg_sq, neg_sq]; exact Real.cos_sq_add_sin_sq _) ha
    rw [neg_neg, neg_neg] at hr
    have hang : (((k + m : ℕ) : ℝ) * (2 * Real.pi / ((2 * m : ℕ) : ℝ))
          + (((k + m : ℕ) : ℝ) + 1) * (2 * Real.pi / ((2 * m : ℕ) : ℝ))) / 2
        = ((k : ℝ) * (2 * Real.pi / ((2 * m : ℕ) : ℝ))
          + ((k : ℝ) + 1) * (2 * Real.pi / ((2 * m : ℕ) : ℝ))) / 2 + Real.pi := by
      push_cast
      field_simp
      ring
    rw [hang, Real.cos_add_pi, Real.sin_add_pi, neg_neg, neg_neg, hr] at hb
    have := Option.some.inj hb
    rw [← this]
    exact ⟨rfl, rfl⟩

/-- Around the centre of the square with an even number of sectors, the sums of
`area * anchor` over all sectors vanish. -/
theorem center_even_sum (m : ℕ) (hm : 2 ≤ m) (w : ℝ) :
    ∑ k in Finset.range (2 * m),
        (w - (sectorOf ⟨0, 0⟩ (2 * m) k).area / 4) * (sectorOf ⟨0, 0⟩ (2 * m) k).anchor.x = 0 ∧
      ∑ k in Finset.range (2 * m),
        (w - (sectorOf ⟨0, 0⟩ (2 * m) k).area / 4) * (sectorOf ⟨0, 0⟩ (2 * m) k).anchor.y = 0 := by
  have e : 2 * m = m + m := by ring
  constructor
  · nth_rewrite 1 [e]
    rw [Finset.sum_range_add, ← Finset.sum_add_distrib]
    apply Finset.sum_eq_zero
    intro k hk
    obtain ⟨h1, h2, _⟩ := sectorOf_opposite m k hm (Finset.mem_range.mp hk)
    rw [h1, h2]; ring
  · nth_rewrite 1 [e]
    rw [Finset.sum_range_add, ← Finset.sum_add_distrib]
    apply Finset.sum_eq_zero
    intro k hk
    obtain ⟨h1, _, h3⟩ := sectorOf_opposite m k hm (Finset.mem_range.mp hk)
    rw [h1, h3]; ring

/-! ### The single point at the centre -/

theorem centerPoint_interior :
    ∀ q ∈ centerPoint, -1 < q.x ∧ q.x < 1 ∧ -1 < q.y ∧ q.y < 1 := by
  intro q hq
  simp only [centerPoint, List.mem_singleton] at hq
  rw [hq]; norm_num

/-- The analysed layout of the single point `(0,0)`: it returns for every sector
count `K ≥ 1`, holds one point at `(0,0)`, and no sector counts a point. -/
theorem centerPoint_layout (K : ℕ) (hK : 1 ≤ K) :
    ∃ s p, Scatterplot.make centerPoint K = .ok s ∧ s._points = [p] ∧
      p.position = ⟨0, 0⟩ ∧ p.sectors.length = K ∧
      ∀ (k : ℕ) (S : Sector ℝ), p.sectors[k]? = some S → S.points_count = 0 := by
  obtain ⟨s, hs⟩ := make_total_gen centerPoint K centerPoint_interior (Or.inl hK)
  have hlen := (make_ok _ _ _ hs).1
  have hpos := make_position_eq _ _ _ hs
  obtain ⟨p, hpts⟩ : ∃ p, s._points = [p] := by
    cases h : s._points with
    | nil => rw [h] at hlen; simp [centerPoint] at hlen
    | cons p rest =>
      cases rest with
      | nil => exact ⟨p, rfl⟩
      | cons p' rest' => rw [h] at hlen; simp [centerPoint] at hlen
  have hp0 : s._points[0]? = some p := by rw [hpts]; rfl
  have hppos : p.position = ⟨0, 0⟩ := by
    rw [hpts] at hpos
    simp only [List.map_cons, List.map_nil, centerPoint, List.cons.injEq, and_true] at hpos
    exact hpos
  refine ⟨s, p, hs, hpts, hppos, make_sectors_length _ _ _ hs p (by rw [hpts]; simp), ?_⟩
  intro k S hS
  rw [make_points_count centerPoint K s 0 k p S hK hs hp0 hS]
  simp [centerPoint, List.enum, List.enumFrom, counted]

theorem clamp_zero : clamp (⟨0, 0⟩ + (0.85 : ℝ) * (⟨0, 0⟩ : QPointF ℝ)) = (⟨0, 0⟩ : QPointF ℝ) := by
  apply QPointF.ext
  · show stdClamp ((0 : ℝ) + 0.85 * 0) (-0.99) 0.99 = 0
    rw [stdClamp_of_mem _ _ _ (by norm_num) (by norm_num)]; norm_num
  · show stdClamp ((0 : ℝ) + 0.85 * 0) (-0.99) 0.99 = 0
    rw [stdClamp_of_mem _ _ _ (by norm_num) (by norm_num)]; norm_num

/-- C14 (amended): for the layout of the single point `(0,0)` and every sector
count `K ≥ 4`, the density deformation of every sector is `(0,0)`; when `K` is
even, the total deformation of the point is `(0,0)` and the point of
`scatterplot(K, 1)` is at `(0,0)`. -/
theorem single_center_point (K : ℕ) (c : Cache) (hK : 4 ≤ K) (hc : Reachable centerPoint c) :
    ∃ s p, Scatterplot.make centerPoint K = .ok s ∧ s._points = [p] ∧
      (∀ S ∈ p.sectors, S.deformation_density = ⟨0, 0⟩) ∧
      (Even K → p.deformation_total = ⟨0, 0⟩ ∧
        ∃ c' s', ScatterplotWidget.scatterplot centerPoint c K 1 = .ok (c', s') ∧
          (s'._points.map fun p => p.position) = [⟨0, 0⟩]) := by
  obtain ⟨s, p, hs, hpts, hppos, hsecl, hcount⟩ := centerPoint_layout K (by omega)
  have hp0 : s._points[0]? = some p := by rw [hpts]; rfl
  refine ⟨s, p, hs, hpts, ?_, ?_⟩
  · intro S hS
    obtain ⟨k, hk⟩ := List.getElem?_of_mem hS
    obtain ⟨_, _, _, hd⟩ := make_sector_geometry centerPoint K s 0 k p S hs hp0 hk
    rw [hd, hcount k S hk]
    apply QPointF.ext
    · show (0 : ℝ) / _ * S.anchor.x = 0
      simp
    · show (0 : ℝ) / _ * S.anchor.y = 0
      simp
  · intro heven
    obtain ⟨m, hm⟩ := heven
    have hm2 : K = 2 * m := by omega
    have htot : p.deformation_total = ⟨0, 0⟩ := by
      obtain ⟨hx, hy⟩ := make_total_sums centerPoint K s 0 p hs hp0 (fun _ => 0) hcount
      rw [hppos, hm2] at hx hy
      obtain ⟨h1, h2⟩ := center_even_sum m (by omega) ((0 : ℝ) / (centerPoint.length : ℝ))
      apply QPointF.ext
      · rw [hx]; exact h1
      · rw [hy]; exact h2
    refine ⟨htot, ?_⟩
    have hreg : s.regularize = .ok s := by
      unfold Scatterplot.regularize
      rw [hpts]
      simp only [List.map_cons, List.map_nil]
      rw [hsecl, hppos, htot, clamp_zero]
      exact hs
    have hl1 : layoutAt centerPoint K 1 = .ok s := by
      simp only [layoutAt, hs, hreg]
    obtain ⟨c', h⟩ := scatterplot_total centerPoint c K 1 hc s hl1
    exact ⟨c', s, h, make_position_eq _ _ _ hs⟩

theorem single_center_point_witness :
    ∃ s p, Scatterplot.make centerPoint 4 = .ok s ∧ s._points = [p] ∧
      p.deformation_total = ⟨0, 0⟩ ∧
      ∃ c' s', ScatterplotWidget.scatterplot centerPoint (fun _ => []) 4 1 = .ok (c', s') ∧
        (s'._points.map fun p => p.position) = [⟨0, 0⟩] := by
  obtain ⟨s, p, hs, hpts, _, h⟩ := single_center_point 4 _ (by norm_num) Reachable.empty
  obtain ⟨h1, h2⟩ := h ⟨2, rfl⟩
  exact ⟨s, p, hs, hpts, h1, h2⟩

/-! ### Exits from the centre -/

section
variable {F : Type} [LinearOrderedField F]

/-- Swept area at the exit of a first-quadrant direction from the centre through
the right edge. -/
theorem cum0_right (c s : F) (hu : c ^ 2 + s ^ 2 = 1) (hs : 0 ≤ s) (h : s < c) :
    (cumulative 0 0 0 c s).1 = 1 / 2 + s / c / 2 := by
  have h0 : (-1 : F) < 0 := by norm_num
  have h1 : (0 : F) < 1 := by norm_num
  have hc : c ≠ 0 := by intro hz; rw [hz] at h; linarith
  rcases classify 0 0 c s 1 1 h0 h1 h0 h1 hu (Or.inl rfl) (Or.inl rfl) (by linarith) (by linarith)
    with ⟨Y, hV, hH, _, _, _, hd, hk⟩ | ⟨hV, hH, _, _, hd, hk⟩ | ⟨X, hH, hV, _, _, _, hd, hk⟩
  · simp only [cumulative, right, top, bottomright, topleft, topright, hV, hH, sweptR]
    have e : Y = s / c := by field_simp; linear_combination hd
    rw [e]; ring
  · exfalso; linarith
  · exfalso; linarith

/-- Swept area at the exit of a first-quadrant direction from the centre through
the top edge. -/
theorem cum0_top (c s : F) (hu : c ^ 2 + s ^ 2 = 1) (hc : 0 ≤ c) (h : c < s) :
    (cumulative 0 0 0 c s).1 = 3 / 2 - c / s / 2 := by
  have h0 : (-1 : F) < 0 := by norm_num
  have h1 : (0 : F) < 1 := by norm_num
  have hs : s ≠ 0 := by intro hz; rw [hz] at h; linarith
  rcases classify 0 0 c s 1 1 h0 h1 h0 h1 hu (Or.inl rfl) (Or.inl rfl) (by linarith) (by linarith)
    with ⟨Y, hV, hH, _, _, _, hd, hk⟩ | ⟨hV, hH, _, _, hd, hk⟩ | ⟨X, hH, hV, _, _, _, hd, hk⟩
  · exfalso; linarith
  · exfalso; linarith
  · simp only [cumulative, right, top, bottomright, topleft, topright, hV, hH, sweptT]
    have e : X = c / s := by field_simp; linear_combination hd
    rw [e]; ring

/-- Swept area at the exit of a second-quadrant direction from the centre
through the left edge. -/
theorem cum1_left (c s : F) (hu : c ^ 2 + s ^ 2 = 1) (hs : 0 ≤ s) (h : s < -c) :
    (cumulative 1 0 0 c s).1 = 5 / 2 - s / (-c) / 2 := by
  have h0 : (-1 : F) < 0 := by norm_num
  have h1 : (0 : F) < 1 := by norm_num
  have hc : c ≠ 0 := by intro hz; rw [hz] at h; linarith
  rcases classify 0 0 c s (-1) 1 h0 h1 h0 h1 hu (Or.inr rfl) (Or.inl rfl) (by linarith)
      (by linarith)
    with ⟨Y, hV, hH, _, _, _, hd, hk⟩ | ⟨hV, hH, _, _, hd, hk⟩ | ⟨X, hH, hV, _, _, _, hd, hk⟩
  · simp only [cumulative, left, top, bottomleft, topleft, topright, hV, hH, sweptL]
    have e : Y = s / (-c) := by
      rw [eq_div_iff (neg_ne_zero.mpr hc)]; linear_combination -hd
    rw [e]; ring
  · exfalso; linarith
  · exfalso; linarith

/-- Swept area at the exit of a third-quadrant direction from the centre through
the left edge. -/
theorem cum2_left (c s : F) (hu : c ^ 2 + s ^ 2 = 1) (hs : s ≤ 0) (h : -s < -c) :
    (cumulative 2 0 0 c s).1 = 5 / 2 - s / (-c) / 2 := by
  have h0 : (-1 : F) < 0 := by norm_num
  have h1 : (0 : F) < 1 := by norm_num
  have hc : c ≠ 0 := by intro hz; rw [hz] at h; linarith
  rcases classify 0 0 c s (-1) (-1) h0 h1 h0 h1 hu (Or.inr rfl) (Or.inr rfl) (by linarith)
      (by linarith)
    with ⟨Y, hV, hH, _, _, _, hd, hk⟩ | ⟨hV, hH, _, _, hd, hk⟩ | ⟨X, hH, hV, _, _, _, hd, hk⟩
  · simp only [cumulative, left, bottom, bottomleft, topleft, bottomright, hV, hH, sweptL]
    have e : Y = s / (-c) := by
      rw [eq_div_iff (neg_ne_zero.mpr hc)]; linear_combination -hd
    rw [e]; ring
  · exfalso; linarith
  · exfalso; linarith

/-- Swept area at the exit of a fourth-quadrant direction from the centre
through the bottom edge. -/
theorem cum3_bottom (c s : F) (hu : c ^ 2 + s ^ 2 = 1) (hc : 0 ≤ c) (h : c < -s) :
    (cumulative 3 0 0 c s).1 = 7 / 2 + c / (-s) / 2 := by
  have h0 : (-1 : F) < 0 := by norm_num
  have h1 : (0 : F) < 1 := by norm_num
  have hs : s ≠ 0 := by intro hz; rw [hz] at h; linarith
  rcases classify 0 0 c s 1 (-1) h0 h1 h0 h1 hu (Or.inl rfl) (Or.inr rfl) (by linarith)
      (by linarith)
    with ⟨Y, hV, hH, _, _, _, hd, hk⟩ | ⟨hV, hH, _, _, hd, hk⟩ | ⟨X, hH, hV, _, _, _, hd, hk⟩
  · exfalso; linarith
  · exfalso; linarith
  · simp only [cumulative, right, bottom, bottomleft, bottomright, topright, hV, hH, sweptB]
    have e : X = c / (-s) := by
      rw [eq_div_iff (neg_ne_zero.mpr hs)]; linear_combination -hd
    rw [e]; ring

/-- Exit from the centre through the left edge. -/
theorem exit_left (c s : F) (hu : c ^ 2 + s ^ 2 = 1) (hc : c < 0) (h1 : s ≤ -c) (h2 : -s ≤ -c) :
    firstHit (rayOf 0 0 c s) = some ⟨-1, s / (-c)⟩ := by
  have hc' : (0 : F) < -c := by linarith
  have hcne : c ≠ 0 := ne_of_lt hc
  apply firstHit_unique 0 0 c s _ (1 / (-c)) (by norm_num) (by norm_num) (by norm_num)
    (by norm_num) hu _ (by positivity)
  · show (-1 : F) = 0 + 1 / (-c) * c
    field_simp
  · show s / (-c) = 0 + 1 / (-c) * s
    field_simp
  · show max |(-1 : F)| |s / (-c)| = 1
    rw [abs_neg, abs_one]
    apply max_eq_left
    rw [abs_le]
    constructor
    · rw [le_div_iff₀ hc']; linarith
    · rw [div_le_iff₀ hc']; linarith

/-- Exit from the centre through the right edge. -/
theorem exit_right (c s : F) (hu : c ^ 2 + s ^ 2 = 1) (hc : 0 < c) (h1 : s ≤ c) (h2 : -s ≤ c) :
    firstHit (rayOf 0 0 c s) = some ⟨1, s / c⟩ := by
  apply firstHit_unique 0 0 c s _ (1 / c) (by norm_num) (by norm_num) (by norm_num)
    (by norm_num) hu _ (by positivity)
  · show (1 : F) = 0 + 1 / c * c
    field_simp
  · show s / c = 0 + 1 / c * s
    field_simp
  · show max |(1 : F)| |s / c| = 1
    rw [abs_one]
    apply max_eq_left
    rw [abs_le]
    constructor
    · rw [le_div_iff₀ hc]; linarith
    · rw [div_le_iff₀ hc]; linarith

/-- Exit from the centre through the top edge. -/
theorem exit_top (c s : F) (hu : c ^ 2 + s ^ 2 = 1) (hs : 0 < s) (h1 : c ≤ s) (h2 : -c ≤ s) :
    firstHit (rayOf 0 0 c s) = some ⟨c / s, 1⟩ := by
  apply firstHit_unique 0 0 c s _ (1 / s) (by norm_num) (by norm_num) (by norm_num)
    (by norm_num) hu _ (by positivity)
  · show c / s = 0 + 1 / s * c
    field_simp
  · show (1 : F) = 0 + 1 / s * s
    field_simp
  · show max |c / s| |(1 : F)| = 1
    rw [abs_one]
    apply max_eq_right
    rw [abs_le]
    constructor
    · rw [le_div_iff₀ hs]; linarith
    · rw [div_le_iff₀ hs]; linarith

/-- Exit from the centre through the bottom edge. -/
theorem exit_bottom (c s : F) (hu : c ^ 2 + s ^ 2 = 1) (hs : s < 0) (h1 : c ≤ -s)
    (h2 : -c ≤ -s) : firstHit (rayOf 0 0 c s) = some ⟨c / (-s), -1⟩ := by
  have hs' : (0 : F) < -s := by linarith
  have hsne : s ≠ 0 := ne_of_lt hs
  apply firstHit_unique 0 0 c s _ (1 / (-s)) (by norm_num) (by norm_num) (by norm_num)
    (by norm_num) hu _ (by positivity)
  · show c / (-s) = 0 + 1 / (-s) * c
    field_simp
  · show (-1 : F) = 0 + 1 / (-s) * s
    field_simp
  · show max |c / (-s)| |(-1 : F)| = 1
    rw [abs_neg, abs_one]
    apply max_eq_right
    rw [abs_le]
    constructor
    · rw [le_div_iff₀ hs']; linarith
    · rw [div_le_iff₀ hs']; linarith

end

/-- Bounds for the cosines and sines of `π/5` and `2π/5`. -/
theorem pentagon_values :
    (4 / 5 : ℝ) < Real.cos (Real.pi / 5) ∧ Real.cos (Real.pi / 5) < 81 / 100 ∧
      (29 / 50 : ℝ) < Real.sin (Real.pi / 5) ∧ Real.sin (Real.pi / 5) < 3 / 5 ∧
      (0 : ℝ) < Real.cos (2 * (Real.pi / 5)) ∧ Real.cos (2 * (Real.pi / 5)) < 313 / 1000 ∧
      (116 / 125 : ℝ) < Real.sin (2 * (Real.pi / 5)) := by
  have hpi := Real.pi_pos
  have ha : Real.cos (Real.pi / 5) = (1 + √5) / 4 := Real.cos_pi_div_five
  have h5a : (11 / 5 : ℝ) < √5 := by
    rw [Real.lt_sqrt (by norm_num)]; norm_num
  have h5b : √5 < (56 / 25 : ℝ) := by
    rw [Real.sqrt_lt' (by norm_num)]; norm_num
  have ha1 : (4 / 5 : ℝ) < Real.cos (Real.pi / 5) := by rw [ha]; linarith
  have ha2 : Real.cos (Real.pi / 5) < 81 / 100 := by rw [ha]; linarith
  have hb0 : 0 < Real.sin (Real.pi / 5) :=
    Real.sin_pos_of_pos_of_lt_pi (by linarith) (by linarith)
  have hu := Real.cos_sq_add_sin_sq (Real.pi / 5)
  have hb1 : (29 / 50 : ℝ) < Real.sin (Real.pi / 5) := by
    by_contra hneg
    push_neg at hneg
    nlinarith
  have hb2 : Real.sin (Real.pi / 5) < 3 / 5 := by
    by_contra hneg
    push_neg at hneg
    nlinarith
  refine ⟨ha1, ha2, hb1, hb2, ?_, ?_, ?_⟩
  · rw [Real.cos_two_mul]; nlinarith
  · rw [Real.cos_two_mul]; nlinarith
  · rw [Real.sin_two_mul]; nlinarith

/-! ### Five sectors around the centre -/

/-- Swept areas at the six rays of five sectors around the centre of the
square, with `u = cos(2π/5) / sin(2π/5)` and `v = sin(π/5) / cos(π/5)`. -/
theorem pentagon_cumAt :
    (cumAt 0 0 5 0).1 = 1 / 2 ∧
    (cumAt 0 0 5 1).1 = 3 / 2 - Real.cos (2 * (Real.pi / 5)) / Real.sin (2 * (Real.pi / 5)) / 2 ∧
    (cumAt 0 0 5 2).1 = 5 / 2 - Real.sin (Real.pi / 5) / Real.cos (Real.pi / 5) / 2 ∧
    (cumAt 0 0 5 3).1 = 5 / 2 + Real.sin (Real.pi / 5) / Real.cos (Real.pi / 5) / 2 ∧
    (cumAt 0 0 5 4).1 = 7 / 2 + Real.cos (2 * (Real.pi / 5)) / Real.sin (2 * (Real.pi / 5)) / 2 ∧
    (cumAt 0 0 5 5).1 = 9 / 2 := by
  obtain ⟨ha1, ha2, hb1, hb2, hc1, hc2, hd1⟩ := pentagon_values
  have hu1 := Real.cos_sq_add_sin_sq (Real.pi / 5)
  have hu2 := Real.cos_sq_add_sin_sq (2 * (Real.pi / 5))
  have e0 : sectorAngle 5 0 = 0 := by unfold sectorAngle; simp
  have e1 : sectorAngle 5 1 = 2 * (Real.pi / 5) := by unfold sectorAngle; push_cast; ring
  have e2 : sectorAngle 5 2 = Real.pi - Real.pi / 5 := by unfold sectorAngle; push_cast; ring
  have e3 : sectorAngle 5 3 = Real.pi / 5 + Real.pi := by unfold sectorAngle; push_cast; ring
  have e4 : sectorAngle 5 4 = 2 * Real.pi - 2 * (Real.pi / 5) := by
    unfold sectorAngle; push_cast; ring
  have q0 : quadrantOf 5 0 = 0 := by decide
  have q1 : quadrantOf 5 1 = 0 := by decide
  have q2 : quadrantOf 5 2 = 1 := by decide
  have q3 : quadrantOf 5 3 = 2 := by decide
  have q4 : quadrantOf 5 4 = 3 := by decide
  have hA0 : (cumAt 0 0 5 0).1 = 1 / 2 := by
    unfold cumAt
    rw [q0, e0, Real.cos_zero, Real.sin_zero, cum0_right 1 0 (by norm_num) le_rfl (by norm_num)]
    norm_num
  have ht := (cumAt_total 0 0 5 (by norm_num) (by norm_num) (by norm_num) (by norm_num)
    (by norm_num)).1
  refine ⟨hA0, ?_, ?_, ?_, ?_, by linarith⟩
  · unfold cumAt
    rw [q1, e1, cum0_top _ _ hu2 (le_of_lt hc1) (by linarith)]
  · unfold cumAt
    rw [q2, e2, Real.cos_pi_sub, Real.sin_pi_sub,
      cum1_left _ _ (by rw [neg_sq]; exact hu1) (by linarith) (by linarith), neg_neg]
  · unfold cumAt
    rw [q3, e3, Real.cos_add_pi, Real.sin_add_pi,
      cum2_left _ _ (by rw [neg_sq, neg_sq]; exact hu1) (by linarith) (by linarith), neg_neg,
      neg_div]
    ring
  · unfold cumAt
    rw [q4, e4, Real.cos_two_pi_sub, Real.sin_two_pi_sub,
      cum3_bottom _ _ (by rw [neg_sq]; exact hu2) (le_of_lt hc1) (by linarith), neg_neg]

/-- Abscissas of the anchors of five sectors around the centre of the square. -/
theorem pentagon_anchors :
    (sectorOf ⟨0, 0⟩ 5 0).anchor.x = -1 ∧
    (sectorOf ⟨0, 0⟩ 5 1).anchor.x
      = Real.cos (2 * (Real.pi / 5)) / Real.sin (2 * (Real.pi / 5)) ∧
    (sectorOf ⟨0, 0⟩ 5 2).anchor.x = 1 ∧
    (sectorOf ⟨0, 0⟩ 5 3).anchor.x
      = Real.cos (2 * (Real.pi / 5)) / Real.sin (2 * (Real.pi / 5)) ∧
    (sectorOf ⟨0, 0⟩ 5 4).anchor.x = -1 := by
  obtain ⟨ha1, ha2, hb1, hb2, hc1, hc2, hd1⟩ := pentagon_values
  have hu1 := Real.cos_sq_add_sin_sq (Real.pi / 5)
  have hu2 := Real.cos_sq_add_sin_sq (2 * (Real.pi / 5))
  have h0 : (-1 : ℝ) < 0 := by norm_num
  have h1 : (0 : ℝ) < 1 := by norm_num
  have k0 := sectorOf_anchor 0 0 5 0 h0 h1 h0 h1 (by norm_num) (by norm_num)
  have k1 := sectorOf_anchor 0 0 5 1 h0 h1 h0 h1 (by norm_num) (by norm_num)
  have k2 := sectorOf_anchor 0 0 5 2 h0 h1 h0 h1 (by norm_num) (by norm_num)
  have k3 := sectorOf_anchor 0 0 5 3 h0 h1 h0 h1 (by norm_num) (by norm_num)
  have k4 := sectorOf_anchor 0 0 5 4 h0 h1 h0 h1 (by norm_num) (by norm_num)
  have e0 : (((0 : ℕ) : ℝ) * (2 * Real.pi / ((5 : ℕ) : ℝ))
      + (((0 : ℕ) : ℝ) + 1) * (2 * Real.pi / ((5 : ℕ) : ℝ))) / 2 = Real.pi / 5 := by
    push_cast; ring
  have e1 : (((1 : ℕ) : ℝ) * (2 * Real.pi / ((5 : ℕ) : ℝ))
      + (((1 : ℕ) : ℝ) + 1) * (2 * Real.pi / ((5 : ℕ) : ℝ))) / 2
      = Real.pi - 2 * (Real.pi / 5) := by
    push_cast; ring
  have e2 : (((2 : ℕ) : ℝ) * (2 * Real.pi / ((5 : ℕ) : ℝ))
      + (((2 : ℕ) : ℝ) + 1) * (2 * Real.pi / ((5 : ℕ) : ℝ))) / 2 = Real.pi := by
    push_cast; ring
  have e3 : (((3 : ℕ) : ℝ) * (2 * Real.pi / ((5 : ℕ) : ℝ))
      + (((3 : ℕ) : ℝ) + 1) * (2 * Real.pi / ((5 : ℕ) : ℝ))) / 2
      = 2 * (Real.pi / 5) + Real.pi := by
    push_cast; ring
  have e4 : (((4 : ℕ) : ℝ) * (2 * Real.pi / ((5 : ℕ) : ℝ))
      + (((4 : ℕ) : ℝ) + 1) * (2 * Real.pi / ((5 : ℕ) : ℝ))) / 2
      = 2 * Real.pi - Real.pi / 5 := by
    push_cast; ring
  rw [e0, exit_left _ _ (by rw [neg_sq, neg_sq]; exact hu1) (by linarith) (by linarith)
    (by linarith)] at k0
  rw [e1, Real.cos_pi_sub, Real.sin_pi_sub, neg_neg,
    exit_bottom _ _ (by rw [neg_sq]; exact hu2) (by linarith) (by linarith) (by linarith),
    neg_neg] at k1
  rw [e2, Real.cos_pi, Real.sin_pi, neg_neg, neg_zero,
    exit_right 1 0 (by norm_num) (by norm_num) (by norm_num) (by norm_num)] at k2
  rw [e3, Real.cos_add_pi, Real.sin_add_pi, neg_neg, neg_neg,
    exit_top _ _ hu2 (by linarith) (by linarith) (by linarith)] at k3
  rw [e4, Real.cos_two_pi_sub, Real.sin_two_pi_sub, neg_neg,
    exit_left _ _ (by rw [neg_sq]; exact hu1) (by linarith) (by linarith) (by linarith)] at k4
  have a0 := congrArg QPointF.x (Option.some.inj k0)
  have a1 := congrArg QPointF.x (Option.some.inj k1)
  have a2 := congrArg QPointF.x (Option.some.inj k2)
  have a3 := congrArg QPointF.x (Option.some.inj k3)
  have a4 := congrArg QPointF.x (Option.some.inj k4)
  exact ⟨a0.symm, a1.symm, a2.symm, a3.symm, a4.symm⟩

/-- C14 (as stated) fails for `K = 5`: the total deformation of the single point
`(0,0)` has a positive first coordinate, so it is not `(0,0)`. -/
theorem center_point_five_sectors_counterexample :
    (5 : ℕ) ≥ 4 ∧ ∃ s p, Scatterplot.make centerPoint 5 = .ok s ∧ s._points = [p] ∧
      p.position = ⟨0, 0⟩ ∧ 0 < p.deformation_total.x ∧ p.deformation_total ≠ ⟨0, 0⟩ := by
  refine ⟨by norm_num, ?_⟩
  obtain ⟨s, p, hs, hpts, hppos, hsecl, hcount⟩ := centerPoint_layout 5 (by norm_num)
  have hp0 : s._points[0]? = some p := by rw [hpts]; rfl
  obtain ⟨hx, _⟩ := make_total_sums centerPoint 5 s 0 p hs hp0 (fun _ => 0) hcount
  rw [hppos] at hx
  have h0 : (-1 : ℝ) < 0 := by norm_num
  have h1 : (0 : ℝ) < 1 := by norm_num
  have r0 : (sectorOf ⟨0, 0⟩ 5 0).area = (cumAt 0 0 5 1).1 - (cumAt 0 0 5 0).1 :=
    sectorOf_area 0 0 5 0 h0 h1 h0 h1 (by norm_num) (by norm_num)
  have r1 : (sectorOf ⟨0, 0⟩ 5 1).area = (cumAt 0 0 5 2).1 - (cumAt 0 0 5 1).1 :=
    sectorOf_area 0 0 5 1 h0 h1 h0 h1 (by norm_num) (by norm_num)
  have r2 : (sectorOf ⟨0, 0⟩ 5 2).area = (cumAt 0 0 5 3).1 - (cumAt 0 0 5 2).1 :=
    sectorOf_area 0 0 5 2 h0 h1 h0 h1 (by norm_num) (by norm_num)
  have r3 : (sectorOf ⟨0, 0⟩ 5 3).area = (cumAt 0 0 5 4).1 - (cumAt 0 0 5 3).1 :=
    sectorOf_area 0 0 5 3 h0 h1 h0 h1 (by norm_num) (by norm_num)
  have r4 : (sectorOf ⟨0, 0⟩ 5 4).area = (cumAt 0 0 5 5).1 - (cumAt 0 0 5 4).1 :=
    sectorOf_area 0 0 5 4 h0 h1 h0 h1 (by norm_num) (by norm_num)
  obtain ⟨A0, A1, A2, A3, A4, A5⟩ := pentagon_cumAt
  obtain ⟨x0, x1, x2, x3, x4⟩ := pentagon_anchors
  obtain ⟨ha1, ha2, hb1, hb2, hc1, hc2, hd1⟩ := pentagon_values
  have hpos : 0 < p.deformation_total.x := by
    rw [hx]
    simp only [Finset.sum_range_succ, Finset.sum_range_zero, zero_add]
    rw [r0, r1, r2, r3, r4, A0, A1, A2, A3, A4, A5, x0, x1, x2, x3, x4]
    generalize hu : Real.cos (2 * (Real.pi / 5)) / Real.sin (2 * (Real.pi / 5)) = u
    generalize hv : Real.sin (Real.pi / 5) / Real.cos (Real.pi / 5) = v
    have hu0 : 0 < u := by rw [← hu]; exact div_pos hc1 (by linarith)
    have hu1 : u < 17 / 50 := by
      rw [← hu, div_lt_iff₀ (by linarith)]; linarith
    have hv0 : 0 < v := by rw [← hv]; exact div_pos (by linarith) (by linarith)
    have hv1 : v < 3 / 4 := by
      rw [← hv, div_lt_iff₀ (by linarith)]; linarith
    have huv : 0 < u * v := mul_pos hu0 hv0
    have hu2 : u * u < 17 / 50 * u := mul_lt_mul_of_pos_right hu1 hu0
    have e : (0 / ((centerPoint.length : ℕ) : ℝ) - (3 / 2 - u / 2 - 1 / 2) / 4) * -1
        + (0 / ((centerPoint.length : ℕ) : ℝ) - (5 / 2 - v / 2 - (3 / 2 - u / 2)) / 4) * u
        + (0 / ((centerPoint.length : ℕ) : ℝ) - (5 / 2 + v / 2 - (5 / 2 - v / 2)) / 4) * 1
        + (0 / ((centerPoint.length : ℕ) : ℝ) - (7 / 2 + u / 2 - (5 / 2 + v / 2)) / 4) * u
        + (0 / ((centerPoint.length : ℕ) : ℝ) - (9 / 2 - (7 / 2 + u / 2)) / 4) * -1
        = (2 - 3 * u - u * u - v + u * v) / 4 := by
      rw [zero_div]; ring
    rw [e]
    have : 0 < 2 - 3 * u - u * u - v + u * v := by linarith
    linarith
  refine ⟨s, p, hs, hpts, hppos, hpos, ?_⟩
  intro h
  rw [h] at hpos
  exact lt_irrefl _ hpos

/-! ### Four sectors around an interior position -/

theorem boundary_of (a b : ℝ) (h1 : -1 ≤ a) (h2 : a ≤ 1) (h3 : -1 ≤ b) (h4 : b ≤ 1)
    (h : a = 1 ∨ a = -1 ∨ b = 1 ∨ b = -1) : max |a| |b| = 1 := by
  have ha : |a| ≤ 1 := abs_le.mpr ⟨h1, h2⟩
  have hb : |b| ≤ 1 := abs_le.mpr ⟨h3, h4⟩
  rcases h with h | h | h | h
  · rw [h, abs_one]; exact max_eq_left hb
  · rw [h, abs_neg, abs_one]; exact max_eq_left hb
  · rw [h, abs_one]; exact max_eq_right ha
  · rw [h, abs_neg, abs_one]; exact max_eq_right ha

/-- Exit of a diagonal ray from an interior point: the boundary point reached
after moving `r` along both axes, with signs `ex` and `ey`. -/
theorem exit_diagonal (x y c s ex ey r : ℝ) (hx : -1 < x) (hx' : x < 1) (hy : -1 < y)
    (hy' : y < 1) (hc : c = ex * (√2 / 2)) (hs : s = ey * (√2 / 2))
    (hex : ex = 1 ∨ ex = -1) (hey : ey = 1 ∨ ey = -1) (hr : 0 < r)
    (h1 : -1 ≤ x + ex * r) (h2 : x + ex * r ≤ 1) (h3 : -1 ≤ y + ey * r) (h4 : y + ey * r ≤ 1)
    (h : x + ex * r = 1 ∨ x + ex * r = -1 ∨ y + ey * r = 1 ∨ y + ey * r = -1) :
    firstHit (rayOf x y c s) = some ⟨x + ex * r, y + ey * r⟩ := by
  have h2pos : (0 : ℝ) < √2 := Real.sqrt_pos.mpr (by norm_num)
  have hsq : √2 * √2 = 2 := Real.mul_self_sqrt (by norm_num)
  have hex2 : ex * ex = 1 := by rcases hex with h | h <;> rw [h] <;> norm_num
  have hey2 : ey * ey = 1 := by rcases hey with h | h <;> rw [h] <;> norm_num
  apply firstHit_unique x y c s _ (r * √2) hx hx' hy hy' _ (boundary_of _ _ h1 h2 h3 h4 h)
    (by positivity)
  · show x + ex * r = x + r * √2 * c
    rw [hc]; linear_combination (-(ex * r) / 2) * hsq
  · show y + ey * r = y + r * √2 * s
    rw [hs]; linear_combination (-(ey * r) / 2) * hsq
  · rw [hc, hs]
    linear_combination (ex * ex / 4 + ey * ey / 4) * hsq + (1 / 2) * hex2 + (1 / 2) * hey2

/-- Anchors of the four sectors of `K = 4` around an interior position: the exits
of the diagonal rays. -/
theorem anchor_four (x y r : ℝ) (k : ℕ) (ex ey : ℝ) (hx : -1 < x) (hx' : x < 1) (hy : -1 < y)
    (hy' : y < 1)
    (hk : (k = 0 ∧ ex = -1 ∧ ey = -1) ∨ (k = 1 ∧ ex = 1 ∧ ey = -1) ∨
      (k = 2 ∧ ex = 1 ∧ ey = 1) ∨ (k = 3 ∧ ex = -1 ∧ ey = 1))
    (hr : 0 < r)
    (h1 : -1 ≤ x + ex * r) (h2 : x + ex * r ≤ 1) (h3 : -1 ≤ y + ey * r) (h4 : y + ey * r ≤ 1)
    (h : x + ex * r = 1 ∨ x + ex * r = -1 ∨ y + ey * r = 1 ∨ y + ey * r = -1) :
    (sectorOf ⟨x, y⟩ 4 k).anchor = ⟨x + ex * r, y + ey * r⟩ := by
  have hk4 : k < 4 := by rcases hk with h | h | h | h <;> omega
  have ha := sectorOf_anchor x y 4 k hx hx' hy hy' le_rfl hk4
  have hexit : firstHit (rayOf x y
      (-Real.cos (((k : ℝ) * (2 * Real.pi / ((4 : ℕ) : ℝ))
        + ((k : ℝ) + 1) * (2 * Real.pi / ((4 : ℕ) : ℝ))) / 2))
      (-Real.sin (((k : ℝ) * (2 * Real.pi / ((4 : ℕ) : ℝ))
        + ((k : ℝ) + 1) * (2 * Real.pi / ((4 : ℕ) : ℝ))) / 2)))
      = some ⟨x + ex * r, y + ey * r⟩ := by
    apply exit_diagonal x y _ _ ex ey r hx hx' hy hy' _ _ _ _ hr h1 h2 h3 h4 h
    · rcases hk with ⟨rfl, rfl, _⟩ | ⟨rfl, rfl, _⟩ | ⟨rfl, rfl, _⟩ | ⟨rfl, rfl, _⟩
      · have e : (((0 : ℕ) : ℝ) * (2 * Real.pi / ((4 : ℕ) : ℝ))
            + (((0 : ℕ) : ℝ) + 1) * (2 * Real.pi / ((4 : ℕ) : ℝ))) / 2 = Real.pi / 4 := by
          push_cast; ring
        rw [e, Real.cos_pi_div_four]; ring
      · have e : (((1 : ℕ) : ℝ) * (2 * Real.pi / ((4 : ℕ) : ℝ))
            + (((1 : ℕ) : ℝ) + 1) * (2 * Real.pi / ((4 : ℕ) : ℝ))) / 2
            = Real.pi - Real.pi / 4 := by
          push_cast; ring
        rw [e, Real.cos_pi_sub, Real.cos_pi_div_four]; ring
      · have e : (((2 : ℕ) : ℝ) * (2 * Real.pi / ((4 : ℕ) : ℝ))
            + (((2 : ℕ) : ℝ) + 1) * (2 * Real.pi / ((4 : ℕ) : ℝ))) / 2
            = Real.pi / 4 + Real.pi := by
          push_cast; ring
        rw [e, Real.cos_add_pi, Real.cos_pi_div_four]; ring
      · have e : (((3 : ℕ) : ℝ) * (2 * Real.pi / ((4 : ℕ) : ℝ))
            + (((3 : ℕ) : ℝ) + 1) * (2 * Real.pi / ((4 : ℕ) : ℝ))) / 2
            = 2 * Real.pi - Real.pi / 4 := by
          push_cast; ring
        rw [e, Real.cos_two_pi_sub, Real.cos_pi_div_four]; ring
    · rcases hk with ⟨rfl, _, rfl⟩ | ⟨rfl, _, rfl⟩ | ⟨rfl, _, rfl⟩ | ⟨rfl, _, rfl⟩
      · have e : (((0 : ℕ) : ℝ) * (2 * Real.pi / ((4 : ℕ) : ℝ))
            + (((0 : ℕ) : ℝ) + 1) * (2 * Real.pi / ((4 : ℕ) : ℝ))) / 2 = Real.pi / 4 := by
          push_cast; ring
        rw [e, Real.sin_pi_div_four]; ring
      · have e : (((1 : ℕ) : ℝ) * (2 * Real.pi / ((4 : ℕ) : ℝ))
            + (((1 : ℕ) : ℝ) + 1) * (2 * Real.pi / ((4 : ℕ) : ℝ))) / 2
            = Real.pi - Real.pi / 4 := by
          push_cast; ring
        rw [e, Real.sin_pi_sub, Real.sin_pi_div_four]; ring
      · have e : (((2 : ℕ) : ℝ) * (2 * Real.pi / ((4 : ℕ) : ℝ))
            + (((2 : ℕ) : ℝ) + 1) * (2 * Real.pi / ((4 : ℕ) : ℝ))) / 2
            = Real.pi / 4 + Real.pi := by
          push_cast; ring
        rw [e, Real.sin_add_pi, Real.sin_pi_div_four]; ring
      · have e : (((3 : ℕ) : ℝ) * (2 * Real.pi / ((4 : ℕ) : ℝ))
            + (((3 : ℕ) : ℝ) + 1) * (2 * Real.pi / ((4 : ℕ) : ℝ))) / 2
            = 2 * Real.pi - Real.pi / 4 := by
          push_cast; ring
        rw [e, Real.sin_two_pi_sub, Real.sin_pi_div_four]; ring
    · rcases hk with ⟨_, h, _⟩ | ⟨_, h, _⟩ | ⟨_, h, _⟩ | ⟨_, h, _⟩ <;> rw [h] <;> simp
    · rcases hk with ⟨_, _, h⟩ | ⟨_, _, h⟩ | ⟨_, _, h⟩ | ⟨_, _, h⟩ <;> rw [h] <;> simp
  rw [hexit] at ha
  exact (Option.some.inj ha).symm

/-- Swept areas at the five axis rays of `K = 4` around an interior position. -/
theorem square_cumAt (x y : ℝ) (hx : -1 < x) (hx' : x < 1) (hy : -1 < y) (hy' : y < 1) :
    (cumAt x y 4 0).1 = 1 / 2 * (1 - x) * (y + 1) ∧
    (cumAt x y 4 1).1 = (1 - x) + 1 / 2 * (1 - y) * (1 - x) ∧
    (cumAt x y 4 2).1 = (1 - x) + (1 - y) + 1 / 2 * (1 + x) * (1 - y) ∧
    (cumAt x y 4 3).1 = (1 - x) + (1 - y) + (1 + x) + 1 / 2 * (1 + y) * (x + 1) ∧
    (cumAt x y 4 4).1 = 1 / 2 * (1 - x) * (y + 1) + 4 := by
  have e0 : sectorAngle 4 0 = 0 := by unfold sectorAngle; simp
  have e1 : sectorAngle 4 1 = Real.pi / 2 := by unfold sectorAngle; push_cast; ring
  have e2 : sectorAngle 4 2 = Real.pi := by unfold sectorAngle; push_cast; ring
  have e3 : sectorAngle 4 3 = Real.pi / 2 + Real.pi := by unfold sectorAngle; push_cast; ring
  have q0 : quadrantOf 4 0 = 0 := by decide
  have q1 : quadrantOf 4 1 = 1 := by decide
  have q2 : quadrantOf 4 2 = 2 := by decide
  have q3 : quadrantOf 4 3 = 3 := by decide
  have hR : boundedHit (rayOf x y 1 0) ⟨⟨1, -1⟩, ⟨1, 1⟩⟩ = some ⟨1, y⟩ :=
    (hit_right_iff x y 1 0 ⟨1, y⟩ hx hx' hy hy' (by norm_num)).mpr
      ⟨by norm_num, rfl, le_of_lt hy, le_of_lt hy', by simp⟩
  have hT : boundedHit (rayOf x y 0 1) ⟨⟨-1, 1⟩, ⟨1, 1⟩⟩ = some ⟨x, 1⟩ :=
    (hit_top_iff x y 0 1 ⟨x, 1⟩ hx hx' hy hy' (by norm_num)).mpr
      ⟨by norm_num, rfl, le_of_lt hx, le_of_lt hx', by simp⟩
  have hL : boundedHit (rayOf x y (-1) 0) ⟨⟨-1, -1⟩, ⟨-1, 1⟩⟩ = some ⟨-1, y⟩ :=
    (hit_left_iff x y (-1) 0 ⟨-1, y⟩ hx hx' hy hy' (by norm_num)).mpr
      ⟨by norm_num, rfl, le_of_lt hy, le_of_lt hy', by simp⟩
  have hB : boundedHit (rayOf x y 0 (-1)) ⟨⟨-1, -1⟩, ⟨1, -1⟩⟩ = some ⟨x, -1⟩ :=
    (hit_bottom_iff x y 0 (-1) ⟨x, -1⟩ hx hx' hy hy' (by norm_num)).mpr
      ⟨by norm_num, rfl, le_of_lt hx, le_of_lt hx', by simp⟩
  have hA0 : (cumAt x y 4 0).1 = 1 / 2 * (1 - x) * (y + 1) := by
    unfold cumAt
    rw [q0, e0, Real.cos_zero, Real.sin_zero]
    simp only [cumulative, right, bottomright, topright, hR, sweptR]
  have ht := (cumAt_total x y 4 hx hx' hy hy' le_rfl).1
  refine ⟨hA0, ?_, ?_, ?_, by linarith⟩
  · unfold cumAt
    rw [q1, e1, Real.cos_pi_div_two, Real.sin_pi_div_two]
    simp only [cumulative, top, topleft, topright, hT, sweptT]
  · unfold cumAt
    rw [q2, e2, Real.cos_pi, Real.sin_pi]
    simp only [cumulative, left, bottomleft, topleft, hL, sweptL]
  · unfold cumAt
    rw [q3, e3, Real.cos_add_pi, Real.sin_add_pi, Real.cos_pi_div_two, Real.sin_pi_div_two,
      neg_zero]
    simp only [cumulative, bottom, bottomleft, bottomright, hB, sweptB]

/-- Areas of the four sectors of `K = 4` around an interior position: the four
rectangles cut by the axis-parallel lines through the position. -/
theorem square_areas (x y : ℝ) (hx : -1 < x) (hx' : x < 1) (hy : -1 < y) (hy' : y < 1) :
    (sectorOf ⟨x, y⟩ 4 0).area = (1 - x) * (1 - y) ∧
    (sectorOf ⟨x, y⟩ 4 1).area = (1 + x) * (1 - y) ∧
    (sectorOf ⟨x, y⟩ 4 2).area = (1 + x) * (1 + y) ∧
    (sectorOf ⟨x, y⟩ 4 3).area = (1 - x) * (1 + y) := by
  obtain ⟨A0, A1, A2, A3, A4⟩ := square_cumAt x y hx hx' hy hy'
  have r0 : (sectorOf ⟨x, y⟩ 4 0).area = (cumAt x y 4 1).1 - (cumAt x y 4 0).1 :=
    sectorOf_area x y 4 0 hx hx' hy hy' le_rfl (by norm_num)
  have r1 : (sectorOf ⟨x, y⟩ 4 1).area = (cumAt x y 4 2).1 - (cumAt x y 4 1).1 :=
    sectorOf_area x y 4 1 hx hx' hy hy' le_rfl (by norm_num)
  have r2 : (sectorOf ⟨x, y⟩ 4 2).area = (cumAt x y 4 3).1 - (cumAt x y 4 2).1 :=
    sectorOf_area x y 4 2 hx hx' hy hy' le_rfl (by norm_num)
  have r3 : (sectorOf ⟨x, y⟩ 4 3).area = (cumAt x y 4 4).1 - (cumAt x y 4 3).1 :=
    sectorOf_area x y 4 3 hx hx' hy hy' le_rfl (by norm_num)
  rw [r0, r1, r2, r3, A0, A1, A2, A3, A4]
  refine ⟨by ring, by ring, by ring, by ring⟩

/-! ### Counts for four sectors -/

/-- The sector index of the counting loop for four sectors, by the signs of the
coordinates of `other - current`. -/
theorem sectorIndex_four (cur oth : QPointF ℝ) (hne : oth ≠ cur) :
    (0 < oth.x - cur.x → 0 < oth.y - cur.y → Scatterplot.sectorIndex cur oth 4 = 0) ∧
    (oth.x - cur.x ≤ 0 → 0 < oth.y - cur.y → Scatterplot.sectorIndex cur oth 4 = 1) ∧
    (oth.x - cur.x < 0 → oth.y - cur.y ≤ 0 → Scatterplot.sectorIndex cur oth 4 = 2) ∧
    (0 ≤ oth.x - cur.x → oth.y - cur.y ≤ 0 → Scatterplot.sectorIndex cur oth 4 = 3) := by
  have hpi := Real.pi_pos
  have hturn : directionAngleTurn cur oth
      = if Complex.arg ⟨oth.x - cur.x, oth.y - cur.y⟩ ≤ 0
        then Complex.arg ⟨oth.x - cur.x, oth.y - cur.y⟩ + 2 * Real.pi
        else Complex.arg ⟨oth.x - cur.x, oth.y - cur.y⟩ := rfl
  have hlo := Complex.neg_pi_lt_arg ⟨oth.x - cur.x, oth.y - cur.y⟩
  have hhi := Complex.arg_le_pi ⟨oth.x - cur.x, oth.y - cur.y⟩
  refine ⟨fun hx hy => ?_, fun hx hy => ?_, fun hx hy => ?_, fun hx hy => ?_⟩
  · rw [sectorIndex_eq_iff cur oth 4 0 hne (by norm_num)]
    have h0 : 0 ≤ Complex.arg ⟨oth.x - cur.x, oth.y - cur.y⟩ :=
      Complex.arg_nonneg_iff.mpr (le_of_lt hy)
    have h0' : Complex.arg ⟨oth.x - cur.x, oth.y - cur.y⟩ ≠ 0 := by
      intro h
      have := (Complex.arg_eq_zero_iff.mp h).2
      simp only at this
      linarith
    have h1 : 0 < Complex.arg ⟨oth.x - cur.x, oth.y - cur.y⟩ := lt_of_le_of_ne h0 (Ne.symm h0')
    have h2 : Complex.arg ⟨oth.x - cur.x, oth.y - cur.y⟩ < Real.pi / 2 :=
      Complex.arg_lt_pi_div_two_iff.mpr (Or.inl hx)
    unfold InSectorIntervalLastClosed
    rw [hturn, if_neg (not_le.mpr h1)]
    constructor
    · push_cast; linarith
    · left; push_cast; linarith
  · rw [sectorIndex_eq_iff cur oth 4 1 hne (by norm_num)]
    have h0 : 0 ≤ Complex.arg ⟨oth.x - cur.x, oth.y - cur.y⟩ :=
      Complex.arg_nonneg_iff.mpr (le_of_lt hy)
    have h2 : ¬ Complex.arg ⟨oth.x - cur.x, oth.y - cur.y⟩ < Real.pi / 2 := by
      rw [Complex.arg_lt_pi_div_two_iff]
      push_neg
      refine ⟨hx, le_of_lt hy, ?_⟩
      intro h
      have := congrArg Complex.im h
      simp only [Complex.zero_im] at this
      linarith
    have h3 : Complex.arg ⟨oth.x - cur.x, oth.y - cur.y⟩ ≠ Real.pi := by
      intro h
      have := (Complex.arg_eq_pi_iff.mp h).2
      simp only at this
      linarith
    have h4 : Complex.arg ⟨oth.x - cur.x, oth.y - cur.y⟩ < Real.pi := lt_of_le_of_ne hhi h3
    push_neg at h2
    unfold InSectorIntervalLastClosed
    rw [hturn, if_neg (not_le.mpr (by linarith))]
    constructor
    · push_cast; linarith
    · left; push_cast; linarith
  · rw [sectorIndex_eq_iff cur oth 4 2 hne (by norm_num)]
    unfold InSectorIntervalLastClosed
    rcases eq_or_lt_of_le hy with h | h
    · have h5 : Complex.arg ⟨oth.x - cur.x, oth.y - cur.y⟩ = Real.pi :=
        Complex.arg_eq_pi_iff.mpr ⟨hx, h⟩
      rw [hturn, h5, if_neg (not_le.mpr hpi)]
      constructor
      · push_cast; linarith
      · left; push_cast; linarith
    · have h5 : Complex.arg ⟨oth.x - cur.x, oth.y - cur.y⟩ < 0 := Complex.arg_neg_iff.mpr h
      have h6 : ¬ -(Real.pi / 2) ≤ Complex.arg ⟨oth.x - cur.x, oth.y - cur.y⟩ := by
        rw [Complex.neg_pi_div_two_le_arg_iff]
        push_neg
        exact ⟨hx, h⟩
      push_neg at h6
      rw [hturn, if_pos (le_of_lt h5)]
      constructor
      · push_cast; linarith
      · left; push_cast; linarith
  · rw [sectorIndex_eq_iff cur oth 4 3 hne (by norm_num)]
    unfold InSectorIntervalLastClosed
    rcases eq_or_lt_of_le hy with h | h
    · have h5 : Complex.arg ⟨oth.x - cur.x, oth.y - cur.y⟩ = 0 :=
        Complex.arg_eq_zero_iff.mpr ⟨hx, h⟩
      rw [hturn, h5, if_pos le_rfl]
      constructor
      · push_cast; linarith
      · right; rfl
    · have h5 : Complex.arg ⟨oth.x - cur.x, oth.y - cur.y⟩ < 0 := Complex.arg_neg_iff.mpr h
      have h6 : -(Real.pi / 2) ≤ Complex.arg ⟨oth.x - cur.x, oth.y - cur.y⟩ :=
        Complex.neg_pi_div_two_le_arg_iff.mpr (Or.inl hx)
      rw [hturn, if_pos (le_of_lt h5)]
      constructor
      · push_cast; linarith
      · right; rfl

theorem countP_four {α : Type} (f : α → Bool) (a b c d : α) :
    List.countP f [a, b, c, d] = (if f a = true then 1 else 0) + (if f b = true then 1 else 0)
      + (if f c = true then 1 else 0) + (if f d = true then 1 else 0) := by
  rw [List.countP_cons, List.countP_cons, List.countP_cons, List.countP_cons, List.countP_nil]
  omega

/-- The counting test on the point itself. -/
theorem counted_self (i : ℕ) (q p : QPointF ℝ) (k : ℕ) :
    (if decide (counted i q (i, p) ∧ Scatterplot.sectorIndex q p 4 = k) = true then 1 else 0)
      = 0 := by
  simp [counted]

/-- The counting test on another point whose position the comparison `==` does
not equate with the current position, with a known sector index. -/
theorem counted_other (i j : ℕ) (q p : QPointF ℝ) (n k : ℕ) (hij : i ≠ j)
    (hp : ¬ QPointF.operatorEq p q)
    (hidx : Scatterplot.sectorIndex q p 4 = n) :
    (if decide (counted i q (j, p) ∧ Scatterplot.sectorIndex q p 4 = k) = true then 1 else 0)
      = if n = k then 1 else 0 := by
  simp [counted, hij, hp, hidx]

/-- Coordinates of the total deformation of a point of a layout of four points
analysed with four sectors, from its counts and the exits of its diagonal rays. -/
theorem four_sector_total (points : List (QPointF ℝ)) (s : Scatterplot) (i : ℕ) (p : Point)
    (x y r0 r1 r2 r3 : ℝ) (count : ℕ → ℝ)
    (hs : Scatterplot.make points 4 = .ok s) (hp : s._points[i]? = some p)
    (hpos : p.position = ⟨x, y⟩) (hlen : points.length = 4)
    (hx : -1 < x) (hx' : x < 1) (hy : -1 < y) (hy' : y < 1)
    (hcount : ∀ (k : ℕ) (S : Sector ℝ), p.sectors[k]? = some S → S.points_count = count k)
    (a0 : (sectorOf ⟨x, y⟩ 4 0).anchor = ⟨x + -1 * r0, y + -1 * r0⟩)
    (a1 : (sectorOf ⟨x, y⟩ 4 1).anchor = ⟨x + 1 * r1, y + -1 * r1⟩)
    (a2 : (sectorOf ⟨x, y⟩ 4 2).anchor = ⟨x + 1 * r2, y + 1 * r2⟩)
    (a3 : (sectorOf ⟨x, y⟩ 4 3).anchor = ⟨x + -1 * r3, y + 1 * r3⟩) :
    p.deformation_total.x
        = (count 0 / 4 - (1 - x) * (1 - y) / 4) * (x - r0)
          + (count 1 / 4 - (1 + x) * (1 - y) / 4) * (x + r1)
          + (count 2 / 4 - (1 + x) * (1 + y) / 4) * (x + r2)
          + (count 3 / 4 - (1 - x) * (1 + y) / 4) * (x - r3) ∧
      p.deformation_total.y
        = (count 0 / 4 - (1 - x) * (1 - y) / 4) * (y - r0)
          + (count 1 / 4 - (1 + x) * (1 - y) / 4) * (y - r1)
          + (count 2 / 4 - (1 + x) * (1 + y) / 4) * (y + r2)
          + (count 3 / 4 - (1 - x) * (1 + y) / 4) * (y + r3) := by
  obtain ⟨tx, ty⟩ := make_total_sums points 4 s i p hs hp count hcount
  obtain ⟨s0, s1, s2, s3⟩ := square_areas x y hx hx' hy hy'
  rw [hpos, hlen] at tx ty
  rw [tx, ty]
  simp only [Finset.sum_range_succ, Finset.sum_range_zero, zero_add]
  rw [s0, s1, s2, s3, a0, a1, a2, a3]
  push_cast
  constructor <;> ring

/-! ### The four corner points -/

theorem cornerPoints_interior :
    ∀ q ∈ cornerPoints, -1 < q.x ∧ q.x < 1 ∧ -1 < q.y ∧ q.y < 1 := by
  intro q hq
  simp only [cornerPoints, List.mem_cons, List.mem_singleton, List.not_mem_nil, or_false] at hq
  rcases hq with rfl | rfl | rfl | rfl <;> norm_num

theorem cornerPoints_enum :
    cornerPoints.enum = [(0, ⟨-0.99, -0.99⟩), (1, ⟨-0.99, 0.99⟩), (2, ⟨0.99, -0.99⟩),
      (3, ⟨0.99, 0.99⟩)] := rfl

theorem point_ne (a b c d : ℝ) (h : a ≠ c ∨ b ≠ d) : (⟨a, b⟩ : QPointF ℝ) ≠ ⟨c, d⟩ := by
  intro he
  rcases h with h | h
  · exact h (congrArg QPointF.x he)
  · exact h (congrArg QPointF.y he)

/-- Total deformation of the point `(-0.99, -0.99)` of the four corner points. -/
theorem corner_total_0 (s : Scatterplot) (p : Point)
    (hs : Scatterplot.make cornerPoints 4 = .ok s) (hp : s._points[0]? = some p) :
    p.position = ⟨-0.99, -0.99⟩ ∧ 0 < p.deformation_total.x ∧ 0 < p.deformation_total.y := by
  have hpos := make_position_getElem cornerPoints 4 s 0 p ⟨-0.99, -0.99⟩ hs hp rfl
  have hx : (-1 : ℝ) < -0.99 := by norm_num
  have hx' : (-0.99 : ℝ) < 1 := by norm_num
  have i1 := (sectorIndex_four ⟨-0.99, -0.99⟩ ⟨-0.99, 0.99⟩
    (point_ne _ _ _ _ (Or.inr (by norm_num)))).2.1 (by norm_num) (by norm_num)
  have i2 := (sectorIndex_four ⟨-0.99, -0.99⟩ ⟨0.99, -0.99⟩
    (point_ne _ _ _ _ (Or.inl (by norm_num)))).2.2.2 (by norm_num) (by norm_num)
  have i3 := (sectorIndex_four ⟨-0.99, -0.99⟩ ⟨0.99, 0.99⟩
    (point_ne _ _ _ _ (Or.inl (by norm_num)))).1 (by norm_num) (by norm_num)
  have hcount : ∀ (k : ℕ) (S : Sector ℝ), p.sectors[k]? = some S →
      S.points_count = ((count3 1 3 0 k : ℕ) : ℝ) := by
    intro k S hS
    rw [make_points_count cornerPoints 4 s 0 k p S (by norm_num) hs hp hS, hpos,
      cornerPoints_enum, countP_four]
    dsimp only
    rw [counted_self, counted_other 0 1 _ _ 1 k (by norm_num)
        (point_far _ _ _ _ (by norm_num) (by norm_num) (by norm_num)) i1,
      counted_other 0 2 _ _ 3 k (by norm_num) (point_far _ _ _ _ (by norm_num) (by norm_num) (by norm_num)) i2,
      counted_other 0 3 _ _ 0 k (by norm_num) (point_far _ _ _ _ (by norm_num) (by norm_num) (by norm_num)) i3]
    unfold count3
    rw [zero_add]
  have a0 := anchor_four (-0.99) (-0.99) 0.01 0 (-1) (-1) hx hx' hx hx'
    (Or.inl ⟨rfl, rfl, rfl⟩) (by norm_num) (by norm_num) (by norm_num) (by norm_num)
    (by norm_num) (by norm_num)
  have a1 := anchor_four (-0.99) (-0.99) 0.01 1 1 (-1) hx hx' hx hx'
    (Or.inr (Or.inl ⟨rfl, rfl, rfl⟩)) (by norm_num) (by norm_num) (by norm_num) (by norm_num)
    (by norm_num) (by norm_num)
  have a2 := anchor_four (-0.99) (-0.99) 1.99 2 1 1 hx hx' hx hx'
    (Or.inr (Or.inr (Or.inl ⟨rfl, rfl, rfl⟩))) (by norm_num) (by norm_num) (by norm_num)
    (by norm_num) (by norm_num) (by norm_num)
  have a3 := anchor_four (-0.99) (-0.99) 0.01 3 (-1) 1 hx hx' hx hx'
    (Or.inr (Or.inr (Or.inr ⟨rfl, rfl, rfl⟩))) (by norm_num) (by norm_num) (by norm_num)
    (by norm_num) (by norm_num) (by norm_num)
  obtain ⟨tx, ty⟩ := four_sector_total cornerPoints s 0 p (-0.99) (-0.99) 0.01 0.01 1.99 0.01
    _ hs hp hpos rfl hx hx' hx hx' hcount a0 a1 a2 a3
  refine ⟨hpos, ?_, ?_⟩
  · rw [tx]; norm_num [count3]
  · rw [ty]; norm_num [count3]

/-- Total deformation of the point `(-0.99, 0.99)` of the four corner points. -/
theorem corner_total_1 (s : Scatterplot) (p : Point)
    (hs : Scatterplot.make cornerPoints 4 = .ok s) (hp : s._points[1]? = some p) :
    p.position = ⟨-0.99, 0.99⟩ ∧ 0 < p.deformation_total.x ∧ p.deformation_total.y < 0 := by
  have hpos := make_position_getElem cornerPoints 4 s 1 p ⟨-0.99, 0.99⟩ hs hp rfl
  have hx : (-1 : ℝ) < -0.99 := by norm_num
  have hx' : (-0.99 : ℝ) < 1 := by norm_num
  have hy : (-1 : ℝ) < 0.99 := by norm_num
  have hy' : (0.99 : ℝ) < 1 := by norm_num
  have i1 := (sectorIndex_four ⟨-0.99, 0.99⟩ ⟨-0.99, -0.99⟩
    (point_ne _ _ _ _ (Or.inr (by norm_num)))).2.2.2 (by norm_num) (by norm_num)
  have i2 := (sectorIndex_four ⟨-0.99, 0.99⟩ ⟨0.99, -0.99⟩
    (point_ne _ _ _ _ (Or.inl (by norm_num)))).2.2.2 (by norm_num) (by norm_num)
  have i3 := (sectorIndex_four ⟨-0.99, 0.99⟩ ⟨0.99, 0.99⟩
    (point_ne _ _ _ _ (Or.inl (by norm_num)))).2.2.2 (by norm_num) (by norm_num)
  have hcount : ∀ (k : ℕ) (S : Sector ℝ), p.sectors[k]? = some S →
      S.points_count = ((count3 3 3 3 k : ℕ) : ℝ) := by
    intro k S hS
    rw [make_points_count cornerPoints 4 s 1 k p S (by norm_num) hs hp hS, hpos,
      cornerPoints_enum, countP_four]
    dsimp only
    rw [counted_other 1 0 _ _ 3 k (by norm_num)
        (point_far _ _ _ _ (by norm_num) (by norm_num) (by norm_num)) i1,
      counted_self,
      counted_other 1 2 _ _ 3 k (by norm_num)
        (point_far _ _ _ _ (by norm_num) (by norm_num) (by norm_num)) i2,
      counted_other 1 3 _ _ 3 k (by norm_num)
        (point_far _ _ _ _ (by norm_num) (by norm_num) (by norm_num)) i3]
    unfold count3
    rw [add_zero]
  have a0 := anchor_four (-0.99) 0.99 0.01 0 (-1) (-1) hx hx' hy hy'
    (Or.inl ⟨rfl, rfl, rfl⟩) (by norm_num) (by norm_num) (by norm_num) (by norm_num)
    (by norm_num) (by norm_num)
  have a1 := anchor_four (-0.99) 0.99 1.99 1 1 (-1) hx hx' hy hy'
    (Or.inr (Or.inl ⟨rfl, rfl, rfl⟩)) (by norm_num) (by norm_num) (by norm_num) (by norm_num)
    (by norm_num) (by norm_num)
  have a2 := anchor_four (-0.99) 0.99 0.01 2 1 1 hx hx' hy hy'
    (Or.inr (Or.inr (Or.inl ⟨rfl, rfl, rfl⟩))) (by norm_num) (by norm_num) (by norm_num) (by norm_num)
    (by norm_num) (by norm_num)
  have a3 := anchor_four (-0.99) 0.99 0.01 3 (-1) 1 hx hx' hy hy'
    (Or.inr (Or.inr (Or.inr ⟨rfl, rfl, rfl⟩))) (by norm_num) (by norm_num) (by norm_num) (by norm_num)
    (by norm_num) (by norm_num)
  obtain ⟨tx, ty⟩ := four_sector_total cornerPoints s 1 p (-0.99) 0.99 0.01 1.99 0.01 0.01
    _ hs hp hpos rfl hx hx' hy hy' hcount a0 a1 a2 a3
  refine ⟨hpos, ?_, ?_⟩
  · rw [tx]; norm_num [count3]
  · rw [ty]; norm_num [count3]

/-- Total deformation of the point `(0.99, -0.99)` of the four corner points. -/
theorem corner_total_2 (s : Scatterplot) (p : Point)
    (hs : Scatterplot.make cornerPoints 4 = .ok s) (hp : s._points[2]? = some p) :
    p.position = ⟨0.99, -0.99⟩ ∧ p.deformation_total.x < 0 ∧ 0 < p.deformation_total.y := by
  have hpos := make_position_getElem cornerPoints 4 s 2 p ⟨0.99, -0.99⟩ hs hp rfl
  have hx : (-1 : ℝ) < 0.99 := by norm_num
  have hx' : (0.99 : ℝ) < 1 := by norm_num
  have hy : (-1 : ℝ) < -0.99 := by norm_num
  have hy' : (-0.99 : ℝ) < 1 := by norm_num
  have i1 := (sectorIndex_four ⟨0.99, -0.99⟩ ⟨-0.99, -0.99⟩
    (point_ne _ _ _ _ (Or.inl (by norm_num)))).2.2.1 (by norm_num) (by norm_num)
  have i2 := (sectorIndex_four ⟨0.99, -0.99⟩ ⟨-0.99, 0.99⟩
    (point_ne _ _ _ _ (Or.inl (by norm_num)))).2.1 (by norm_num) (by norm_num)
  have i3 := (sectorIndex_four ⟨0.99, -0.99⟩ ⟨0.99, 0.99⟩
    (point_ne _ _ _ _ (Or.inr (by norm_num)))).2.1 (by norm_num) (by norm_num)
  have hcount : ∀ (k : ℕ) (S : Sector ℝ), p.sectors[k]? = some S →
      S.points_count = ((count3 2 1 1 k : ℕ) : ℝ) := by
    intro k S hS
    rw [make_points_count cornerPoints 4 s 2 k p S (by norm_num) hs hp hS, hpos,
      cornerPoints_enum, countP_four]
    dsimp only
    rw [counted_other 2 0 _ _ 2 k (by norm_num)
        (point_far _ _ _ _ (by norm_num) (by norm_num) (by norm_num)) i1,
      counted_other 2 1 _ _ 1 k (by norm_num)
        (point_far _ _ _ _ (by norm_num) (by norm_num) (by norm_num)) i2,
      counted_self,
      counted_other 2 3 _ _ 1 k (by norm_num)
        (point_far _ _ _ _ (by norm_num) (by norm_num) (by norm_num)) i3]
    unfold count3
    rw [add_zero]
  have a0 := anchor_four 0.99 (-0.99) 0.01 0 (-1) (-1) hx hx' hy hy'
    (Or.inl ⟨rfl, rfl, rfl⟩) (by norm_num) (by norm_num) (by norm_num) (by norm_num)
    (by norm_num) (by norm_num)
  have a1 := anchor_four 0.99 (-0.99) 0.01 1 1 (-1) hx hx' hy hy'
    (Or.inr (Or.inl ⟨rfl, rfl, rfl⟩)) (by norm_num) (by norm_num) (by norm_num) (by norm_num)
    (by norm_num) (by norm_num)
  have a2 := anchor_four 0.99 (-0.99) 0.01 2 1 1 hx hx' hy hy'
    (Or.inr (Or.inr (Or.inl ⟨rfl, rfl, rfl⟩))) (by norm_num) (by norm_num) (by norm_num) (by norm_num)
    (by norm_num) (by norm_num)
  have a3 := anchor_four 0.99 (-0.99) 1.99 3 (-1) 1 hx hx' hy hy'
    (Or.inr (Or.inr (Or.inr ⟨rfl, rfl, rfl⟩))) (by norm_num) (by norm_num) (by norm_num) (by norm_num)
    (by norm_num) (by norm_num)
  obtain ⟨tx, ty⟩ := four_sector_total cornerPoints s 2 p 0.99 (-0.99) 0.01 0.01 0.01 1.99
    _ hs hp hpos rfl hx hx' hy hy' hcount a0 a1 a2 a3
  refine ⟨hpos, ?_, ?_⟩
  · rw [tx]; norm_num [count3]
  · rw [ty]; norm_num [count3]

/-- Total deformation of the point `(0.99, 0.99)` of the four corner points. -/
theorem corner_total_3 (s : Scatterplot) (p : Point)
    (hs : Scatterplot.make cornerPoints 4 = .ok s) (hp : s._points[3]? = some p) :
    p.position = ⟨0.99, 0.99⟩ ∧ p.deformation_total.x < 0 ∧ p.deformation_total.y < 0 := by
  have hpos := make_position_getElem cornerPoints 4 s 3 p ⟨0.99, 0.99⟩ hs hp rfl
  have hx : (-1 : ℝ) < 0.99 := by norm_num
  have hx' : (0.99 : ℝ) < 1 := by norm_num
  have hy : (-1 : ℝ) < 0.99 := by norm_num
  have hy' : (0.99 : ℝ) < 1 := by norm_num
  have i1 := (sectorIndex_four ⟨0.99, 0.99⟩ ⟨-0.99, -0.99⟩
    (point_ne _ _ _ _ (Or.inl (by norm_num)))).2.2.1 (by norm_num) (by norm_num)
  have i2 := (sectorIndex_four ⟨0.99, 0.99⟩ ⟨-0.99, 0.99⟩
    (point_ne _ _ _ _ (Or.inl (by norm_num)))).2.2.1 (by norm_num) (by norm_num)
  have i3 := (sectorIndex_four ⟨0.99, 0.99⟩ ⟨0.99, -0.99⟩
    (point_ne _ _ _ _ (Or.inr (by norm_num)))).2.2.2 (by norm_num) (by norm_num)
  have hcount : ∀ (k : ℕ) (S : Sector ℝ), p.sectors[k]? = some S →
      S.points_count = ((count3 2 2 3 k : ℕ) : ℝ) := by
    intro k S hS
    rw [make_points_count cornerPoints 4 s 3 k p S (by norm_num) hs hp hS, hpos,
      cornerPoints_enum, countP_four]
    dsimp only
    rw [counted_other 3 0 _ _ 2 k (by norm_num)
        (point_far _ _ _ _ (by norm_num) (by norm_num) (by norm_num)) i1,
      counted_other 3 1 _ _ 2 k (by norm_num)
        (point_far _ _ _ _ (by norm_num) (by norm_num) (by norm_num)) i2,
      counted_other 3 2 _ _ 3 k (by norm_num)
        (point_far _ _ _ _ (by norm_num) (by norm_num) (by norm_num)) i3,
      counted_self]
    unfold count3
    rw [add_zero]
  have a0 := anchor_four 0.99 0.99 1.99 0 (-1) (-1) hx hx' hy hy'
    (Or.inl ⟨rfl, rfl, rfl⟩) (by norm_num) (by norm_num) (by norm_num) (by norm_num)
    (by norm_num) (by norm_num)
  have a1 := anchor_four 0.99 0.99 0.01 1 1 (-1) hx hx' hy hy'
    (Or.inr (Or.inl ⟨rfl, rfl, rfl⟩)) (by norm_num) (by norm_num) (by norm_num) (by norm_num)
    (by norm_num) (by norm_num)
  have a2 := anchor_four 0.99 0.99 0.01 2 1 1 hx hx' hy hy'
    (Or.inr (Or.inr (Or.inl ⟨rfl, rfl, rfl⟩))) (by norm_num) (by norm_num) (by norm_num) (by norm_num)
    (by norm_num) (by norm_num)
  have a3 := anchor_four 0.99 0.99 0.01 3 (-1) 1 hx hx' hy hy'
    (Or.inr (Or.inr (Or.inr ⟨rfl, rfl, rfl⟩))) (by norm_num) (by norm_num) (by norm_num) (by norm_num)
    (by norm_num) (by norm_num)
  obtain ⟨tx, ty⟩ := four_sector_total cornerPoints s 3 p 0.99 0.99 1.99 0.01 0.01 0.01
    _ hs hp hpos rfl hx hx' hy hy' hcount a0 a1 a2 a3
  refine ⟨hpos, ?_, ?_⟩
  · rw [tx]; norm_num [count3]
  · rw [ty]; norm_num [count3]

/-- C15: for the four points `(-0.99,-0.99)`, `(-0.99,0.99)`, `(0.99,-0.99)`,
`(0.99,0.99)` analysed with four sectors at iteration 0, both coordinates of the
total deformation of every point are non-zero and of the sign opposite to the
corresponding coordinate of its position. -/
theorem corner_points_total_inward (c : Cache) (hc : Reachable cornerPoints c) :
    ∃ c' s, ScatterplotWidget.scatterplot cornerPoints c 4 0 = .ok (c', s) ∧
      (s._points.map fun p => p.position) = cornerPoints ∧
      ∀ p ∈ s._points, p.deformation_total.x ≠ 0 ∧ p.deformation_total.y ≠ 0 ∧
        p.deformation_total.x * p.position.x < 0 ∧
        p.deformation_total.y * p.position.y < 0 := by
  obtain ⟨s, hs⟩ := make_total cornerPoints 4 le_rfl cornerPoints_interior
  obtain ⟨c', h⟩ := scatterplot_total cornerPoints c 4 0 hc s hs
  have hlen := (make_ok _ _ _ hs).1
  refine ⟨c', s, h, make_position_eq _ _ _ hs, ?_⟩
  intro p hp
  obtain ⟨i, hi⟩ := List.getElem?_of_mem hp
  have hi4 : i < 4 := by
    have := (List.getElem?_eq_some.mp hi).1
    rw [hlen] at this
    simpa [cornerPoints] using this
  interval_cases i
  · obtain ⟨h1, h2, h3⟩ := corner_total_0 s p hs hi
    rw [h1]
    refine ⟨ne_of_gt h2, ne_of_gt h3, ?_, ?_⟩
    · show p.deformation_total.x * (-0.99) < 0
      linarith
    · show p.deformation_total.y * (-0.99) < 0
      linarith
  · obtain ⟨h1, h2, h3⟩ := corner_total_1 s p hs hi
    rw [h1]
    refine ⟨ne_of_gt h2, ne_of_lt h3, ?_, ?_⟩
    · show p.deformation_total.x * (-0.99) < 0
      linarith
    · show p.deformation_total.y * 0.99 < 0
      linarith
  · obtain ⟨h1, h2, h3⟩ := corner_total_2 s p hs hi
    rw [h1]
    refine ⟨ne_of_lt h2, ne_of_gt h3, ?_, ?_⟩
    · show p.deformation_total.x * 0.99 < 0
      linarith
    · show p.deformation_total.y * (-0.99) < 0
      linarith
  · obtain ⟨h1, h2, h3⟩ := corner_total_3 s p hs hi
    rw [h1]
    refine ⟨ne_of_lt h2, ne_of_lt h3, ?_, ?_⟩
    · show p.deformation_total.x * 0.99 < 0
      linarith
    · show p.deformation_total.y * 0.99 < 0
      linarith

theorem corner_points_total_inward_witness :
    ∃ c' s, ScatterplotWidget.scatterplot cornerPoints (fun _ => []) 4 0 = .ok (c', s) ∧
      (s._points.map fun p => p.position) = cornerPoints ∧
      ∀ p ∈ s._points, p.deformation_total.x ≠ 0 ∧ p.deformation_total.y ≠ 0 ∧
        p.deformation_total.x * p.position.x < 0 ∧
        p.deformation_total.y * p.position.y < 0 :=
  corner_points_total_inward _ Reachable.empty

end SectorRegularization
